import Mathlib

/-! Verification development for the `l2.16` site mirroring tool (`wget-go`).

Shallow embedding of `robots_parser/robots.go` and `downloader/downloader.go`.

Go strings are modelled as lists of characters (`Str`).  Library functions of the
Go standard library are modelled by the definitions of the section `Go`.
-/

namespace Wget

/-- Go `string`, as the list of its characters. -/
abbrev Str := List Char

/-! ## Go standard library -/

namespace Go

/-- The predicate `unicode.IsSpace`: the white space characters removed by `strings.TrimSpace`. -/
def isSpace (c : Char) : Bool :=
  let n := c.toNat
  (9 ≤ n && n ≤ 13) || n == 0x20 || n == 0x85 || n == 0xA0 || n == 0x1680 ||
  (0x2000 ≤ n && n ≤ 0x200A) || n == 0x2028 || n == 0x2029 || n == 0x202F ||
  n == 0x205F || n == 0x3000

/-- Removal of leading white space. -/
def trimLeft : Str → Str
  | [] => []
  | c :: cs => if isSpace c then trimLeft cs else c :: cs

/-- The function `strings.TrimSpace`: leading and trailing white space removed. -/
def TrimSpace (s : Str) : Str :=
  (trimLeft (trimLeft s).reverse).reverse

/-- The case tables of package `unicode` outside ASCII: the values of `unicode.ToLower` and of
`unicode.ToUpper` on the characters from U+0080 on. -/
class CaseTables where
  /-- The lower case of a character outside ASCII. -/
  lower : Char → Char
  /-- The upper case of a character outside ASCII. -/
  upper : Char → Char

variable [CaseTables]

/-- The function `unicode.ToLower`: in ASCII the letters `A`..`Z` are mapped to `a`..`z` and
any other character is unchanged; outside ASCII the case table is read. -/
def lowerChar (c : Char) : Char :=
  if c.toNat < 128 then
    (if 65 ≤ c.toNat ∧ c.toNat ≤ 90 then Char.ofNat (c.toNat + 32) else c)
  else CaseTables.lower c

/-- The function `strings.ToLower`: `unicode.ToLower` applied to every character. -/
def ToLower (s : Str) : Str := s.map lowerChar

/-- The function `unicode.ToUpper`: in ASCII the letters `a`..`z` are mapped to `A`..`Z` and
any other character is unchanged; outside ASCII the case table is read. -/
def upperChar (c : Char) : Char :=
  if c.toNat < 128 then
    (if 97 ≤ c.toNat ∧ c.toNat ≤ 122 then Char.ofNat (c.toNat - 32) else c)
  else CaseTables.upper c

/-- The function `strings.ToUpper`: `unicode.ToUpper` applied to every character. -/
def ToUpper (s : Str) : Str := s.map upperChar

/-- The function `strings.HasPrefix s prefix`. -/
def HasPrefix (s pre : Str) : Bool := pre.isPrefixOf s

/-- The call `strings.SplitN(line, ":", 2)`: `none` when the result has one part (the line
has no colon), otherwise the text before the first colon and the text after it. -/
def splitColon : Str → Option (Str × Str)
  | [] => none
  | c :: cs =>
    if c = ':' then some ([], cs)
    else match splitColon cs with
      | none => none
      | some (k, v) => some (c :: k, v)

/-- Pieces of a text between its newline characters (never an empty list). -/
def splitNL : Str → List Str
  | [] => [[]]
  | c :: cs =>
    if c = '\n' then [] :: splitNL cs
    else match splitNL cs with
      | [] => [[c]]
      | l :: ls => (c :: l) :: ls

/-- Number of bytes of the UTF-8 encoding of a character. -/
def utf8Len (c : Char) : Nat :=
  if c.toNat < 0x80 then 1 else if c.toNat < 0x800 then 2 else if c.toNat < 0x10000 then 3 else 4

/-- Number of bytes of a string. -/
def byteLen (s : Str) : Nat := (s.map utf8Len).sum

/-- The constant `bufio.MaxScanTokenSize`. -/
def MaxScanTokenSize : Nat := 64 * 1024

/-- The helper `dropCR` of `bufio.ScanLines`: one trailing carriage return is removed. -/
def dropCR (s : Str) : Str :=
  if s.getLast? = some '\r' then s.dropLast else s

/-- The lines of a text before the scanner's length limit is applied: the newline-terminated
lines, then the last line if it is not empty. -/
def rawLines (s : Str) : List Str :=
  let segs := splitNL s
  if segs.getLast? = some [] then segs.dropLast else segs

/-- The tokens delivered by `bufio.NewScanner(strings.NewReader(content))` with the default
split function `ScanLines`: scanning stops (with `ErrTooLong`) at the first line whose bytes
fill the buffer of `MaxScanTokenSize` bytes before a newline is seen. -/
def scanLines (content : Str) : List Str :=
  ((rawLines content).takeWhile (fun l => decide (byteLen l < MaxScanTokenSize))).map dropCR

/-- Pieces of a path between its slashes (never an empty list). -/
def splitSlash : Str → List Str
  | [] => [[]]
  | c :: cs =>
    if c = '/' then [] :: splitSlash cs
    else match splitSlash cs with
      | [] => [[c]]
      | l :: ls => (c :: l) :: ls

/-- The loop of `filepath.Clean` over the elements of a path.  `out` holds the elements
written so far, the last one first: an empty element and `.` are skipped; `..` removes the last
written element when there is one that is not `..`, is dropped in a rooted path, and is written
otherwise; any other element is written. -/
def cleanLoop (rooted : Bool) : List Str → List Str → List Str
  | [], out => out
  | seg :: rest, out =>
    if seg = [] ∨ seg = ['.'] then cleanLoop rooted rest out
    else if seg = ['.', '.'] then
      match out with
      | [] => if rooted then cleanLoop rooted rest [] else cleanLoop rooted rest [['.', '.']]
      | top :: below =>
        if top = ['.', '.'] then
          (if rooted then cleanLoop rooted rest (top :: below)
           else cleanLoop rooted rest (['.', '.'] :: top :: below))
        else cleanLoop rooted rest below
    else cleanLoop rooted rest (seg :: out)

/-- The function `filepath.Clean` for slash-separated paths (Unix). -/
def Clean (path : Str) : Str :=
  if path = [] then ['.']
  else
    let rooted := decide (path.head? = some '/')
    let body := List.intercalate ['/'] (cleanLoop rooted (splitSlash path) []).reverse
    if rooted then '/' :: body
    else if body = [] then ['.'] else body

/-- The function `filepath.Join` of two elements (Unix): the elements from the first
non-empty one on are joined by slashes and cleaned; two empty elements give the empty string. -/
def Join (dir rel : Str) : Str :=
  if dir ≠ [] then Clean (dir ++ '/' :: rel)
  else if rel ≠ [] then Clean rel
  else []

/-- The integer nearest to `num / den`, ties to the even one. -/
def roundHalfEven (num den : Nat) : Nat :=
  let q := num / den
  let r := num % den
  if 2 * r < den then q else if den < 2 * r then q + 1 else if q % 2 = 0 then q else q + 1

/-- The loop of `floorLog2`: halving until the number is below 2, at most `fuel` times. -/
def log2Loop : Nat → Nat → Nat
  | 0, _ => 0
  | fuel + 1, n => if n < 2 then 0 else log2Loop fuel (n / 2) + 1

/-- The position of the highest bit of a positive number (the floor of its binary
logarithm); zero for zero. -/
def floorLog2 (n : Nat) : Nat := log2Loop n n

/-- Rounding to `float64` (IEEE 754 binary64, round to nearest, ties to even) of the
non-negative number `num / den`.  Numbers are counted in units of `2^-1074`, the smallest
positive `float64`: a finite `float64` is a whole number of units, `m * 2^e` with
`m < 2^53`.  The result is the nearest such number; a result of `2^2098` units (`2^1024`) or
more stands for `+Inf`. -/
def roundFloat64 (num den : Nat) : Nat :=
  let t := num / den
  let e := if t = 0 then 0 else floorLog2 t - 52
  roundHalfEven num (den * 2 ^ e) * 2 ^ e

/-- The statements of lines 76-78 for the decimal number `a / 10^k`: `fmt.Sscanf` stores the
nearest `float64` (`strconv.ParseFloat`; on overflow it fails and `delay` stays zero), the
product with `float64(time.Second)` is rounded to `float64`, and the conversion to
`time.Duration` drops the fraction.  The result is `none` when the product is `2^63` or
more, where the conversion is implementation-dependent. -/
def float64Delay (a k : Nat) : Option Int :=
  let f : Nat := roundFloat64 (a * 2 ^ 1074) (10 ^ k)
  if 2 ^ 2098 ≤ f then some 0
  else
    let p : Nat := roundFloat64 (f * 10 ^ 9) 1
    let n : Nat := p / 2 ^ 1074
    if n < 2 ^ 63 then some (n : Int) else none

end Go

/-! ## `robots_parser/robots.go` -/

namespace Robots

open Go

variable [CaseTables]

/-- The struct `RobotsRule`; `CrawlDelay` is a `time.Duration`, a number of nanoseconds. -/
structure RobotsRule where
  UserAgent : Str
  Disallow : List Str
  Allow : List Str
  CrawlDelay : Int
deriving DecidableEq, Repr

/-- The struct `RobotsParser`.  `DefaultRule` is a pointer in the source; it is set to a rule
that is no longer written to, so it is modelled by the value it points to. -/
structure RobotsParser where
  Rules : List RobotsRule
  DefaultRule : Option RobotsRule
deriving DecidableEq, Repr

/-- State of the loop of `NewRobotsParser`: the parser under construction and `currentRule`. -/
structure ParseState where
  parser : RobotsParser
  currentRule : Option RobotsRule
deriving DecidableEq, Repr

/-- The block "save the previous rule" (lines 50-55 and 84-89): the current rule, if any, is
appended to `Rules`, and becomes `DefaultRule` when its agent is `*`. -/
def saveRule (p : RobotsParser) (currentRule : Option RobotsRule) : RobotsParser :=
  match currentRule with
  | none => p
  | some r =>
    { Rules := p.Rules ++ [r]
      DefaultRule := if r.UserAgent = ['*'] then some r else p.DefaultRule }

/-- One iteration of the scanner loop of `NewRobotsParser` (lines 32-80).  The argument
`sscanDelay` stands for lines 76-78: the duration obtained from the value of a `Crawl-delay`
line by `fmt.Sscanf(value, "%f", &delay)` and `time.Duration(delay * float64(time.Second))`. -/
def parseLine (sscanDelay : Str → Int) (st : ParseState) (text : Str) : ParseState :=
  let line := TrimSpace text
  if line = [] ∨ HasPrefix line ['#'] then st
  else match splitColon line with
    | none => st
    | some (k, v) =>
      let key := TrimSpace (ToLower k)
      let value := TrimSpace v
      if key = "user-agent".toList then
        { parser := saveRule st.parser st.currentRule
          currentRule := some { UserAgent := value, Disallow := [], Allow := [], CrawlDelay := 0 } }
      else if key = "disallow".toList then
        match st.currentRule with
        | some r =>
          if value ≠ [] then { st with currentRule := some { r with Disallow := r.Disallow ++ [value] } }
          else st
        | none => st
      else if key = "allow".toList then
        match st.currentRule with
        | some r =>
          if value ≠ [] then { st with currentRule := some { r with Allow := r.Allow ++ [value] } }
          else st
        | none => st
      else if key = "crawl-delay".toList then
        match st.currentRule with
        | some r => { st with currentRule := some { r with CrawlDelay := sscanDelay value } }
        | none => st
      else st

/-- The scanner loop over a list of lines. -/
def parseLines (sscanDelay : Str → Int) (st : ParseState) (lines : List Str) : ParseState :=
  lines.foldl (parseLine sscanDelay) st

/-- The function `NewRobotsParser`. -/
def NewRobotsParser (sscanDelay : Str → Int) (content : Str) : RobotsParser :=
  let st := parseLines sscanDelay { parser := { Rules := [], DefaultRule := none }, currentRule := none }
    (scanLines content)
  saveRule st.parser st.currentRule

/-- The search loop of `IsAllowed` (lines 100-105): the first rule whose lower-cased agent is
the (already lower-cased) queried agent. -/
def findRule : List RobotsRule → Str → Option RobotsRule
  | [], _ => none
  | r :: rs, userAgent => if ToLower r.UserAgent = userAgent then some r else findRule rs userAgent

/-- The rule that `IsAllowed` evaluates (lines 97-110), `none` when `rule == nil` at line 112. -/
def selectedRule (rp : RobotsParser) (userAgent : Str) : Option RobotsRule :=
  let userAgent := ToLower userAgent
  match findRule rp.Rules userAgent with
  | some r => some r
  | none => rp.DefaultRule

/-- The loop over `rule.Allow` (lines 117-121): `true` when the loop returns `true`. -/
def allowLoop : List Str → Str → Bool
  | [], _ => false
  | allowPath :: rest, urlPath => if HasPrefix urlPath allowPath then true else allowLoop rest urlPath

/-- The loop over `rule.Disallow` and the final `return true` (lines 124-133). -/
def disallowLoop : List Str → Str → Bool
  | [], _ => true
  | disallowPath :: rest, urlPath =>
    if disallowPath = ['/'] then false
    else if HasPrefix urlPath disallowPath then false
    else disallowLoop rest urlPath

/-- The evaluation of the selected rule (lines 116-133): the Allow loop, then the Disallow
loop. -/
def checkRule (rule : RobotsRule) (urlPath : Str) : Bool :=
  if allowLoop rule.Allow urlPath then true else disallowLoop rule.Disallow urlPath

/-- The method `RobotsParser.IsAllowed`. -/
def IsAllowed (rp : RobotsParser) (urlPath userAgent : Str) : Bool :=
  match selectedRule rp userAgent with
  | none => true
  | some rule => checkRule rule urlPath

/-- The loop of `GetCrawlDelay` (lines 140-144): the delay returned inside the loop, if any. -/
def delayLoop : List RobotsRule → Str → Option Int
  | [], _ => none
  | r :: rs, userAgent => if ToLower r.UserAgent = userAgent then some r.CrawlDelay else delayLoop rs userAgent

/-- The method `RobotsParser.GetCrawlDelay`. -/
def GetCrawlDelay (rp : RobotsParser) (userAgent : Str) : Int :=
  let userAgent := ToLower userAgent
  match delayLoop rp.Rules userAgent with
  | some d => d
  | none =>
    match rp.DefaultRule with
    | some r => r.CrawlDelay
    | none => 0

/-- The agent named by a line that the loop of `NewRobotsParser` takes as a `User-agent` line
(the line reaches the first case of the switch, lines 32-48); `none` for any other line. -/
def userAgentValue (text : Str) : Option Str :=
  let line := TrimSpace text
  if line = [] ∨ HasPrefix line ['#'] then none
  else match splitColon line with
    | none => none
    | some (k, v) => if TrimSpace (ToLower k) = "user-agent".toList then some (TrimSpace v) else none

/-- Whether a line is taken as a `User-agent` line. -/
def isUserAgentLine (text : Str) : Bool := (userAgentValue text).isSome

/-- The rules of a list whose agent is `*`. -/
def starRules (rules : List RobotsRule) : List RobotsRule :=
  rules.filter (fun r => decide (r.UserAgent = ['*']))

/-- The key and the value of a line that the loop of `NewRobotsParser` splits (lines 32-45):
the lower-cased trimmed text before the first colon and the trimmed text after it; `none` for
a line that is skipped (blank, comment, or without colon). -/
def directive (text : Str) : Option (Str × Str) :=
  let line := TrimSpace text
  if line = [] ∨ HasPrefix line ['#'] then none
  else match splitColon line with
    | none => none
    | some (k, v) => some (TrimSpace (ToLower k), TrimSpace v)

/-- The value of a `Disallow` line with a non-empty value; `none` for any other line. -/
def disallowValue (text : Str) : Option Str :=
  match directive text with
  | some (k, v) => if k = "disallow".toList ∧ v ≠ [] then some v else none
  | none => none

/-- The value of an `Allow` line with a non-empty value; `none` for any other line. -/
def allowValue (text : Str) : Option Str :=
  match directive text with
  | some (k, v) => if k = "allow".toList ∧ v ≠ [] then some v else none
  | none => none

/-- The agent, the Disallow list and the Allow list of a rule. -/
def ruleShape (r : RobotsRule) : Str × List Str × List Str := (r.UserAgent, r.Disallow, r.Allow)

/-- The lines of a group: the lines that follow a `User-agent` line, up to the next
`User-agent` line. -/
def groupLines (lines : List Str) : List Str :=
  lines.takeWhile (fun l => !isUserAgentLine l)

/-- The rule list as the specification describes it: one entry per `User-agent` line, in file
order, with the agent of the line and the non-empty values of the `Disallow` and of the
`Allow` lines of its group, in order; the lines before the first `User-agent` line give
nothing. -/
def specGroups : List Str → List (Str × List Str × List Str)
  | [] => []
  | l :: rest =>
    match userAgentValue l with
    | some agent =>
      (agent, (groupLines rest).filterMap disallowValue, (groupLines rest).filterMap allowValue)
        :: specGroups rest
    | none => specGroups rest

/-- A rule shape with more Disallow and Allow entries at the end. -/
def extendShape (ds as : List Str) (x : Str × List Str × List Str) : Str × List Str × List Str :=
  (x.1, x.2.1 ++ ds, x.2.2 ++ as)

/-- The switch of `NewRobotsParser` on the key and the value of a line (lines 47-80); a line
that is skipped (no key and value) leaves the state unchanged. -/
def applyDirective (sscanDelay : Str → Int) (st : ParseState) : Option (Str × Str) → ParseState
  | none => st
  | some (key, value) =>
    if key = "user-agent".toList then
      { parser := saveRule st.parser st.currentRule
        currentRule := some { UserAgent := value, Disallow := [], Allow := [], CrawlDelay := 0 } }
    else if key = "disallow".toList then
      match st.currentRule with
      | some r =>
        if value ≠ [] then { st with currentRule := some { r with Disallow := r.Disallow ++ [value] } }
        else st
      | none => st
    else if key = "allow".toList then
      match st.currentRule with
      | some r =>
        if value ≠ [] then { st with currentRule := some { r with Allow := r.Allow ++ [value] } }
        else st
      | none => st
    else if key = "crawl-delay".toList then
      match st.currentRule with
      | some r => { st with currentRule := some { r with CrawlDelay := sscanDelay value } }
      | none => st
    else st

/-- The keys of the switch of `NewRobotsParser`. -/
def knownKeys : List Str :=
  ["user-agent".toList, "disallow".toList, "allow".toList, "crawl-delay".toList]

/-- Whether the loop of `NewRobotsParser` ignores a line: the line is skipped (blank, comment
or without colon), or its key is none of the keys of the switch. -/
def isIgnoredLine (text : Str) : Bool :=
  match directive text with
  | none => true
  | some (k, _) => decide (k ∉ knownKeys)

/-- The rule set built from a list of lines: the lines before the first one that does not fit
the scanner's buffer are parsed, then the last rule is saved. -/
def parseDelivered (sscanDelay : Str → Int) (lines : List Str) : RobotsParser :=
  let st := parseLines sscanDelay
    { parser := { Rules := [], DefaultRule := none }, currentRule := none }
    ((lines.takeWhile (fun l => decide (byteLen l < MaxScanTokenSize))).map dropCR)
  saveRule st.parser st.currentRule

/-- Whether a character is a decimal digit. -/
def isDigit (c : Char) : Bool := decide (48 ≤ c.toNat ∧ c.toNat ≤ 57)

/-- The number written by a string of decimal digits. -/
def digitsValue (s : Str) : Nat := s.foldl (fun n c => 10 * n + (c.toNat - 48)) 0

/-- A non-negative decimal number: digits, optionally followed by a point and digits, with at
least one digit.  The result `(a, k)` stands for the number `a / 10^k`. -/
def decimalValue (v : Str) : Option (Nat × Nat) :=
  let ip := v.takeWhile isDigit
  match v.dropWhile isDigit with
  | [] => if ip = [] then none else some (digitsValue ip, 0)
  | c :: fp =>
    if c = '.' ∧ fp.all isDigit = true ∧ (ip ≠ [] ∨ fp ≠ []) then
      some (digitsValue (ip ++ fp), fp.length)
    else none

/-- The duration that lines 76-78 give for a value that is a non-negative decimal number;
`none` for any other value and where the conversion is implementation-dependent. -/
def decimalDelay (v : Str) : Option Int :=
  match decimalValue v with
  | some (a, k) => float64Delay a k
  | none => none

/-- The value of a line that the loop of `NewRobotsParser` takes as a `Crawl-delay` line;
`none` for any other line. -/
def crawlDelayValue (text : Str) : Option Str :=
  match directive text with
  | some (k, v) => if k = "crawl-delay".toList then some v else none
  | none => none

/-- The crawl delay of a rule after the lines of its group: the duration of the value of the
last `Crawl-delay` line of the group, and `d0` for a group without such a line. -/
def delayAfter (sscanDelay : Str → Int) (d0 : Int) (lines : List Str) : Int :=
  match ((groupLines lines).filterMap crawlDelayValue).getLast? with
  | some v => sscanDelay v
  | none => d0

/-- The crawl delays as the specification describes them: one entry per `User-agent` line, in
file order, with the duration of the last `Crawl-delay` line of its group, zero for a group
without one. -/
def specDelays (sscanDelay : Str → Int) : List Str → List Int
  | [] => []
  | l :: rest =>
    match userAgentValue l with
    | some _ => delayAfter sscanDelay 0 rest :: specDelays sscanDelay rest
    | none => specDelays sscanDelay rest

end Robots

/-! ## `config/config.go` and `downloader/downloader.go` -/

namespace Crawler

open Go Robots

variable [CaseTables]

/-- The struct `config.Config`; `Timeout` is a `time.Duration`. -/
structure Config where
  MaxDepth : Int
  MaxConcurrent : Int
  Timeout : Int
  UserAgent : Str
  OutputDir : Str
  RespectRobotsTxt : Bool
deriving DecidableEq, Repr

/-- The fields of `url.URL` that the downloader reads or writes. -/
structure URL where
  Scheme : Str
  Host : Str
  Path : Str
  RawQuery : Str
  Fragment : Str
deriving DecidableEq, Repr

/-- What the downloader reads of an `http.Response`: the status code, the `Content-Type`
header and the result of `io.ReadAll(resp.Body)` (`none` for a read error). -/
structure Response where
  StatusCode : Int
  ContentType : Str
  Body : Option Str
deriving DecidableEq, Repr

/-- The tree of `html.Node`: whether the node is an `ElementNode`, its `Data`, its attributes
(key and value) and its children from `FirstChild` along `NextSibling`. -/
inductive Node where
  | mk (isElement : Bool) (Data : Str) (Attr : List (Str × Str)) (children : List Node)

/-- The external collaborators of the downloader: URL parsing and printing (`net/url`), the
HTTP client, the HTML parser and the file system. -/
structure World where
  /-- The function `url.Parse`; `none` is an error. -/
  Parse : Str → Option URL
  /-- The call `base.ResolveReference(ref)`. -/
  ResolveReference : URL → URL → URL
  /-- The method `(*url.URL).String`. -/
  URLString : URL → Str
  /-- Whether `http.NewRequest("GET", url, nil)` succeeds. -/
  NewRequest : Str → Bool
  /-- The call `d.client.Do(req)` for a GET request of the URL; `none` is an error. -/
  Do : Str → Option Response
  /-- The function `html.Parse`; `none` is an error. -/
  HtmlParse : Str → Option Node
  /-- The function `filepath.Join` of two elements. -/
  Join : Str → Str → Str
  /-- Whether `saveFile` (`os.MkdirAll` and `os.WriteFile`) succeeds for a path and content. -/
  WriteOK : Str → Str → Bool
  /-- Whether `os.MkdirAll(dir, 0755)` of `Download` succeeds for the output directory. -/
  MkdirAll : Str → Bool

/-- The fields of `Downloader` that are fixed once `NewDownloader` has returned. -/
structure Downloader where
  config : Config
  baseURL : URL
  robotsParser : Option RobotsParser

/-- The function `strings.Contains`. -/
def Contains (s sub : Str) : Bool := s.tails.any (fun t => sub.isPrefixOf t)

/-- The function `strings.HasSuffix`. -/
def HasSuffix (s suf : Str) : Bool := suf.isSuffixOf s

/-- The function `strings.TrimPrefix`. -/
def TrimPrefix (s pre : Str) : Str := if pre.isPrefixOf s then s.drop pre.length else s

/-- The loop of `path.Ext` on the reversed path: `acc` holds the characters already passed. -/
def extLoop : Str → Str → Str
  | [], _ => []
  | c :: cs, acc => if c = '/' then [] else if c = '.' then '.' :: acc else extLoop cs (c :: acc)

/-- The function `path.Ext`: the suffix that starts at the last dot of the last element. -/
def Ext (path : Str) : Str := extLoop path.reverse []

/-- The method `isAllowedByRobots`. -/
def isAllowedByRobots (d : Downloader) (urlPath : Str) : Bool :=
  match d.config.RespectRobotsTxt, d.robotsParser with
  | true, some rp => IsAllowed rp urlPath d.config.UserAgent
  | _, _ => true

/-- The method `normalizeURL`. -/
def normalizeURL (W : World) (d : Downloader) (href : Str) (baseURL : URL) : Str :=
  let href := TrimSpace href
  if href = [] ∨ HasPrefix href "#".toList ∨ HasPrefix href "javascript:".toList ∨
      HasPrefix href "mailto:".toList ∨ HasPrefix href "tel:".toList then []
  else match W.Parse href with
    | none => []
    | some parsedURL =>
      let absoluteURL := W.ResolveReference baseURL parsedURL
      if absoluteURL.Host ≠ d.baseURL.Host then []
      else W.URLString { absoluteURL with Fragment := [] }

/-- The switch of `extractLinks` on the element name (lines 262-270). -/
def linkAttr (data : Str) : Str :=
  if data = "a".toList ∨ data = "link".toList then "href".toList
  else if data = "script".toList ∨ data = "img".toList then "src".toList
  else if data = "source".toList then "srcset".toList
  else []

/-- The variables `links` and `seen` of `extractLinks`; `seen` is the list of its keys. -/
structure LinkState where
  links : List Str
  seen : List Str
deriving DecidableEq, Repr

/-- The loop over the attributes of one element (lines 273-281). -/
def attrLoop (W : World) (d : Downloader) (baseURL : URL) (key : Str) :
    List (Str × Str) → LinkState → LinkState
  | [], st => st
  | (k, v) :: rest, st =>
    if k = key then
      let link := normalizeURL W d v baseURL
      if link ≠ [] ∧ link ∉ st.seen then
        attrLoop W d baseURL key rest { links := st.links ++ [link], seen := link :: st.seen }
      else attrLoop W d baseURL key rest st
    else attrLoop W d baseURL key rest st

mutual
/-- The closure `traverse` of `extractLinks`. -/
def traverse (W : World) (d : Downloader) (baseURL : URL) : Node → LinkState → LinkState
  | .mk isElement data attr children, st =>
    let st1 :=
      if isElement then
        let key := linkAttr data
        if key ≠ [] then attrLoop W d baseURL key attr st else st
      else st
    traverseList W d baseURL children st1
/-- The loop of `traverse` over the children of a node. -/
def traverseList (W : World) (d : Downloader) (baseURL : URL) : List Node → LinkState → LinkState
  | [], st => st
  | c :: cs, st => traverseList W d baseURL cs (traverse W d baseURL c st)
end

/-- The method `extractLinks`. -/
def extractLinks (W : World) (d : Downloader) (htmlContent : Str) (baseURL : URL) : List Str :=
  match W.HtmlParse htmlContent with
  | none => []
  | some doc => (traverse W d baseURL doc { links := [], seen := [] }).links

/-- The method `getLocalPath`. -/
def getLocalPath (W : World) (d : Downloader) (u : URL) : Str :=
  let localPath := u.Path
  let localPath := if localPath = [] ∨ localPath = "/".toList then "/index.html".toList else localPath
  let localPath := if HasSuffix localPath "/".toList then localPath ++ "index.html".toList else localPath
  let localPath := if Ext localPath = [] then localPath ++ ".html".toList else localPath
  let localPath := TrimPrefix localPath "/".toList
  W.Join d.config.OutputDir localPath

/-- The observable actions of `processURL`. -/
inductive Event where
  /-- The call of `respectCrawlDelay`. -/
  | pace
  /-- The GET request sent by `d.client.Do` for a URL. -/
  | get (url : Str)
  /-- The call of `saveFile` with a local path and a body. -/
  | save (path : Str) (body : Str)
deriving DecidableEq, Repr

/-- The result of one call of `processURL`: its actions, whether it returns an error, and the
calls `d.downloadURL(link, depth+1)` it makes, in order. -/
structure Outcome where
  events : List Event
  err : Bool
  calls : List (Str × Int)
deriving DecidableEq, Repr

/-- The method `processURL`.  The calls of `downloadURL` are returned instead of executed; the
controller below executes them. -/
def processURL (W : World) (d : Downloader) (urlStr : Str) (depth : Int) : Outcome :=
  match W.Parse urlStr with
  | none => { events := [], err := true, calls := [] }
  | some parsed =>
    if parsed.Host ≠ [] ∧ parsed.Host ≠ d.baseURL.Host then
      { events := [], err := false, calls := [] }
    else
      let parsedURL := if parsed.Host = [] then W.ResolveReference d.baseURL parsed else parsed
      let urlStr := if parsed.Host = [] then W.URLString parsedURL else urlStr
      if !isAllowedByRobots d parsedURL.Path then
        { events := [], err := false, calls := [] }
      else if !W.NewRequest urlStr then
        { events := [Event.pace], err := true, calls := [] }
      else match W.Do urlStr with
        | none => { events := [Event.pace, Event.get urlStr], err := true, calls := [] }
        | some resp =>
          if resp.StatusCode ≠ 200 then
            { events := [Event.pace, Event.get urlStr], err := true, calls := [] }
          else match resp.Body with
            | none => { events := [Event.pace, Event.get urlStr], err := true, calls := [] }
            | some body =>
              let localPath := getLocalPath W d parsedURL
              if !W.WriteOK localPath body then
                { events := [Event.pace, Event.get urlStr, Event.save localPath body],
                  err := true, calls := [] }
              else if Contains resp.ContentType "text/html".toList then
                { events := [Event.pace, Event.get urlStr, Event.save localPath body],
                  err := false
                  calls := (extractLinks W d body parsedURL).map (fun link => (link, depth + 1)) }
              else
                { events := [Event.pace, Event.get urlStr, Event.save localPath body],
                  err := false, calls := [] }

end Crawler

/-! ## The crawl controller: `Download`, `downloadURL` and the goroutines -/

namespace Crawler

open Go Robots

variable [CaseTables]

/-- The method `downloadURL` up to the semaphore (lines 155-167), as a function of the visited
set: whether the call goes on to `wg.Add(1)`, the semaphore send and the goroutine, and the
visited set after the call.  The set `visited` is the list of the keys of the map.  The rest
of the method (lines 167-177) is in the steps of the controller below. -/
def downloadURL (d : Downloader) (visited : List Str) (urlStr : Str) (depth : Int) : Bool × List Str :=
  if depth > d.config.MaxDepth then (false, visited)
  else if urlStr ∈ visited then (false, visited)
  else (true, urlStr :: visited)

/-- Where the goroutine of a branch stands. -/
inductive Phase where
  /-- The goroutine is started (line 170) and has not yet run `processURL`. -/
  | ready
  /-- The goroutine is in the loop over the links (line 241) with these calls of `downloadURL`
  left; with no call left, `processURL` returns. -/
  | loop (calls : List (Str × Int))
  /-- The goroutine is inside `downloadURL(url, depth)` for a link, after the claim and
  `wg.Add(1)`, at the send `d.semaphore <- struct{}{}` (line 168). -/
  | acquire (url : Str) (depth : Int) (rest : List (Str × Int))
  /-- The deferred receive `<-d.semaphore` is done, the deferred `wg.Done()` is not. -/
  | released
  /-- The goroutine has ended. -/
  | done
deriving DecidableEq, Repr

/-- A launched branch: the goroutine started by `downloadURL(url, depth)`. -/
structure Branch where
  url : Str
  depth : Int
  phase : Phase
deriving DecidableEq, Repr

/-- Where the caller of `Download` stands. -/
inductive MainPhase where
  /-- At the call of `Download`, before `os.MkdirAll` (line 112). -/
  | start
  /-- Before `d.downloadURL(d.baseURL.String(), 0)` (line 116). -/
  | call
  /-- Inside that call, after the claim and `wg.Add(1)`, at the semaphore send. -/
  | acquire
  /-- At `d.wg.Wait()` (line 117). -/
  | wait
  /-- After `Download` has returned `nil` (line 120). -/
  | returned
  /-- After `Download` has returned the error of `os.MkdirAll` (line 113). -/
  | failed
deriving DecidableEq, Repr

/-- The state of a crawl: the keys of `visited`, the number of elements in the channel
`semaphore`, the counter of `wg`, the caller of `Download`, the goroutines launched so far, and
the actions performed by the calls of `processURL`. -/
structure State where
  visited : List Str
  semaphore : Nat
  wg : Int
  main : MainPhase
  branches : List Branch
  log : List Event
deriving DecidableEq, Repr

/-- The state when `Download` is called. -/
def init : State :=
  { visited := [], semaphore := 0, wg := 0, main := MainPhase.start, branches := [], log := [] }

/-- The threads of a crawl: the caller of `Download` and the launched goroutines. -/
inductive Thread where
  | main
  | branch (i : Nat)
deriving DecidableEq, Repr

/-- Whether a send on `semaphore` can proceed: the channel, of capacity `MaxConcurrent`, is
not full.  (With capacity 0 no send proceeds, as no goroutine receives before a send; with a
negative `MaxConcurrent` the `make` of `NewDownloader` panics and there is no crawl.) -/
def canSend (d : Downloader) (s : State) : Bool :=
  decide ((s.semaphore : Int) < d.config.MaxConcurrent)

/-- One step of the caller of `Download`; `none` when it is blocked or has returned. -/
def stepMain (W : World) (d : Downloader) (s : State) : Option State :=
  match s.main with
  | MainPhase.start =>
    if W.MkdirAll d.config.OutputDir then some { s with main := MainPhase.call }
    else some { s with main := MainPhase.failed }
  | MainPhase.call =>
    let r := downloadURL d s.visited (W.URLString d.baseURL) 0
    if r.1 then some { s with visited := r.2, wg := s.wg + 1, main := MainPhase.acquire }
    else some { s with visited := r.2, main := MainPhase.wait }
  | MainPhase.acquire =>
    if canSend d s then
      some { s with semaphore := s.semaphore + 1
                    branches := s.branches ++ [{ url := W.URLString d.baseURL, depth := 0, phase := Phase.ready }]
                    main := MainPhase.wait }
    else none
  | MainPhase.wait => if s.wg = 0 then some { s with main := MainPhase.returned } else none
  | MainPhase.returned => none
  | MainPhase.failed => none

/-- One step of the goroutine of branch `i`; `none` when it is blocked, has ended or does not
exist. -/
def stepBranch (W : World) (d : Downloader) (s : State) (i : Nat) : Option State :=
  match s.branches.get? i with
  | none => none
  | some b =>
    match b.phase with
    | Phase.ready =>
      let o := processURL W d b.url b.depth
      some { s with log := s.log ++ o.events
                    branches := s.branches.set i { b with phase := Phase.loop o.calls } }
    | Phase.loop [] =>
      some { s with semaphore := s.semaphore - 1
                    branches := s.branches.set i { b with phase := Phase.released } }
    | Phase.loop ((u, dp) :: rest) =>
      let r := downloadURL d s.visited u dp
      if r.1 then
        some { s with visited := r.2, wg := s.wg + 1
                      branches := s.branches.set i { b with phase := Phase.acquire u dp rest } }
      else some { s with visited := r.2
                         branches := s.branches.set i { b with phase := Phase.loop rest } }
    | Phase.acquire u dp rest =>
      if canSend d s then
        some { s with semaphore := s.semaphore + 1
                      branches := s.branches.set i { b with phase := Phase.loop rest } ++
                        [{ url := u, depth := dp, phase := Phase.ready }] }
      else none
    | Phase.released =>
      some { s with wg := s.wg - 1, branches := s.branches.set i { b with phase := Phase.done } }
    | Phase.done => none

/-- One step of a thread. -/
def next (W : World) (d : Downloader) (s : State) : Thread → Option State
  | Thread.main => stepMain W d s
  | Thread.branch i => stepBranch W d s i

/-- The state after the threads of a schedule have taken one step each, in order; `none` when
a thread of the schedule cannot step. -/
def run (W : World) (d : Downloader) (s : State) : List Thread → Option State
  | [] => some s
  | t :: ts =>
    match next W d s t with
    | none => none
    | some s1 => run W d s1 ts

/-- The states of a crawl: those reached from `init` by some schedule. -/
def Reachable (W : World) (d : Downloader) (s : State) : Prop :=
  ∃ sched : List Thread, run W d init sched = some s

/-- The sequence of `downloadURL` calls of one caller, on the visited set alone: the URLs for
which the call goes on to launch a branch, and the visited set at the end. -/
def claimAll (d : Downloader) : List Str → List (Str × Int) → List Str × List Str
  | visited, [] => ([], visited)
  | visited, (u, dp) :: rest =>
    let r := downloadURL d visited u dp
    let rs := claimAll d r.2 rest
    (if r.1 then u :: rs.1 else rs.1, rs.2)

/-- The depth of the `downloadURL` calls recorded in a phase is `dp`, and the call that waits
at the semaphore has passed the depth test. -/
def phaseDepth (maxDepth dp : Int) : Phase → Prop
  | Phase.loop calls => ∀ c ∈ calls, c.2 = dp
  | Phase.acquire _ dp1 rest => dp1 = dp ∧ dp1 ≤ maxDepth ∧ ∀ c ∈ rest, c.2 = dp
  | _ => True

/-- The depth invariant of a crawl state: every launched branch has a depth between 0 and
`MaxDepth`, a branch of depth 0 is the branch of the seed, the calls a branch still has to make
are at its depth plus one, and the caller of `Download` waits at the semaphore only when depth 0
passed the depth test. -/
def DepthInv (W : World) (d : Downloader) (s : State) : Prop :=
  (s.main = MainPhase.acquire → 0 ≤ d.config.MaxDepth) ∧
  ∀ b ∈ s.branches, 0 ≤ b.depth ∧ b.depth ≤ d.config.MaxDepth ∧
    (b.depth = 0 → b.url = W.URLString d.baseURL) ∧
    phaseDepth d.config.MaxDepth (b.depth + 1) b.phase

/-- The URLs that a branch has claimed and not handed over: its own URL, and the URL of the
call that waits at the semaphore. -/
def claimedBy (b : Branch) : List Str :=
  match b.phase with
  | Phase.acquire u _ _ => [b.url, u]
  | _ => [b.url]

/-- The URLs for which a `downloadURL` call has passed the claim: the seed while the caller of
`Download` waits at the semaphore, and the URLs claimed by the launched branches. -/
def claimed (W : World) (d : Downloader) (s : State) : List Str :=
  (if s.main = MainPhase.acquire then [W.URLString d.baseURL] else []) ++
    s.branches.flatMap claimedBy

/-- Whether a branch holds a permit (1) or not (0): the goroutine exists from the semaphore
send of line 168 and gives the permit back by the deferred receive of line 172. -/
def holdsPermit (b : Branch) : Nat :=
  match b.phase with
  | Phase.ready => 1
  | Phase.loop _ => 1
  | Phase.acquire _ _ _ => 1
  | Phase.released => 0
  | Phase.done => 0

/-- The number of branches that hold a permit. -/
def permits (s : State) : Nat := (s.branches.map holdsPermit).sum

/-- A link that passes the same-origin filter of `normalizeURL`: the result for some raw value
`href` on a page of base URL `base`, whose resolved host is the host of the seed. -/
def Discovered (W : World) (d : Downloader) (link : Str) : Prop :=
  ∃ (href : Str) (base parsed : URL), W.Parse (TrimSpace href) = some parsed ∧
    (W.ResolveReference base parsed).Host = d.baseURL.Host ∧
    link = W.URLString { W.ResolveReference base parsed with Fragment := [] }

/-- The URLs of the `downloadURL` calls recorded in a phase. -/
def phaseLinks : Phase → List Str
  | Phase.loop calls => calls.map Prod.fst
  | Phase.acquire u _ rest => u :: rest.map Prod.fst
  | _ => []

/-- The origin invariant of a crawl state: every branch is the branch of the seed or of a link
that passed the same-origin filter, the calls a branch still has to make are for such links,
and every logged action is an action of `processURL` on the seed or on such a link. -/
def OriginInv (W : World) (d : Downloader) (s : State) : Prop :=
  (∀ b ∈ s.branches, (b.url = W.URLString d.baseURL ∨ Discovered W d b.url) ∧
    ∀ l ∈ phaseLinks b.phase, Discovered W d l) ∧
  (∀ e ∈ s.log, ∃ (urlStr : Str) (depth : Int),
    (urlStr = W.URLString d.baseURL ∨ Discovered W d urlStr) ∧
    e ∈ (processURL W d urlStr depth).events)

/-- The largest `time.Duration` (`math.MaxInt64` nanoseconds). -/
def maxDuration : Int := 2 ^ 63 - 1

/-- The smallest `time.Duration` (`math.MinInt64` nanoseconds). -/
def minDuration : Int := -(2 ^ 63)

/-- The call `time.Since(last)` at the clock reading `now` (both in nanoseconds of one
clock): the difference, kept within the range of `time.Duration`. -/
def Since (last now : Int) : Int := max minDuration (min maxDuration (now - last))

/-- The effect of one call of `respectCrawlDelay`: the duration passed to `time.Sleep` (zero
when `Sleep` is not called) and the value of `d.lastRequest` after the call. -/
structure Paced where
  slept : Int
  lastRequest : Int
deriving DecidableEq, Repr

/-- The method `respectCrawlDelay`, for the stored timestamp `lastRequest`, the clock reading
`now` of `time.Since` and the time `lag` that passes, beyond the requested sleep, until the
clock is read again by `time.Now()`. -/
def respectCrawlDelay (d : Downloader) (lastRequest now : Int) (lag : Nat) : Paced :=
  match d.robotsParser with
  | none => { slept := 0, lastRequest := lastRequest }
  | some rp =>
    let delay := GetCrawlDelay rp d.config.UserAgent
    if delay = 0 then { slept := 0, lastRequest := lastRequest }
    else
      let elapsed := Since lastRequest now
      if elapsed < delay then
        { slept := delay - elapsed, lastRequest := now + (delay - elapsed) + lag }
      else { slept := 0, lastRequest := now + lag }

/-- The result of `loadRobotsTxt`: the value of `d.robotsParser` after the call, whether an
error is returned, and the requests sent. -/
structure LoadOutcome where
  robotsParser : Option RobotsParser
  err : Bool
  events : List Event
deriving DecidableEq, Repr

/-- The method `loadRobotsTxt` (`sscanDelay` as in `NewRobotsParser`). -/
def loadRobotsTxt (W : World) (sscanDelay : Str → Int) (baseURL : URL) : LoadOutcome :=
  let robotsURL := baseURL.Scheme ++ "://".toList ++ baseURL.Host ++ "/robots.txt".toList
  if !W.NewRequest robotsURL then { robotsParser := none, err := true, events := [] }
  else match W.Do robotsURL with
    | none => { robotsParser := none, err := true, events := [Event.get robotsURL] }
    | some resp =>
      if resp.StatusCode = 404 then
        { robotsParser := none, err := false, events := [Event.get robotsURL] }
      else if resp.StatusCode ≠ 200 then
        { robotsParser := none, err := true, events := [Event.get robotsURL] }
      else match resp.Body with
        | none => { robotsParser := none, err := true, events := [Event.get robotsURL] }
        | some body =>
          { robotsParser := some (NewRobotsParser sscanDelay body), err := false,
            events := [Event.get robotsURL] }

/-- How a call of `NewDownloader` ends. -/
inductive NewResult where
  /-- It returns `nil` and the error "invalid URL" (line 37). -/
  | invalidURL
  /-- The expression `make(chan struct{}, cfg.MaxConcurrent)` panics: the size is negative. -/
  | panics
  /-- It returns the downloader and a `nil` error (line 57). -/
  | ok (d : Downloader)

/-- The result of `NewDownloader` and the requests sent during the call. -/
structure NewOutcome where
  result : NewResult
  events : List Event

/-- The function `NewDownloader`. -/
def NewDownloader (W : World) (sscanDelay : Str → Int) (cfg : Config) (baseURL : Str) :
    NewOutcome :=
  match W.Parse baseURL with
  | none => { result := NewResult.invalidURL, events := [] }
  | some u =>
    if cfg.MaxConcurrent < 0 then { result := NewResult.panics, events := [] }
    else if cfg.RespectRobotsTxt then
      let r := loadRobotsTxt W sscanDelay u
      { result := NewResult.ok { config := cfg, baseURL := u, robotsParser := r.robotsParser }
        events := r.events }
    else
      { result := NewResult.ok { config := cfg, baseURL := u, robotsParser := none }
        events := [] }

/-- The URL that `processURL` goes on with after lines 192-196: the parsed URL, resolved
against the seed when it has no host. -/
def targetURL (W : World) (d : Downloader) (parsed : URL) : URL :=
  if parsed.Host = [] then W.ResolveReference d.baseURL parsed else parsed

/-- The string that `processURL` requests (`urlStr` after lines 192-196). -/
def requestURL (W : World) (d : Downloader) (urlStr : Str) (parsed : URL) : Str :=
  if parsed.Host = [] then W.URLString (W.ResolveReference d.baseURL parsed) else urlStr

/-- The part of the `wg` counter due to a branch: one for the branch itself from its claim to
its `wg.Done()`, and one more for the link it has claimed while it waits at the semaphore. -/
def wgShare (b : Branch) : Int :=
  match b.phase with
  | Phase.acquire _ _ _ => 2
  | Phase.done => 0
  | _ => 1

/-- The value of the `wg` counter accounted for by the threads: one for the seed while the
caller of `Download` waits at the semaphore, and the shares of the branches. -/
def wgCount (s : State) : Int :=
  (if s.main = MainPhase.acquire then 1 else 0) + (s.branches.map wgShare).sum

/-- The wait-group invariant of a crawl state: the counter is the value accounted for by the
threads; it is zero once `Download` has returned; before the output directory is created, and
after its creation has failed, nothing has happened; the caller is past the creation only when
it succeeded. -/
def WaitInv (W : World) (d : Downloader) (s : State) : Prop :=
  s.wg = wgCount s ∧
  (s.main = MainPhase.returned → s.wg = 0) ∧
  (s.main = MainPhase.start ∨ s.main = MainPhase.failed →
    s.visited = [] ∧ s.semaphore = 0 ∧ s.wg = 0 ∧ s.branches = [] ∧ s.log = []) ∧
  (s.main = MainPhase.failed → W.MkdirAll d.config.OutputDir = false) ∧
  (s.main ≠ MainPhase.start → s.main ≠ MainPhase.failed → W.MkdirAll d.config.OutputDir = true)

/-- The body of the attribute loop of `extractLinks` for one normalised link (lines 276-279):
a non-empty link that is not in `seen` is recorded and appended. -/
def addLink (st : LinkState) (link : Str) : LinkState :=
  if link ≠ [] ∧ link ∉ st.seen then { links := st.links ++ [link], seen := link :: st.seen }
  else st

/-- Whether the specification names the attribute `key` for the element `data`: `href` for
`a` and `link`, `src` for `script` and `img`, `srcset` for `source`. -/
def specReads (data key : Str) : Bool :=
  (decide (key = "href".toList) && (decide (data = "a".toList) || decide (data = "link".toList))) ||
  (decide (key = "src".toList) && (decide (data = "script".toList) || decide (data = "img".toList))) ||
  (decide (key = "srcset".toList) && decide (data = "source".toList))

/-- The values of the link attributes of one node, in attribute order: for an element, the
values of the attributes that the specification names for it; nothing for any other node. -/
def nodeValues (isElement : Bool) (data : Str) (attr : List (Str × Str)) : List Str :=
  if isElement then (attr.filter (fun kv => specReads data kv.1)).map Prod.snd else []

mutual
/-- The values of the link attributes of a tree in document order (pre-order). -/
def linkValues : Node → List Str
  | .mk isElement data attr children => nodeValues isElement data attr ++ linkValuesList children
/-- The values of the link attributes of a list of sibling trees, in document order. -/
def linkValuesList : List Node → List Str
  | [] => []
  | c :: cs => linkValues c ++ linkValuesList cs
end

/-- A list with every occurrence of an entry after the first one removed. -/
def removeLater : List Str → List Str
  | [] => []
  | x :: xs => x :: (removeLater xs).filter (fun y => decide (y ≠ x))

mutual
/-- A tree in which an element keeps only the attributes that the specification names for it
and any other node keeps no attribute. -/
def keepLinkAttrs : Node → Node
  | .mk isElement data attr children =>
    .mk isElement data (attr.filter (fun kv => isElement && specReads data kv.1))
      (keepLinkAttrsList children)
/-- The trees of a list with only the named attributes kept. -/
def keepLinkAttrsList : List Node → List Node
  | [] => []
  | c :: cs => keepLinkAttrs c :: keepLinkAttrsList cs
end

end Crawler

/-! ## A concrete site, for the evaluation of the definitions -/

namespace Example

open Go Robots Crawler

/-- Case tables for the examples: the entries of the tables of package `unicode` for the
characters outside ASCII that occur in the examples, `É` (U+00C9), `é` (U+00E9), `İ` (U+0130),
`ı` (U+0131), `ſ` (U+017F) and the Kelvin sign (U+212A); any other character is left
unchanged. -/
instance tables : CaseTables where
  lower c :=
    if c.toNat = 0xC9 then Char.ofNat 0xE9
    else if c.toNat = 0x130 then 'i'
    else if c.toNat = 0x212A then 'k'
    else c
  upper c :=
    if c.toNat = 0xE9 then Char.ofNat 0xC9
    else if c.toNat = 0x131 then 'I'
    else if c.toNat = 0x17F then 'S'
    else c

/-- A URL of the host `example.com` with scheme `http`. -/
def exampleURL (path fragment : Str) : URL :=
  { Scheme := "http".toList, Host := "example.com".toList, Path := path, RawQuery := [],
    Fragment := fragment }

/-- The tree that `html.Parse` returns for the body `<a href="/a">a</a>`. -/
def pageTree : Node :=
  Node.mk false [] []
    [Node.mk true "html".toList []
      [Node.mk true "head".toList [] [],
       Node.mk true "body".toList []
        [Node.mk true "a".toList [("href".toList, "/a".toList)]
          [Node.mk false "a".toList [] []]]]]

/-- The site `http://example.com` with the two pages `/` and `/a`, each an HTML page of body
`<a href="/a">a</a>`, and plain texts answered for the paths `/../x` and `/a.html`; the library
functions are given by their values on the strings that occur in a crawl of this site.
`url.Parse` fails on the other strings, among them `/a#%zz`, whose fragment has an invalid
percent escape. -/
def site : World where
  Parse s :=
    if s = "http://example.com/".toList then some (exampleURL "/".toList [])
    else if s = "http://example.com/a".toList then some (exampleURL "/a".toList [])
    else if s = "http://example.com/a#top".toList then some (exampleURL "/a".toList "top".toList)
    else if s = "/a".toList then
      some { Scheme := [], Host := [], Path := "/a".toList, RawQuery := [], Fragment := [] }
    else if s = "http://example.com/../x".toList then some (exampleURL "/../x".toList [])
    else if s = "http://example.com/a.html".toList then some (exampleURL "/a.html".toList [])
    else if s = "/a#x".toList then
      some { Scheme := [], Host := [], Path := "/a".toList, RawQuery := [], Fragment := "x".toList }
    else if s = "/a#y".toList then
      some { Scheme := [], Host := [], Path := "/a".toList, RawQuery := [], Fragment := "y".toList }
    else if s = "http://other.org/x".toList then
      some { Scheme := "http".toList, Host := "other.org".toList, Path := "/x".toList,
             RawQuery := [], Fragment := [] }
    else if s = "/a#%zz".toList then none
    else none
  ResolveReference base ref :=
    if ref.Host = [] then
      { base with Path := ref.Path, RawQuery := ref.RawQuery, Fragment := ref.Fragment }
    else ref
  URLString u :=
    u.Scheme ++ "://".toList ++ u.Host ++ u.Path ++
      (if u.RawQuery = [] then [] else '?' :: u.RawQuery) ++
      (if u.Fragment = [] then [] else '#' :: u.Fragment)
  NewRequest _ := true
  Do s :=
    if s = "http://example.com/".toList ∨ s = "http://example.com/a".toList ∨
        s = "http://example.com/a#top".toList then
      some { StatusCode := 200, ContentType := "text/html; charset=utf-8".toList,
             Body := some "<a href=\"/a\">a</a>".toList }
    else if s = "http://example.com/../x".toList then
      some { StatusCode := 200, ContentType := "text/plain".toList, Body := some "x".toList }
    else if s = "http://example.com/a.html".toList then
      some { StatusCode := 200, ContentType := "text/plain".toList, Body := some "other".toList }
    else none
  HtmlParse body := if body = "<a href=\"/a\">a</a>".toList then some pageTree else none
  Join dir rel := Go.Join dir rel
  WriteOK _ _ := true
  MkdirAll _ := true

/-- A downloader of the site for a seed URL, limits and an optional robots rule set. -/
def siteDownloader (seed : URL) (maxDepth maxConcurrent : Int) (robots : Option RobotsParser) :
    Downloader :=
  { config := { MaxDepth := maxDepth, MaxConcurrent := maxConcurrent, Timeout := 30000000000,
                UserAgent := "SimplifiedWget/1.0".toList, OutputDir := "downloaded_site".toList,
                RespectRobotsTxt := true }
    baseURL := seed
    robotsParser := robots }

/-- The form of a visited-set key that the specification calls normalized: the URL in absolute
form with its fragment removed. -/
def normalKey (W : World) (key : Str) : Option Str :=
  (W.Parse key).map (fun u => W.URLString { u with Fragment := [] })

/-- The URLs of the GET requests of a log, in order. -/
def fetches : List Event → List Str
  | [] => []
  | Event.get u :: rest => u :: fetches rest
  | _ :: rest => fetches rest

/-- The downloader of the example site with the seed `http://example.com/`, `MaxDepth = 1` and
a single permit. -/
def onePermit : Downloader := siteDownloader (exampleURL "/".toList []) 1 1 none

/-- The states of the crawl of `onePermit` along the schedule: the caller creates the output
directory, claims the seed and launches the seed branch; the seed branch runs `processURL`
and claims its link. -/
def onePermitPath : List State :=
  (List.range 6).filterMap (fun k =>
    run site onePermit init
      ([Thread.main, Thread.main, Thread.main, Thread.branch 0, Thread.branch 0].take k))

end Example

namespace Robots

open Go

/-! ## Properties of the robots rule engine -/

theorem allowLoop_eq_true_iff (allow : List Str) (urlPath : Str) :
    allowLoop allow urlPath = true ↔ ∃ a ∈ allow, a <+: urlPath := by
  induction allow with
  | nil => simp [allowLoop]
  | cons a rest ih =>
    by_cases h : a <+: urlPath
    · simp [allowLoop, HasPrefix, h]
    · simp [allowLoop, HasPrefix, h, ih]

theorem disallowLoop_eq_false_iff (disallow : List Str) (urlPath : Str) :
    disallowLoop disallow urlPath = false ↔ ∃ d ∈ disallow, d = ['/'] ∨ d <+: urlPath := by
  induction disallow with
  | nil => simp [disallowLoop]
  | cons d rest ih =>
    by_cases h1 : d = ['/']
    · simp [disallowLoop, h1]
    · by_cases h2 : d <+: urlPath
      · simp [disallowLoop, HasPrefix, h1, h2]
      · simp [disallowLoop, HasPrefix, h1, h2, ih]

theorem delayLoop_eq_findRule [CaseTables] (rules : List RobotsRule) (ua : Str) :
    delayLoop rules ua = (findRule rules ua).map RobotsRule.CrawlDelay := by
  induction rules with
  | nil => rfl
  | cons q qs ih =>
    by_cases hq : ToLower q.UserAgent = ua
    · simp [delayLoop, findRule, hq]
    · simp [delayLoop, findRule, hq, ih]

/-- C1: in every rule set, for every agent and path, when the rule selected for the agent has
an Allow entry that is a prefix of the path, `IsAllowed` returns true, whatever the Disallow
entries of the rule are. -/
theorem isAllowed_allow_wins [CaseTables]
    (rp : RobotsParser) (userAgent urlPath : Str) (rule : RobotsRule)
    (hsel : selectedRule rp userAgent = some rule)
    (hallow : ∃ a ∈ rule.Allow, a <+: urlPath) :
    IsAllowed rp urlPath userAgent = true := by
  have h := (allowLoop_eq_true_iff rule.Allow urlPath).2 hallow
  simp [IsAllowed, checkRule, hsel, h]

/-- Witness of C1: the text of the specification, `Allow: /private/ok` with `Disallow: /private`
under `User-agent: *`, queried at `/private/ok` for the agent `*`. -/
theorem isAllowed_allow_wins_witness :
    selectedRule (NewRobotsParser (fun _ => 0)
        "User-agent: *\nAllow: /private/ok\nDisallow: /private".toList) "*".toList
      = some { UserAgent := "*".toList, Disallow := ["/private".toList],
               Allow := ["/private/ok".toList], CrawlDelay := 0 } ∧
    (∃ a ∈ ["/private/ok".toList], a <+: "/private/ok".toList) ∧
    IsAllowed (NewRobotsParser (fun _ => 0)
        "User-agent: *\nAllow: /private/ok\nDisallow: /private".toList)
      "/private/ok".toList "*".toList = true :=
  ⟨by decide, by decide,
   isAllowed_allow_wins _ "*".toList "/private/ok".toList
     { UserAgent := "*".toList, Disallow := ["/private".toList],
       Allow := ["/private/ok".toList], CrawlDelay := 0 } (by decide) (by decide)⟩

/-- C2: when a rule is selected and none of its Allow entries is a prefix of the path,
`IsAllowed` returns false exactly when some Disallow entry of the rule is `/` or is a prefix of
the path, and returns true otherwise. -/
theorem isAllowed_disallow_iff [CaseTables]
    (rp : RobotsParser) (userAgent urlPath : Str) (rule : RobotsRule)
    (hsel : selectedRule rp userAgent = some rule)
    (hallow : ∀ a ∈ rule.Allow, ¬ a <+: urlPath) :
    (IsAllowed rp urlPath userAgent = false ↔ ∃ d ∈ rule.Disallow, d = ['/'] ∨ d <+: urlPath) ∧
    (IsAllowed rp urlPath userAgent = true ↔ ¬ ∃ d ∈ rule.Disallow, d = ['/'] ∨ d <+: urlPath) := by
  have h : allowLoop rule.Allow urlPath = false := by
    cases hc : allowLoop rule.Allow urlPath with
    | false => rfl
    | true =>
      obtain ⟨a, ha, hp⟩ := (allowLoop_eq_true_iff rule.Allow urlPath).1 hc
      exact absurd hp (hallow a ha)
  have hd := disallowLoop_eq_false_iff rule.Disallow urlPath
  have e : IsAllowed rp urlPath userAgent = disallowLoop rule.Disallow urlPath := by
    simp [IsAllowed, checkRule, hsel, h]
  rw [e]
  refine ⟨hd, ?_⟩
  rw [← hd]
  cases disallowLoop rule.Disallow urlPath <;> simp

/-- Witness of C2: the text of the specification, `Disallow: /private` under `User-agent: *`,
queried at `/private` for the agent `*`: the answer is false. -/
theorem isAllowed_disallow_iff_witness :
    IsAllowed (NewRobotsParser (fun _ => 0) "User-agent: *\nDisallow: /private".toList)
      "/private".toList "*".toList = false :=
  (isAllowed_disallow_iff
    (NewRobotsParser (fun _ => 0) "User-agent: *\nDisallow: /private".toList)
    "*".toList "/private".toList
    { UserAgent := "*".toList, Disallow := ["/private".toList], Allow := [], CrawlDelay := 0 }
    (by decide) (by decide)).1.2 ⟨"/private".toList, by decide, Or.inr (by decide)⟩

/-- C5: for every rule set and agent, `GetCrawlDelay` returns the crawl delay of the rule that
`IsAllowed` selects for that agent, and zero when no rule is selected. -/
theorem getCrawlDelay_selectedRule [CaseTables] (rp : RobotsParser) (userAgent : Str) :
    GetCrawlDelay rp userAgent =
      match selectedRule rp userAgent with
      | some rule => rule.CrawlDelay
      | none => 0 := by
  unfold GetCrawlDelay selectedRule
  simp only [delayLoop_eq_findRule]
  cases findRule rp.Rules (ToLower userAgent) <;> rfl

theorem parseLine_parser_eq [CaseTables] (sd : Str → Int) (st : ParseState) (text : Str) :
    (parseLine sd st text).parser = st.parser ∨
    (parseLine sd st text).parser = saveRule st.parser st.currentRule := by
  unfold parseLine
  simp only []
  repeat' split
  all_goals first
    | exact Or.inl rfl
    | exact Or.inr rfl

/-- The parser state invariant: the default rule is the last saved rule whose agent is `*`. -/
theorem saveRule_default (p : RobotsParser) (cur : Option RobotsRule)
    (h : p.DefaultRule = (starRules p.Rules).getLast?) :
    (saveRule p cur).DefaultRule = (starRules (saveRule p cur).Rules).getLast? := by
  cases cur with
  | none => exact h
  | some r =>
    by_cases hr : r.UserAgent = ['*']
    · simp [saveRule, starRules, hr, List.filter_append, List.getLast?_append]
    · simp only [saveRule, hr, if_false, starRules, List.filter_append] at h ⊢
      simpa [hr] using h

theorem parseLines_default [CaseTables] (sd : Str → Int) (lines : List Str) (st : ParseState)
    (h : st.parser.DefaultRule = (starRules st.parser.Rules).getLast?) :
    (parseLines sd st lines).parser.DefaultRule =
      (starRules (parseLines sd st lines).parser.Rules).getLast? := by
  induction lines generalizing st with
  | nil => exact h
  | cons l ls ih =>
    simp only [parseLines, List.foldl_cons]
    apply ih
    rcases parseLine_parser_eq sd st l with e | e
    · rw [e]; exact h
    · rw [e]; exact saveRule_default _ _ h

theorem toNat_ofNat_ascii : ∀ n, n < 128 → (Char.ofNat n).toNat = n := by
  decide

theorem lowerChar_ascii [CaseTables] (c : Char) (h : c.toNat < 128) :
    lowerChar c = if 65 ≤ c.toNat ∧ c.toNat ≤ 90 then Char.ofNat (c.toNat + 32) else c := by
  unfold lowerChar
  rw [if_pos h]

theorem upperChar_ascii [CaseTables] (c : Char) (h : c.toNat < 128) :
    upperChar c = if 97 ≤ c.toNat ∧ c.toNat ≤ 122 then Char.ofNat (c.toNat - 32) else c := by
  unfold upperChar
  rw [if_pos h]

theorem lowerChar_toNat [CaseTables] (c : Char) (h : c.toNat < 128) :
    (lowerChar c).toNat < 128 := by
  rw [lowerChar_ascii c h]
  split
  · rw [toNat_ofNat_ascii _ (by omega)]; omega
  · exact h

theorem upperChar_toNat [CaseTables] (c : Char) (h : c.toNat < 128) :
    (upperChar c).toNat < 128 := by
  rw [upperChar_ascii c h]
  split
  · rw [toNat_ofNat_ascii _ (by omega)]; omega
  · exact h

theorem lowerChar_upperChar [CaseTables] (c : Char) (h : c.toNat < 128) :
    lowerChar (upperChar c) = lowerChar c := by
  rw [lowerChar_ascii _ (upperChar_toNat c h), upperChar_ascii c h, lowerChar_ascii c h]
  split
  · rename_i h0
    have h1 : (Char.ofNat (c.toNat - 32)).toNat = c.toNat - 32 := toNat_ofNat_ascii _ (by omega)
    have h2 : ¬ (65 ≤ c.toNat ∧ c.toNat ≤ 90) := by omega
    rw [h1, if_neg h2, if_pos (by omega)]
    have h3 : c.toNat - 32 + 32 = c.toNat := by omega
    rw [h3, Char.ofNat_toNat]
  · rfl

theorem lowerChar_lowerChar [CaseTables] (c : Char) (h : c.toNat < 128) :
    lowerChar (lowerChar c) = lowerChar c := by
  rw [lowerChar_ascii _ (lowerChar_toNat c h), lowerChar_ascii c h]
  split
  · rename_i h0
    have h1 : (Char.ofNat (c.toNat + 32)).toNat = c.toNat + 32 := toNat_ofNat_ascii _ (by omega)
    rw [h1, if_neg (by omega)]
  · rfl

theorem toLower_toUpper [CaseTables] (s : Str) (h : ∀ c ∈ s, c.toNat < 128) :
    ToLower (ToUpper s) = ToLower s := by
  unfold ToLower ToUpper
  rw [List.map_map]
  apply List.map_congr_left
  intro c hc
  exact lowerChar_upperChar c (h c hc)

theorem toLower_toLower [CaseTables] (s : Str) (h : ∀ c ∈ s, c.toNat < 128) :
    ToLower (ToLower s) = ToLower s := by
  unfold ToLower
  rw [List.map_map]
  apply List.map_congr_left
  intro c hc
  exact lowerChar_lowerChar c (h c hc)

/-- C6 (the code at the failing input): the text with two `User-agent: *` lines is parsed to
a rule list that contains two rules whose agent is `*`.  The two ways in which the code reads
"the" rule of `*` then disagree: `DefaultRule` is the second one, and the search loop of
`IsAllowed` for the agent `*` stops at the first one. -/
theorem newRobotsParser_two_star_rules :
    (starRules (NewRobotsParser (fun _ => 0)
      "User-agent: *\nDisallow: /a\nUser-agent: *\nDisallow: /b".toList).Rules).length = 2 ∧
    (NewRobotsParser (fun _ => 0)
      "User-agent: *\nDisallow: /a\nUser-agent: *\nDisallow: /b".toList).DefaultRule =
      some { UserAgent := "*".toList, Disallow := ["/b".toList], Allow := [], CrawlDelay := 0 } ∧
    findRule (NewRobotsParser (fun _ => 0)
      "User-agent: *\nDisallow: /a\nUser-agent: *\nDisallow: /b".toList).Rules "*".toList =
      some { UserAgent := "*".toList, Disallow := ["/a".toList], Allow := [], CrawlDelay := 0 } := by
  refine ⟨?_, ?_, ?_⟩ <;> decide

/-- For every text, `DefaultRule` is the last rule of `Rules` whose agent is `*`, and is unset
when `Rules` has no such rule. -/
theorem newRobotsParser_default_is_last_star [CaseTables] (sd : Str → Int) (content : Str) :
    (NewRobotsParser sd content).DefaultRule =
      (starRules (NewRobotsParser sd content).Rules).getLast? := by
  unfold NewRobotsParser
  exact saveRule_default _ _ (parseLines_default sd _ _ rfl)

/-! ## The structure of the parse -/

theorem parseLine_userAgent [CaseTables] (sd : Str → Int) (st : ParseState) (text agent : Str)
    (h : userAgentValue text = some agent) :
    parseLine sd st text =
      { parser := saveRule st.parser st.currentRule
        currentRule := some { UserAgent := agent, Disallow := [], Allow := [], CrawlDelay := 0 } } := by
  unfold userAgentValue at h
  unfold parseLine
  simp only [] at h ⊢
  split at h
  · exact absurd h (by simp)
  · rename_i hne
    rw [if_neg hne]
    split at h
    · exact absurd h (by simp)
    · rename_i k v hs
      split at h
      · rename_i hk
        simp only [Option.some.injEq] at h
        rw [if_pos hk, h]
      · exact absurd h (by simp)

theorem parseLine_other [CaseTables] (sd : Str → Int) (st : ParseState) (text : Str)
    (h : userAgentValue text = none) :
    (parseLine sd st text).parser = st.parser ∧
    (parseLine sd st text).currentRule.map ruleShape =
      (st.currentRule.map ruleShape).map
        (extendShape (disallowValue text).toList (allowValue text).toList) := by
  have hd : "disallow".toList ≠ "allow".toList := by decide
  have hc1 : "crawl-delay".toList ≠ "disallow".toList := by decide
  have hc2 : "crawl-delay".toList ≠ "allow".toList := by decide
  unfold userAgentValue at h
  unfold parseLine disallowValue allowValue directive
  simp only [] at h ⊢
  split at h
  · rename_i hskip
    simp only [hskip, if_true]
    cases st.currentRule <;> simp [extendShape, ruleShape]
  · rename_i hne
    simp only [hne, if_false]
    split at h
    · rename_i hs
      simp only [hs]
      cases st.currentRule <;> simp [extendShape, ruleShape]
    · rename_i k v hs
      simp only [hs]
      split at h
      · exact absurd h (by simp)
      · rename_i hk
        simp only [hk, if_false]
        by_cases h1 : TrimSpace (ToLower k) = "disallow".toList
        · have h2 : ¬ TrimSpace (ToLower k) = "allow".toList := by rw [h1]; exact hd
          simp only [h1, h2, if_true, false_and, if_false, true_and]
          cases hcur : st.currentRule with
          | none => simp [hcur]
          | some r =>
            by_cases hv : TrimSpace v = []
            · simp [hv, hcur, extendShape, ruleShape]
            · simp [hv, hcur, extendShape, ruleShape]
        · by_cases h2 : TrimSpace (ToLower k) = "allow".toList
          · simp only [h1, h2, if_true, false_and, if_false, true_and]
            cases hcur : st.currentRule with
            | none => simp [hcur]
            | some r =>
              by_cases hv : TrimSpace v = []
              · simp [hv, hcur, extendShape, ruleShape]
              · simp [hv, hcur, extendShape, ruleShape]
          · simp only [h1, h2, if_false, false_and]
            cases hcur : st.currentRule with
            | none => split_ifs <;> simp [hcur]
            | some r => split_ifs <;> simp [hcur, extendShape, ruleShape]

theorem groupLines_cons_userAgent [CaseTables] (l : Str) (ls : List Str) (a : Str)
    (h : userAgentValue l = some a) : groupLines (l :: ls) = [] := by
  simp [groupLines, isUserAgentLine, h]

theorem groupLines_cons_other [CaseTables] (l : Str) (ls : List Str) (h : userAgentValue l = none) :
    groupLines (l :: ls) = l :: groupLines ls := by
  simp [groupLines, isUserAgentLine, h]

theorem saveRule_shapes (p : RobotsParser) (cur : Option RobotsRule) :
    (saveRule p cur).Rules.map ruleShape = p.Rules.map ruleShape ++ (cur.map ruleShape).toList := by
  cases cur <;> simp [saveRule]

theorem extendShape_nil (x : Str × List Str × List Str) : extendShape [] [] x = x := by
  simp [extendShape]

theorem extendShape_extendShape (d1 a1 d2 a2 : List Str) (x : Str × List Str × List Str) :
    extendShape d2 a2 (extendShape d1 a1 x) = extendShape (d1 ++ d2) (a1 ++ a2) x := by
  simp [extendShape]

theorem parseLines_shapes [CaseTables] (sd : Str → Int) (lines : List Str) :
    ∀ st : ParseState,
      (saveRule (parseLines sd st lines).parser (parseLines sd st lines).currentRule).Rules.map
          ruleShape =
        st.parser.Rules.map ruleShape ++
          ((st.currentRule.map ruleShape).map
            (extendShape ((groupLines lines).filterMap disallowValue)
              ((groupLines lines).filterMap allowValue))).toList ++
          specGroups lines := by
  induction lines with
  | nil =>
    intro st
    simp only [parseLines, List.foldl_nil, groupLines, List.takeWhile_nil, List.filterMap_nil,
      specGroups, List.append_nil, saveRule_shapes]
    cases st.currentRule <;> simp [extendShape_nil]
  | cons l ls ih =>
    intro st
    have hstep : parseLines sd st (l :: ls) = parseLines sd (parseLine sd st l) ls := by
      simp [parseLines]
    rw [hstep, ih (parseLine sd st l)]
    cases hu : userAgentValue l with
    | some a =>
      rw [parseLine_userAgent sd st l a hu, groupLines_cons_userAgent l ls a hu]
      simp only [saveRule_shapes, specGroups, hu, List.filterMap_nil, Option.map_some',
        Option.toList, ruleShape, extendShape, List.nil_append]
      cases st.currentRule <;> simp [extendShape, ruleShape]
    | none =>
      obtain ⟨hp, hc⟩ := parseLine_other sd st l hu
      rw [hp, hc, groupLines_cons_other l ls hu]
      simp only [specGroups, hu, List.filterMap_cons]
      cases st.currentRule with
      | none => simp
      | some r =>
        simp only [Option.map_some', extendShape_extendShape]
        cases disallowValue l <;> cases allowValue l <;> simp

theorem newRobotsParser_shapes [CaseTables] (sd : Str → Int) (content : Str) :
    (NewRobotsParser sd content).Rules.map ruleShape = specGroups (scanLines content) := by
  unfold NewRobotsParser
  simp only []
  rw [parseLines_shapes]
  simp

theorem splitNL_ne_nil (s : Str) : splitNL s ≠ [] := by
  induction s with
  | nil => simp [splitNL]
  | cons c cs ih =>
    unfold splitNL
    split
    · simp
    · split
      · simp
      · simp

theorem splitNL_replicate (n : Nat) (rest : Str) :
    splitNL (List.replicate n 'a' ++ '\n' :: rest) = List.replicate n 'a' :: splitNL rest := by
  induction n with
  | zero => simp [splitNL]
  | succ k ih =>
    have ha : ¬ 'a' = '\n' := by decide
    simp only [List.replicate_succ, List.cons_append]
    rw [splitNL, if_neg ha, ih]

theorem byteLen_replicate (n : Nat) : byteLen (List.replicate n 'a') = n := by
  induction n with
  | zero => rfl
  | succ k ih =>
    have h1 : utf8Len 'a' = 1 := by decide
    simp only [byteLen, List.replicate_succ, List.map_cons, List.sum_cons, h1] at ih ⊢
    omega

theorem rawLines_replicate (n : Nat) (rest : Str) :
    ∃ tail, rawLines (List.replicate n 'a' ++ '\n' :: rest) = List.replicate n 'a' :: tail := by
  unfold rawLines
  simp only [splitNL_replicate]
  cases hs : splitNL rest with
  | nil => exact absurd hs (splitNL_ne_nil rest)
  | cons x xs =>
    split
    · exact ⟨(x :: xs).dropLast, by simp [List.dropLast]⟩
    · exact ⟨_, rfl⟩

theorem scanLines_long (n : Nat) (rest : Str) (h : MaxScanTokenSize ≤ n) :
    scanLines (List.replicate n 'a' ++ '\n' :: rest) = [] := by
  obtain ⟨tail, e⟩ := rawLines_replicate n rest
  have hlen : ¬ byteLen (List.replicate n 'a') < MaxScanTokenSize := by
    rw [byteLen_replicate]; omega
  unfold scanLines
  rw [e]
  simp [List.takeWhile, hlen]

theorem newRobotsParser_long [CaseTables] (sd : Str → Int) (n : Nat) (rest : Str)
    (h : MaxScanTokenSize ≤ n) :
    NewRobotsParser sd (List.replicate n 'a' ++ '\n' :: rest) =
      { Rules := [], DefaultRule := none } := by
  unfold NewRobotsParser
  rw [scanLines_long n rest h]
  rfl

theorem rawLines_long_mem (n : Nat) :
    "User-agent: *".toList ∈ rawLines (List.replicate n 'a' ++ '\n' :: "User-agent: *".toList) := by
  have e : splitNL "User-agent: *".toList = ["User-agent: *".toList] := by decide
  unfold rawLines
  simp only [splitNL_replicate, e]
  have hl : ([List.replicate n 'a', "User-agent: *".toList] : List Str).getLast?
      = some "User-agent: *".toList := by simp
  rw [hl]
  have hne : ¬ (some "User-agent: *".toList : Option Str) = some [] := by decide
  rw [if_neg hne]
  simp

theorem scanLines_short (content : Str)
    (h : ∀ l ∈ rawLines content, byteLen l < MaxScanTokenSize) :
    scanLines content = (rawLines content).map dropCR := by
  unfold scanLines
  congr 1
  apply List.takeWhile_eq_self_iff.2
  intro l hl
  simpa using h l hl

/-- C20 (the code at the failing input): the text made of a line of 65536 letters `a`
followed by the line `User-agent: *` has a `User-agent` line, and the rule list returned for
it is empty: the scanner stops at the first line, which does not fit its buffer, and the loop
of `NewRobotsParser` ends as at the end of the text. -/
theorem long_line_drops_rules :
    "User-agent: *".toList ∈
      rawLines (List.replicate 65536 'a' ++ '\n' :: "User-agent: *".toList) ∧
    userAgentValue "User-agent: *".toList = some "*".toList ∧
    (NewRobotsParser (fun _ => 0)
      (List.replicate 65536 'a' ++ '\n' :: "User-agent: *".toList)).Rules = [] := by
  refine ⟨rawLines_long_mem 65536, by decide, ?_⟩
  rw [newRobotsParser_long (fun _ => 0) 65536 _ (by decide)]

/-- The structure of the parse on the lines that the scanner delivers (all the lines of the
text when each has fewer than 65536 bytes): for every text, the rule list returned by
`NewRobotsParser` has one rule per `User-agent` line, in file order, whose agent is the
trimmed value of the line and whose Disallow and Allow lists are the non-empty values of the
`Disallow` and `Allow` lines up to the next `User-agent` line, in order; directives before the
first `User-agent` line and directives with an empty value add nothing; a rule without
Disallow entry allows every path, as does the group whose only directive is `Disallow:`. -/
theorem parse_structure [CaseTables] (sd : Str → Int) (content : Str) :
    (NewRobotsParser sd content).Rules.map ruleShape = specGroups (scanLines content) ∧
    ((∀ l ∈ rawLines content, byteLen l < MaxScanTokenSize) →
        scanLines content = (rawLines content).map dropCR) ∧
    (∀ (rule : RobotsRule) (urlPath : Str), rule.Disallow = [] → checkRule rule urlPath = true) ∧
    (∀ urlPath userAgent : Str,
        IsAllowed (NewRobotsParser sd "User-agent: *\nDisallow:".toList) urlPath userAgent
          = true) := by
  refine ⟨newRobotsParser_shapes sd content, scanLines_short content, ?_, ?_⟩
  · intro rule urlPath h
    unfold checkRule
    rw [h]
    cases allowLoop rule.Allow urlPath <;> simp [disallowLoop]
  · intro urlPath userAgent
    have e : NewRobotsParser sd "User-agent: *\nDisallow:".toList =
        { Rules := [{ UserAgent := ['*'], Disallow := [], Allow := [], CrawlDelay := 0 }]
          DefaultRule := some { UserAgent := ['*'], Disallow := [], Allow := [], CrawlDelay := 0 } } := by
      rfl
    rw [e]
    simp only [IsAllowed, selectedRule, findRule]
    split_ifs <;> simp [checkRule, allowLoop, disallowLoop]

/-- The structure of the parse of a text with a directive before the first group, a group
with an empty `Disallow:` and two groups in all. -/
theorem parse_structure_witness :
    (NewRobotsParser (fun _ => 0)
        "Disallow: /x\nUser-agent: a\nDisallow: /p\nDisallow:\nAllow: /q\nUser-agent: b\nAllow: /r".toList).Rules.map
        ruleShape
      = [("a".toList, ["/p".toList], ["/q".toList]), ("b".toList, [], ["/r".toList])] ∧
    scanLines "Disallow: /x\nUser-agent: a\nDisallow: /p\nDisallow:\nAllow: /q\nUser-agent: b\nAllow: /r".toList
      = (rawLines "Disallow: /x\nUser-agent: a\nDisallow: /p\nDisallow:\nAllow: /q\nUser-agent: b\nAllow: /r".toList).map
          dropCR :=
  ⟨(parse_structure (fun _ => 0)
      "Disallow: /x\nUser-agent: a\nDisallow: /p\nDisallow:\nAllow: /q\nUser-agent: b\nAllow: /r".toList).1.trans
      (by decide),
   (parse_structure (fun _ => 0)
      "Disallow: /x\nUser-agent: a\nDisallow: /p\nDisallow:\nAllow: /q\nUser-agent: b\nAllow: /r".toList).2.1
      (by decide)⟩

/-! ## Relations between answers of the rule engine -/

theorem allowLoop_nil_of_nil (urlPath : Str) : allowLoop [] urlPath = false := rfl

/-- C30: prefix closure of `IsAllowed`.  For every rule set, agent, path `p` and suffix `s`,
with `rule` the rule selected for the agent: when an Allow entry of the rule is a prefix of `p`
the path `p ++ s` is allowed; when the rule has no Allow entry and `p` is disallowed, `p ++ s`
is disallowed; and a rule with one more Disallow entry, at any position, still disallows every
path that the rule disallows. -/
theorem isAllowed_prefix_closed [CaseTables]
    (rp : RobotsParser) (userAgent p s : Str) (rule : RobotsRule)
    (hsel : selectedRule rp userAgent = some rule) :
    ((∃ a ∈ rule.Allow, a <+: p) → IsAllowed rp (p ++ s) userAgent = true) ∧
    (rule.Allow = [] → IsAllowed rp p userAgent = false →
        IsAllowed rp (p ++ s) userAgent = false) ∧
    (∀ (l1 l2 : List Str) (x : Str), rule.Disallow = l1 ++ l2 → checkRule rule p = false →
        checkRule { rule with Disallow := l1 ++ x :: l2 } p = false) := by
  refine ⟨?_, ?_, ?_⟩
  · rintro ⟨a, ha, hp⟩
    have h := (allowLoop_eq_true_iff rule.Allow (p ++ s)).2
      ⟨a, ha, hp.trans (List.prefix_append p s)⟩
    simp [IsAllowed, checkRule, hsel, h]
  · intro hallow hdis
    simp only [IsAllowed, hsel, checkRule, hallow, allowLoop_nil_of_nil] at hdis ⊢
    simp only [Bool.false_eq_true, if_false] at hdis ⊢
    obtain ⟨x, hx, hcase⟩ := (disallowLoop_eq_false_iff rule.Disallow p).1 hdis
    apply (disallowLoop_eq_false_iff rule.Disallow (p ++ s)).2
    refine ⟨x, hx, ?_⟩
    rcases hcase with h | h
    · exact Or.inl h
    · exact Or.inr (h.trans (List.prefix_append p s))
  · intro l1 l2 x hd hc
    unfold checkRule at hc ⊢
    simp only [] at hc ⊢
    cases ha : allowLoop rule.Allow p with
    | true => rw [ha] at hc; simp at hc
    | false =>
      rw [ha] at hc
      simp only [Bool.false_eq_true, if_false] at hc ⊢
      obtain ⟨y, hy, hcase⟩ := (disallowLoop_eq_false_iff rule.Disallow p).1 hc
      apply (disallowLoop_eq_false_iff (l1 ++ x :: l2) p).2
      refine ⟨y, ?_, hcase⟩
      rw [hd] at hy
      rcases List.mem_append.1 hy with h | h
      · exact List.mem_append.2 (Or.inl h)
      · exact List.mem_append.2 (Or.inr (List.mem_cons_of_mem _ h))

/-- Witness of C30: with `Allow: /pub` and `Disallow: /private` under `User-agent: *`, the
path `/pub/x` is allowed like `/pub`. -/
theorem isAllowed_prefix_closed_witness :
    IsAllowed (NewRobotsParser (fun _ => 0)
        "User-agent: *\nAllow: /pub\nDisallow: /private".toList)
      ("/pub".toList ++ "/x".toList) "bot".toList = true :=
  (isAllowed_prefix_closed
    (NewRobotsParser (fun _ => 0) "User-agent: *\nAllow: /pub\nDisallow: /private".toList)
    "bot".toList "/pub".toList "/x".toList
    { UserAgent := "*".toList, Disallow := ["/private".toList], Allow := ["/pub".toList],
      CrawlDelay := 0 }
    (by decide)).1 ⟨"/pub".toList, by decide, by decide⟩

/-- C29 (the code at the failing input): a text with two `User-agent: *` groups.  The agent
`*` is answered from the first group and the agent `other`, which matches no `User-agent`
line, from the last one: the path `/a` is disallowed for `*` and allowed for `other`, and the
crawl delays are 1 s for `*` and 2 s for `other`. -/
theorem fallback_differs_from_star :
    IsAllowed (NewRobotsParser
        (fun v => if v = "1".toList then 1000000000 else if v = "2".toList then 2000000000 else 0)
        "User-agent: *\nDisallow: /a\nCrawl-delay: 1\nUser-agent: *\nDisallow: /b\nCrawl-delay: 2".toList)
      "/a".toList "*".toList = false ∧
    IsAllowed (NewRobotsParser
        (fun v => if v = "1".toList then 1000000000 else if v = "2".toList then 2000000000 else 0)
        "User-agent: *\nDisallow: /a\nCrawl-delay: 1\nUser-agent: *\nDisallow: /b\nCrawl-delay: 2".toList)
      "/a".toList "other".toList = true ∧
    GetCrawlDelay (NewRobotsParser
        (fun v => if v = "1".toList then 1000000000 else if v = "2".toList then 2000000000 else 0)
        "User-agent: *\nDisallow: /a\nCrawl-delay: 1\nUser-agent: *\nDisallow: /b\nCrawl-delay: 2".toList)
      "*".toList = 1000000000 ∧
    GetCrawlDelay (NewRobotsParser
        (fun v => if v = "1".toList then 1000000000 else if v = "2".toList then 2000000000 else 0)
        "User-agent: *\nDisallow: /a\nCrawl-delay: 1\nUser-agent: *\nDisallow: /b\nCrawl-delay: 2".toList)
      "other".toList = 2000000000 := by
  refine ⟨?_, ?_, ?_, ?_⟩ <;> decide

/-! ## Lines without effect and equivalent spellings of a line -/

theorem parseLine_eq_applyDirective [CaseTables] (sd : Str → Int) (st : ParseState) (text : Str) :
    parseLine sd st text = applyDirective sd st (directive text) := by
  unfold parseLine directive
  simp only []
  split
  · rfl
  · split
    · rfl
    · rfl

theorem parseLine_ignored [CaseTables] (sd : Str → Int) (st : ParseState) (text : Str)
    (h : isIgnoredLine text = true) : parseLine sd st text = st := by
  rw [parseLine_eq_applyDirective]
  unfold isIgnoredLine at h
  cases hd : directive text with
  | none => rfl
  | some kv =>
    obtain ⟨k, v⟩ := kv
    rw [hd] at h
    simp only [knownKeys, List.mem_cons, List.mem_singleton, List.not_mem_nil, or_false,
      decide_eq_true_eq, not_or] at h
    obtain ⟨h1, h2, h3, h4⟩ := h
    simp only [applyDirective, h1, h2, h3, h4, if_false]

theorem trimLeft_append (s t : Str) :
    trimLeft (s ++ t) = if trimLeft s = [] then trimLeft t else trimLeft s ++ t := by
  induction s with
  | nil => simp [trimLeft]
  | cons c cs ih =>
    simp only [List.cons_append, trimLeft]
    split
    · exact ih
    · simp

theorem trimLeft_spaces (ws : Str) (h : ∀ c ∈ ws, isSpace c = true) : trimLeft ws = [] := by
  induction ws with
  | nil => rfl
  | cons c cs ih =>
    rw [trimLeft, if_pos (h c (List.mem_cons_self _ _))]
    exact ih (fun x hx => h x (List.mem_cons_of_mem _ hx))

theorem trimLeft_spaces_append (ws s : Str) (h : ∀ c ∈ ws, isSpace c = true) :
    trimLeft (ws ++ s) = trimLeft s := by
  rw [trimLeft_append, trimLeft_spaces ws h, if_pos rfl]

theorem trimLeft_split (s : Str) :
    ∃ ws, (∀ c ∈ ws, isSpace c = true) ∧ s = ws ++ trimLeft s := by
  induction s with
  | nil => exact ⟨[], by simp, rfl⟩
  | cons c cs ih =>
    obtain ⟨ws, hws, e⟩ := ih
    by_cases hc : isSpace c = true
    · refine ⟨c :: ws, ?_, ?_⟩
      · intro x hx
        rcases List.mem_cons.1 hx with rfl | hx
        · exact hc
        · exact hws x hx
      · rw [trimLeft, if_pos hc, List.cons_append, ← e]
    · exact ⟨[], by simp, by rw [trimLeft, if_neg hc]; rfl⟩

theorem trimSpace_spaces_append (ws s : Str) (h : ∀ c ∈ ws, isSpace c = true) :
    TrimSpace (ws ++ s) = TrimSpace s := by
  unfold TrimSpace
  rw [trimLeft_spaces_append ws s h]

theorem trimSpace_append_spaces (s ws : Str) (h : ∀ c ∈ ws, isSpace c = true) :
    TrimSpace (s ++ ws) = TrimSpace s := by
  unfold TrimSpace
  rw [trimLeft_append]
  split
  · rename_i h0
    rw [h0, trimLeft_spaces ws h]
  · rw [List.reverse_append, trimLeft_spaces_append]
    intro c hc
    exact h c (List.mem_reverse.1 hc)

theorem trimSpace_trimLeft (s : Str) : TrimSpace (trimLeft s) = TrimSpace s := by
  obtain ⟨ws, hws, e⟩ := trimLeft_split s
  conv_rhs => rw [e]
  rw [trimSpace_spaces_append ws _ hws]

theorem trimSpace_trimRight (s : Str) :
    TrimSpace (trimLeft s.reverse).reverse = TrimSpace s := by
  obtain ⟨ws, hws, e⟩ := trimLeft_split s.reverse
  have e2 : s = (trimLeft s.reverse).reverse ++ ws.reverse := by
    have := congrArg List.reverse e
    simpa using this
  conv_rhs => rw [e2]
  rw [trimSpace_append_spaces]
  intro c hc
  exact hws c (List.mem_reverse.1 hc)

theorem trimSpace_dropCR (x : Str) : TrimSpace (dropCR x) = TrimSpace x := by
  unfold dropCR
  split
  · rename_i h
    have e : x = x.dropLast ++ ['\r'] := by
      have := List.dropLast_append_getLast? '\r' (by simpa using h)
      exact this.symm
    conv_rhs => rw [e]
    rw [trimSpace_append_spaces]
    intro c hc
    rw [List.mem_singleton.1 hc]
    decide
  · rfl

theorem directive_dropCR [CaseTables] (x : Str) : directive (dropCR x) = directive x := by
  unfold directive
  rw [trimSpace_dropCR]

theorem takeWhile_append_of_all {α : Type} (p : α → Bool) (l₁ l₂ : List α)
    (h : ∀ a ∈ l₁, p a = true) : (l₁ ++ l₂).takeWhile p = l₁ ++ l₂.takeWhile p := by
  induction l₁ with
  | nil => rfl
  | cons a as ih =>
    rw [List.cons_append, List.takeWhile_cons, if_pos (h a (List.mem_cons_self _ _)),
      ih (fun x hx => h x (List.mem_cons_of_mem _ hx))]
    rfl

theorem parseLines_append [CaseTables] (sd : Str → Int) (st : ParseState) (l₁ l₂ : List Str) :
    parseLines sd st (l₁ ++ l₂) = parseLines sd (parseLines sd st l₁) l₂ := by
  simp [parseLines, List.foldl_append]

theorem parse_scan_congr [CaseTables] (sd : Str → Int) (M M' S : List Str)
    (hM : ∀ x ∈ M, byteLen x < MaxScanTokenSize) (hM' : ∀ x ∈ M', byteLen x < MaxScanTokenSize)
    (heff : ∀ st, parseLines sd st (M.map dropCR) = parseLines sd st (M'.map dropCR)) :
    ∀ (P : List Str) (st : ParseState),
      parseLines sd st
          (((P ++ M ++ S).takeWhile (fun l => decide (byteLen l < MaxScanTokenSize))).map dropCR) =
        parseLines sd st
          (((P ++ M' ++ S).takeWhile (fun l => decide (byteLen l < MaxScanTokenSize))).map dropCR) := by
  intro P
  induction P with
  | nil =>
    intro st
    rw [List.nil_append, List.nil_append,
      takeWhile_append_of_all _ M S (fun a ha => decide_eq_true (hM a ha)),
      takeWhile_append_of_all _ M' S (fun a ha => decide_eq_true (hM' a ha)),
      List.map_append, List.map_append, parseLines_append, parseLines_append, heff]
  | cons p ps ih =>
    intro st
    simp only [List.cons_append, List.takeWhile_cons]
    split
    · simp only [List.map_cons, parseLines, List.foldl_cons]
      exact ih _
    · rfl

theorem parseDelivered_congr [CaseTables] (sd : Str → Int) (P M M' S : List Str)
    (hM : ∀ x ∈ M, byteLen x < MaxScanTokenSize) (hM' : ∀ x ∈ M', byteLen x < MaxScanTokenSize)
    (heff : ∀ st, parseLines sd st (M.map dropCR) = parseLines sd st (M'.map dropCR)) :
    parseDelivered sd (P ++ M ++ S) = parseDelivered sd (P ++ M' ++ S) := by
  unfold parseDelivered
  simp only []
  rw [parse_scan_congr sd M M' S hM hM' heff P]

theorem parseLines_ignored [CaseTables] (sd : Str → Int) (M : List Str)
    (hM : ∀ x ∈ M, isIgnoredLine x = true) :
    ∀ st, parseLines sd st (M.map dropCR) = st := by
  induction M with
  | nil => intro st; rfl
  | cons x xs ih =>
    intro st
    have hx : isIgnoredLine (dropCR x) = true := by
      have := hM x (List.mem_cons_self _ _)
      unfold isIgnoredLine at this ⊢
      rw [directive_dropCR]
      exact this
    simp only [List.map_cons, parseLines, List.foldl_cons]
    rw [parseLine_ignored sd st _ hx]
    exact ih (fun y hy => hM y (List.mem_cons_of_mem _ hy)) st

theorem newRobotsParser_eq_parseDelivered [CaseTables] (sd : Str → Int) (content : Str) :
    NewRobotsParser sd content = parseDelivered sd (splitNL content) := by
  have h0 : NewRobotsParser sd content = parseDelivered sd (rawLines content) := rfl
  rw [h0]
  unfold rawLines
  simp only []
  split
  · rename_i hlast
    have e : splitNL content = (splitNL content).dropLast ++ [[]] :=
      (List.dropLast_append_getLast? [] (by simpa using hlast)).symm
    have e1 : (splitNL content).dropLast = (splitNL content).dropLast ++ [] ++ [] := by simp
    have e2 : splitNL content = (splitNL content).dropLast ++ [[]] ++ [] := by
      simpa using e
    conv_lhs => rw [e1]
    conv_rhs => rw [e2]
    apply parseDelivered_congr
    · intro x hx; exact absurd hx (List.not_mem_nil x)
    · intro x hx
      rw [List.mem_singleton.1 hx]
      decide
    · intro st
      have hign : ∀ x ∈ ([[]] : List Str), isIgnoredLine x = true := by
        intro x hx
        rw [List.mem_singleton.1 hx]
        rfl
      rw [parseLines_ignored sd [[]] hign st]
      rfl
  · rfl

theorem splitNL_append (A B : Str) : splitNL (A ++ '\n' :: B) = splitNL A ++ splitNL B := by
  induction A with
  | nil => simp [splitNL]
  | cons c cs ih =>
    rw [List.cons_append, splitNL, splitNL]
    by_cases hc : c = '\n'
    · rw [if_pos hc, if_pos hc, ih]; rfl
    · rw [if_neg hc, if_neg hc, ih]
      cases hs : splitNL cs with
      | nil => exact absurd hs (splitNL_ne_nil cs)
      | cons l ls => rfl

theorem splitNL_line (x : Str) (h : '\n' ∉ x) : splitNL x = [x] := by
  induction x with
  | nil => rfl
  | cons c cs ih =>
    have hc : ¬ c = '\n' := fun e => h (by rw [e]; exact List.mem_cons_self _ _)
    have hcs : '\n' ∉ cs := fun e => h (List.mem_cons_of_mem _ e)
    rw [splitNL, if_neg hc, ih hcs]

theorem mem_of_mem_trimLeft (s : Str) (c : Char) (h : c ∈ trimLeft s) : c ∈ s := by
  obtain ⟨ws, _, e⟩ := trimLeft_split s
  rw [e]
  exact List.mem_append.2 (Or.inr h)

theorem mem_of_mem_trimSpace (s : Str) (c : Char) (h : c ∈ TrimSpace s) : c ∈ s := by
  unfold TrimSpace at h
  exact mem_of_mem_trimLeft s c (List.mem_reverse.1
    (mem_of_mem_trimLeft _ c (List.mem_reverse.1 h)))

theorem splitColon_none (s : Str) (h : ':' ∉ s) : splitColon s = none := by
  induction s with
  | nil => rfl
  | cons c cs ih =>
    have hc : ¬ c = ':' := fun e => h (by rw [e]; exact List.mem_cons_self _ _)
    have hcs : ':' ∉ cs := fun e => h (List.mem_cons_of_mem _ e)
    rw [splitColon, if_neg hc, ih hcs]

theorem isIgnoredLine_kinds [CaseTables] (x : Str) :
    (TrimSpace x = [] → isIgnoredLine x = true) ∧
    (HasPrefix (TrimSpace x) ['#'] = true → isIgnoredLine x = true) ∧
    (':' ∉ x → isIgnoredLine x = true) ∧
    (∀ k v, directive x = some (k, v) → k ∉ knownKeys → isIgnoredLine x = true) := by
  refine ⟨?_, ?_, ?_, ?_⟩
  · intro h
    simp [isIgnoredLine, directive, h]
  · intro h
    simp [isIgnoredLine, directive, h]
  · intro h
    have hs : splitColon (TrimSpace x) = none :=
      splitColon_none _ (fun hc => h (mem_of_mem_trimSpace x ':' hc))
    unfold isIgnoredLine directive
    simp only [hs]
    split_ifs <;> rfl
  · intro k v hd hk
    unfold isIgnoredLine
    rw [hd]
    exact decide_eq_true hk

/-- C21 (the code at the failing input): the line of 65536 letters `a` has no colon;
inserted before the text `User-agent: *` / `Disallow: /` it changes the rule set returned by
`NewRobotsParser` from one rule, which is also the default rule, to no rule at all: the
scanner stops at the inserted line, which does not fit its buffer. -/
theorem long_ignored_line_changes_rules :
    ':' ∉ List.replicate 65536 'a' ∧
    NewRobotsParser (fun _ => 0) "User-agent: *\nDisallow: /".toList =
      { Rules := [{ UserAgent := "*".toList, Disallow := ["/".toList], Allow := [],
                    CrawlDelay := 0 }]
        DefaultRule := some { UserAgent := "*".toList, Disallow := ["/".toList], Allow := [],
                              CrawlDelay := 0 } } ∧
    NewRobotsParser (fun _ => 0)
        (List.replicate 65536 'a' ++ '\n' :: "User-agent: *\nDisallow: /".toList) =
      { Rules := [], DefaultRule := none } := by
  refine ⟨?_, by rfl, newRobotsParser_long (fun _ => 0) 65536 _ (by decide)⟩
  intro h
  exact absurd (List.eq_of_mem_replicate h) (by decide)

/-- Ignored lines that fit the scanner's buffer have no effect.  When the
lines of two texts differ only in a block of lines each of which is ignored (blank, first
non-space character `#`, no colon, or a key that is none of user-agent, disallow, allow,
crawl-delay) and has fewer than 65536 bytes, `NewRobotsParser` returns the same rule set
(rules and default rule) for both; the block may be empty on either side, so this covers
inserting and removing such lines at any position.  The lines of a text are its pieces
between newline characters: the pieces of `A`, newline, `B` are those of `A` followed by those
of `B`, and a text without newline is one piece. -/
theorem ignored_lines_no_effect [CaseTables] (sd : Str → Int) (content content' : Str)
    (P M M' S : List Str)
    (h : splitNL content = P ++ M ++ S) (h' : splitNL content' = P ++ M' ++ S)
    (hM : ∀ x ∈ M, isIgnoredLine x = true ∧ byteLen x < MaxScanTokenSize)
    (hM' : ∀ x ∈ M', isIgnoredLine x = true ∧ byteLen x < MaxScanTokenSize) :
    NewRobotsParser sd content' = NewRobotsParser sd content ∧
    (∀ x : Str,
      (TrimSpace x = [] → isIgnoredLine x = true) ∧
      (HasPrefix (TrimSpace x) ['#'] = true → isIgnoredLine x = true) ∧
      (':' ∉ x → isIgnoredLine x = true) ∧
      (∀ k v, directive x = some (k, v) → k ∉ knownKeys → isIgnoredLine x = true)) ∧
    (∀ A B : Str, splitNL (A ++ '\n' :: B) = splitNL A ++ splitNL B) ∧
    (∀ x : Str, '\n' ∉ x → splitNL x = [x]) := by
  refine ⟨?_, isIgnoredLine_kinds, splitNL_append, splitNL_line⟩
  rw [newRobotsParser_eq_parseDelivered, newRobotsParser_eq_parseDelivered, h, h']
  apply parseDelivered_congr sd P M' M S (fun x hx => (hM' x hx).2) (fun x hx => (hM x hx).2)
  intro st
  rw [parseLines_ignored sd M' (fun x hx => (hM' x hx).1),
    parseLines_ignored sd M (fun x hx => (hM x hx).1)]

/-- A comment, a blank line, a line without colon and a line with an unknown key inserted
between the lines of a group leave the rule set unchanged. -/
theorem ignored_lines_no_effect_witness :
    NewRobotsParser (fun _ => 0)
        "User-agent: *\n# note\n\nfoo\nSitemap: /s.xml\nDisallow: /x".toList =
      NewRobotsParser (fun _ => 0) "User-agent: *\nDisallow: /x".toList :=
  (ignored_lines_no_effect (fun _ => 0) "User-agent: *\nDisallow: /x".toList
    "User-agent: *\n# note\n\nfoo\nSitemap: /s.xml\nDisallow: /x".toList
    ["User-agent: *".toList] []
    ["# note".toList, [], "foo".toList, "Sitemap: /s.xml".toList]
    ["Disallow: /x".toList]
    (by decide) (by decide) (by decide) (by decide)).1

theorem splitColon_append (a b : Str) (h : ':' ∉ a) : splitColon (a ++ ':' :: b) = some (a, b) := by
  induction a with
  | nil => simp [splitColon]
  | cons c cs ih =>
    have hc : ¬ c = ':' := fun e => h (by rw [e]; exact List.mem_cons_self _ _)
    have hcs : ':' ∉ cs := fun e => h (List.mem_cons_of_mem _ e)
    rw [List.cons_append, splitColon, if_neg hc, ih hcs]

theorem trimLeft_append_cons (a b : Str) (c : Char) (hc : isSpace c = false) :
    trimLeft (a ++ c :: b) = trimLeft a ++ c :: b := by
  have h1 : trimLeft (c :: b) = c :: b := by
    rw [trimLeft, hc]; rfl
  rw [trimLeft_append, h1]
  split
  · rename_i h0; rw [h0]; rfl
  · rfl

theorem trimSpace_key_value (k v : Str) :
    TrimSpace (k ++ ':' :: v) = trimLeft k ++ ':' :: (trimLeft v.reverse).reverse := by
  have hc : isSpace ':' = false := by decide
  unfold TrimSpace
  rw [trimLeft_append_cons k v ':' hc, List.reverse_append, List.reverse_cons,
    List.append_assoc, List.singleton_append, trimLeft_append_cons _ _ ':' hc]
  simp

theorem trimLeft_head (s : Str) (c : Char) (cs : Str) (h : trimLeft s = c :: cs) :
    isSpace c = false := by
  induction s with
  | nil => simp [trimLeft] at h
  | cons x xs ih =>
    rw [trimLeft] at h
    split at h
    · exact ih h
    · rename_i hx
      simp only [List.cons.injEq] at h
      rw [← h.1]
      simpa using hx

theorem trimSpace_cons (c : Char) (s : Str) (hc : isSpace c = false) :
    TrimSpace (c :: s) = c :: (trimLeft s.reverse).reverse := by
  have h : trimLeft (c :: s) = c :: s := by
    rw [trimLeft, hc]; rfl
  unfold TrimSpace
  rw [h, List.reverse_cons, trimLeft_append_cons _ [] c hc]
  simp

theorem lowerChar_space [CaseTables] (c : Char) (ha : c.toNat < 128) (h : isSpace c = true) :
    lowerChar c = c := by
  rw [lowerChar_ascii c ha]
  split
  · rename_i hr
    exfalso
    unfold isSpace at h
    simp only [Bool.or_eq_true, Bool.and_eq_true, decide_eq_true_eq, beq_iff_eq] at h
    omega
  · rfl

theorem isSpace_lowerChar [CaseTables] (c : Char) (ha : c.toNat < 128)
    (h : isSpace c = false) : isSpace (lowerChar c) = false := by
  rw [lowerChar_ascii c ha]
  split
  · rename_i hr
    have hn : (Char.ofNat (c.toNat + 32)).toNat = c.toNat + 32 :=
      toNat_ofNat_ascii _ (by omega)
    cases hs : isSpace (Char.ofNat (c.toNat + 32)) with
    | false => rfl
    | true =>
      exfalso
      unfold isSpace at hs
      simp only [hn, Bool.or_eq_true, Bool.and_eq_true, decide_eq_true_eq, beq_iff_eq] at hs
      omega
  · exact h

theorem lowerChar_eq_hash [CaseTables] (c : Char) (ha : c.toNat < 128) :
    lowerChar c = '#' ↔ c = '#' := by
  constructor
  · intro h
    rw [lowerChar_ascii c ha] at h
    split at h
    · rename_i hr
      have hn : (Char.ofNat (c.toNat + 32)).toNat = c.toNat + 32 :=
        toNat_ofNat_ascii _ (by omega)
      rw [h] at hn
      have h35 : ('#' : Char).toNat = 35 := by decide
      omega
    · exact h
  · intro h
    rw [lowerChar_ascii c ha, h]
    decide

theorem toLower_spaces [CaseTables] (ws : Str) (ha : ∀ c ∈ ws, c.toNat < 128)
    (h : ∀ c ∈ ws, isSpace c = true) : ToLower ws = ws := by
  unfold ToLower
  conv_rhs => rw [← List.map_id ws]
  apply List.map_congr_left
  intro c hc
  exact lowerChar_space c (ha c hc) (h c hc)

theorem trimSpace_toLower_trimLeft [CaseTables] (k : Str) (ha : ∀ c ∈ k, c.toNat < 128) :
    TrimSpace (ToLower (trimLeft k)) = TrimSpace (ToLower k) := by
  obtain ⟨ws, hws, e⟩ := trimLeft_split k
  have haw : ∀ c ∈ ws, c.toNat < 128 := by
    intro c hc
    apply ha
    rw [e]
    exact List.mem_append.2 (Or.inl hc)
  conv_rhs => rw [e]
  have : ToLower (ws ++ trimLeft k) = ws ++ ToLower (trimLeft k) := by
    unfold ToLower
    rw [List.map_append]
    congr 1
    exact toLower_spaces ws haw hws
  rw [this, trimSpace_spaces_append ws _ hws]

theorem hasPrefix_hash_key [CaseTables] (k t : Str) (ha : ∀ c ∈ k, c.toNat < 128) :
    HasPrefix (trimLeft k ++ ':' :: t) ['#'] = HasPrefix (TrimSpace (ToLower k)) ['#'] := by
  rw [← trimSpace_toLower_trimLeft k ha]
  cases hk : trimLeft k with
  | nil => rfl
  | cons c cs =>
    have hc := trimLeft_head k c cs hk
    have hca : c.toNat < 128 :=
      ha c (mem_of_mem_trimLeft k c (by rw [hk]; exact List.mem_cons_self _ _))
    have hl : ToLower (c :: cs) = lowerChar c :: ToLower cs := rfl
    rw [hl, trimSpace_cons _ _ (isSpace_lowerChar c hca hc)]
    simp only [HasPrefix, List.cons_append, List.isPrefixOf, Bool.and_true]
    by_cases h : c = '#'
    · rw [h, lowerChar_ascii '#' (by decide)]; rfl
    · have h2 : ¬ lowerChar c = '#' := fun e => h ((lowerChar_eq_hash c hca).1 e)
      have h3 : ¬ '#' = lowerChar c := fun e => h2 e.symm
      have h4 : ¬ '#' = c := fun e => h e.symm
      simp [h3, h4]

theorem directive_key_value [CaseTables] (k v : Str) (hk : ':' ∉ k)
    (ha : ∀ c ∈ k, c.toNat < 128) :
    directive (k ++ ':' :: v) =
      if HasPrefix (TrimSpace (ToLower k)) ['#'] = true then none
      else some (TrimSpace (ToLower k), TrimSpace v) := by
  have hne : ¬ (trimLeft k ++ ':' :: (trimLeft v.reverse).reverse = []) := by simp
  have hk2 : ':' ∉ trimLeft k := fun h => hk (mem_of_mem_trimLeft k ':' h)
  unfold directive
  simp only [trimSpace_key_value, hne, false_or, hasPrefix_hash_key k _ ha,
    splitColon_append _ _ hk2, trimSpace_toLower_trimLeft k ha, trimSpace_trimRight]

theorem byteLen_append (a b : Str) : byteLen (a ++ b) = byteLen a + byteLen b := by
  simp [byteLen]

theorem byteLen_spaces (n : Nat) : byteLen (List.replicate n ' ') = n := by
  induction n with
  | zero => rfl
  | succ k ih =>
    have h1 : utf8Len ' ' = 1 := by decide
    simp only [byteLen, List.replicate_succ, List.map_cons, List.sum_cons, h1] at ih ⊢
    omega

theorem parseDelivered_long [CaseTables] (sd : Str → Int) (x : Str) (rest : List Str)
    (h : MaxScanTokenSize ≤ byteLen x) :
    parseDelivered sd (x :: rest) = { Rules := [], DefaultRule := none } := by
  have hx : ¬ byteLen x < MaxScanTokenSize := by omega
  unfold parseDelivered
  simp only [List.takeWhile_cons, hx, decide_False]
  rfl

theorem newRobotsParser_padded [CaseTables] (sd : Str → Int) (s : Str) (n : Nat) (hs : '\n' ∉ s)
    (h : MaxScanTokenSize ≤ n) :
    NewRobotsParser sd (s ++ List.replicate n ' ') = { Rules := [], DefaultRule := none } := by
  have hnl : '\n' ∉ s ++ List.replicate n ' ' := by
    intro hm
    rcases List.mem_append.1 hm with hm | hm
    · exact hs hm
    · exact absurd (List.eq_of_mem_replicate hm) (by decide)
  rw [newRobotsParser_eq_parseDelivered, splitNL_line _ hnl]
  apply parseDelivered_long
  rw [byteLen_append, byteLen_spaces]
  omega

/-- C22 (the code at the failing input): 65536 spaces added at the end of the line
`User-agent: *` change the rule set returned by `NewRobotsParser` from one rule to no rule:
the scanner stops at the padded line, which does not fit its buffer, before the line is
trimmed. -/
theorem padded_line_changes_rules :
    (∀ c ∈ List.replicate 65536 ' ', isSpace c = true) ∧
    NewRobotsParser (fun _ => 0) "User-agent: *".toList =
      { Rules := [{ UserAgent := "*".toList, Disallow := [], Allow := [], CrawlDelay := 0 }]
        DefaultRule := some { UserAgent := "*".toList, Disallow := [], Allow := [],
                              CrawlDelay := 0 } } ∧
    NewRobotsParser (fun _ => 0) ("User-agent: *".toList ++ List.replicate 65536 ' ') =
      { Rules := [], DefaultRule := none } := by
  refine ⟨?_, by rfl, newRobotsParser_padded (fun _ => 0) _ 65536 (by decide) (by decide)⟩
  intro c hc
  rw [List.eq_of_mem_replicate hc]
  decide

/-- Keys are case-insensitive and keys and values are trimmed, for lines that fit the
scanner's buffer.  When two texts differ only in one line with a colon, written `k:v` in one
and `k':v'` in the other (`k`, `k'` in ASCII and without colon), both lines have fewer than
65536 bytes, the keys agree after lower-casing and trimming and the values agree after
trimming, `NewRobotsParser` returns the same rule set for both.  Changing the case of the
letters of `k` and adding ASCII white space (spaces, tabs, a trailing carriage return) at
either end of `k` or of `v` are such changes; the carriage return that the scanner removes at
the end of a line never changes the key and the value of the line. -/
theorem spelling_no_effect [CaseTables] (sd : Str → Int) (content content' : Str)
    (P S : List Str) (k v k' v' : Str)
    (h : splitNL content = P ++ [k ++ ':' :: v] ++ S)
    (h' : splitNL content' = P ++ [k' ++ ':' :: v'] ++ S)
    (hk : ':' ∉ k) (hk' : ':' ∉ k')
    (ha : ∀ c ∈ k, c.toNat < 128) (ha' : ∀ c ∈ k', c.toNat < 128)
    (hkey : TrimSpace (ToLower k) = TrimSpace (ToLower k'))
    (hval : TrimSpace v = TrimSpace v')
    (hlen : byteLen (k ++ ':' :: v) < MaxScanTokenSize)
    (hlen' : byteLen (k' ++ ':' :: v') < MaxScanTokenSize) :
    NewRobotsParser sd content' = NewRobotsParser sd content ∧
    (∀ s : Str, (∀ c ∈ s, c.toNat < 128) →
      ToLower (ToUpper s) = ToLower s ∧ ToLower (ToLower s) = ToLower s) ∧
    (∀ ws s ws' : Str, (∀ c ∈ ws, isSpace c = true) → (∀ c ∈ ws', isSpace c = true) →
      TrimSpace (ws ++ s ++ ws') = TrimSpace s) ∧
    (∀ ws s ws' : Str, (∀ c ∈ ws, isSpace c = true ∧ c.toNat < 128) →
      (∀ c ∈ ws', isSpace c = true ∧ c.toNat < 128) →
      TrimSpace (ToLower (ws ++ s ++ ws')) = TrimSpace (ToLower s)) ∧
    isSpace ' ' = true ∧ isSpace '\t' = true ∧ isSpace '\r' = true ∧
    (∀ x : Str, directive (dropCR x) = directive x) := by
  refine ⟨?_, fun s hs => ⟨toLower_toUpper s hs, toLower_toLower s hs⟩, ?_, ?_, by decide,
    by decide, by decide, directive_dropCR⟩
  · rw [newRobotsParser_eq_parseDelivered, newRobotsParser_eq_parseDelivered, h, h']
    apply parseDelivered_congr sd P _ _ S
    · intro x hx; rw [List.mem_singleton.1 hx]; exact hlen'
    · intro x hx; rw [List.mem_singleton.1 hx]; exact hlen
    · intro st
      simp only [List.map_cons, List.map_nil, parseLines, List.foldl_cons, List.foldl_nil]
      rw [parseLine_eq_applyDirective, parseLine_eq_applyDirective, directive_dropCR,
        directive_dropCR, directive_key_value k v hk ha, directive_key_value k' v' hk' ha',
        hkey, hval]
  · intro ws s ws' hws hws'
    rw [trimSpace_append_spaces _ ws' hws', trimSpace_spaces_append ws s hws]
  · intro ws s ws' hws hws'
    have e : ToLower (ws ++ s ++ ws') = ws ++ ToLower s ++ ws' := by
      unfold ToLower
      rw [List.map_append, List.map_append]
      have e1 := toLower_spaces ws (fun c hc => (hws c hc).2) (fun c hc => (hws c hc).1)
      have e2 := toLower_spaces ws' (fun c hc => (hws' c hc).2) (fun c hc => (hws' c hc).1)
      unfold ToLower at e1 e2
      rw [e1, e2]
    rw [e, trimSpace_append_spaces _ ws' (fun c hc => (hws' c hc).1),
      trimSpace_spaces_append ws _ (fun c hc => (hws c hc).1)]

/-- The line `Disallow: /x` written in capitals with tabs and spaces around the key and the
value and a trailing carriage return gives the same rule set. -/
theorem spelling_no_effect_witness :
    NewRobotsParser (fun _ => 0) "User-agent: *\n \tDISALLOW :  /x \t\r\nAllow: /y".toList =
      NewRobotsParser (fun _ => 0) "User-agent: *\nDisallow: /x\nAllow: /y".toList :=
  (spelling_no_effect (fun _ => 0) "User-agent: *\nDisallow: /x\nAllow: /y".toList
    "User-agent: *\n \tDISALLOW :  /x \t\r\nAllow: /y".toList
    ["User-agent: *".toList] ["Allow: /y".toList]
    "Disallow".toList " /x".toList " \tDISALLOW ".toList "  /x \t\r".toList
    (by decide) (by decide) (by decide) (by decide) (by decide) (by decide) (by decide)
    (by decide) (by decide) (by decide)).1

/-! ## Crawl-delay values -/

theorem log2Loop_lt : ∀ (fuel n k : Nat), n ≠ 0 → n < 2 ^ k → log2Loop fuel n < k := by
  intro fuel
  induction fuel with
  | zero =>
    intro n k hn hk
    cases k with
    | zero => simp at hk; exact absurd hk hn
    | succ k => simp [log2Loop]
  | succ fuel ih =>
    intro n k hn hk
    cases k with
    | zero => simp at hk; exact absurd hk hn
    | succ k =>
      rw [log2Loop]
      split
      · omega
      · rename_i h2
        have h3 : n / 2 ≠ 0 := by omega
        have h4 : n / 2 < 2 ^ k := by
          apply Nat.div_lt_of_lt_mul
          rw [pow_succ] at hk
          omega
        have := ih (n / 2) k h3 h4
        omega

theorem log2Loop_eq_log2 : ∀ (fuel n : Nat), n ≤ fuel → log2Loop fuel n = Nat.log2 n := by
  intro fuel
  induction fuel with
  | zero =>
    intro n hn
    have h0 : n = 0 := by omega
    subst h0
    rw [log2Loop, Nat.log2]
    simp
  | succ fuel ih =>
    intro n hn
    rw [log2Loop, Nat.log2]
    by_cases h2 : n < 2
    · have h3 : ¬ n ≥ 2 := by omega
      simp [h2, h3]
    · have h3 : n ≥ 2 := by omega
      rw [if_neg h2, if_pos h3, ih (n / 2) (by omega)]

theorem floorLog2_eq_log2 (n : Nat) : floorLog2 n = Nat.log2 n :=
  log2Loop_eq_log2 n n (Nat.le_refl n)

theorem roundHalfEven_mul (q den : Nat) (h : 0 < den) : roundHalfEven (q * den) den = q := by
  unfold roundHalfEven
  simp only [Nat.mul_div_cancel q h, Nat.mul_mod_left, Nat.mul_zero]
  rw [if_pos h]

theorem roundFloat64_exact (m e b : Nat) (hb : 0 < b) (hm : m < 2 ^ 53) :
    roundFloat64 (m * 2 ^ e * b) b = m * 2 ^ e := by
  unfold roundFloat64
  simp only [Nat.mul_div_cancel _ hb]
  by_cases h0 : m * 2 ^ e = 0
  · rw [if_pos h0, h0]
    simp [roundHalfEven, hb]
  · rw [if_neg h0]
    have hlt : m * 2 ^ e < 2 ^ (53 + e) := by
      rw [pow_add]
      exact Nat.mul_lt_mul_of_pos_right hm (Nat.pow_pos (by decide))
    have hl := log2Loop_lt (m * 2 ^ e) (m * 2 ^ e) (53 + e) h0 hlt
    have hE : floorLog2 (m * 2 ^ e) - 52 ≤ e := by
      unfold floorLog2
      omega
    generalize floorLog2 (m * 2 ^ e) - 52 = E at hE
    have h2 : 2 ^ e = 2 ^ (e - E) * 2 ^ E := by
      rw [← pow_add]
      congr 1
      omega
    have hnum : m * 2 ^ e * b = m * 2 ^ (e - E) * (b * 2 ^ E) := by
      rw [h2]; ring
    have hden : 0 < b * 2 ^ E := Nat.mul_pos hb (Nat.pow_pos (by decide))
    rw [hnum, roundHalfEven_mul _ _ hden, h2]
    ring

theorem div_eq_div_of_mul_eq (X Y c U : Nat) (hc : 0 < c) (hU : 0 < U) (h : X * c = Y * U) :
    X / U = Y / c := by
  rw [← Nat.mul_div_mul_right X U hc, h, Nat.mul_comm U c, Nat.mul_div_mul_right Y c hU]

set_option exponentiation.threshold 4096 in
theorem float64Delay_exact (a k m e : Nat) (h : a * 2 ^ 1074 = m * 2 ^ e * 10 ^ k)
    (hm : m * 10 ^ 9 < 2 ^ 53) (hr : a * 10 ^ 9 < 2 ^ 63 * 10 ^ k) :
    float64Delay a k = some ((a * 10 ^ 9 / 10 ^ k : Nat) : Int) := by
  have hk : 0 < 10 ^ k := Nat.pow_pos (by decide)
  have hm1 : m < 2 ^ 53 := by
    have : m ≤ m * 10 ^ 9 := Nat.le_mul_of_pos_right m (by decide)
    omega
  have hU := Nat.two_pow_pos 1074
  unfold float64Delay
  simp only []
  rw [h, roundFloat64_exact m e (10 ^ k) hk hm1]
  generalize hUdef : 2 ^ 1074 = U at h hU ⊢
  have hf : m * 2 ^ e < 2 ^ 63 * U := by
    apply Nat.lt_of_mul_lt_mul_right (a := 10 ^ k)
    rw [← h]
    have h1 : a ≤ a * 10 ^ 9 := Nat.le_mul_of_pos_right a (by decide)
    calc a * U ≤ a * 10 ^ 9 * U := Nat.mul_le_mul_right U h1
      _ < 2 ^ 63 * 10 ^ k * U := Nat.mul_lt_mul_of_pos_right hr hU
      _ = 2 ^ 63 * U * 10 ^ k := by ring
  have hbig : 2 ^ 2098 = 2 ^ 1024 * U := by
    rw [← hUdef, ← pow_add]
  have h63 : 2 ^ 63 * U ≤ 2 ^ 1024 * U :=
    Nat.mul_le_mul_right U (Nat.pow_le_pow_right (by decide) (by decide))
  have hno : ¬ 2 ^ 2098 ≤ m * 2 ^ e := by
    rw [hbig]
    omega
  rw [if_neg hno]
  have hp : m * 2 ^ e * 10 ^ 9 = m * 10 ^ 9 * 2 ^ e * 1 := by ring
  rw [hp, roundFloat64_exact (m * 10 ^ 9) e 1 (by decide) hm]
  have hprod : m * 10 ^ 9 * 2 ^ e * 10 ^ k = a * 10 ^ 9 * U := by
    calc m * 10 ^ 9 * 2 ^ e * 10 ^ k = m * 2 ^ e * 10 ^ k * 10 ^ 9 := by ring
      _ = a * U * 10 ^ 9 := by rw [← h]
      _ = a * 10 ^ 9 * U := by ring
  have hdiv := div_eq_div_of_mul_eq (m * 10 ^ 9 * 2 ^ e) (a * 10 ^ 9) (10 ^ k) U hk hU hprod
  rw [hdiv]
  have hn : a * 10 ^ 9 / 10 ^ k < 2 ^ 63 := (Nat.div_lt_iff_lt_mul hk).2 hr
  rw [if_pos hn]

theorem userAgentValue_eq_directive [CaseTables] (text : Str) :
    userAgentValue text =
      match directive text with
      | some (k, v) => if k = "user-agent".toList then some v else none
      | none => none := by
  unfold userAgentValue directive
  simp only []
  split
  · rfl
  · split <;> rfl

theorem parseLine_delay [CaseTables] (sd : Str → Int) (st : ParseState) (text : Str)
    (h : userAgentValue text = none) :
    (parseLine sd st text).currentRule.map RobotsRule.CrawlDelay =
      st.currentRule.map (fun r =>
        match crawlDelayValue text with
        | some v => sd v
        | none => r.CrawlDelay) := by
  have hd : "disallow".toList ≠ "crawl-delay".toList := by decide
  have ha : "allow".toList ≠ "crawl-delay".toList := by decide
  rw [userAgentValue_eq_directive] at h
  rw [parseLine_eq_applyDirective]
  unfold crawlDelayValue
  cases hdir : directive text with
  | none => cases hcur : st.currentRule <;> simp [applyDirective, hcur]
  | some kv =>
    obtain ⟨k, v⟩ := kv
    rw [hdir] at h
    have hk : ¬ k = "user-agent".toList := by
      intro e
      simp [e] at h
    simp only [applyDirective, hk, if_false]
    by_cases h1 : k = "disallow".toList
    · have h3 : ¬ k = "crawl-delay".toList := by rw [h1]; exact hd
      simp only [h1, if_true]
      cases hcur : st.currentRule with
      | none => simp [hcur]
      | some r =>
        by_cases hv : v = []
        · simp [hv, hcur, hd]
        · simp [hv, hcur, hd]
    · by_cases h2 : k = "allow".toList
      · simp only [h1, h2, if_true, if_false]
        cases hcur : st.currentRule with
        | none => simp [hcur]
        | some r =>
          by_cases hv : v = []
          · simp [hv, hcur, ha]
          · simp [hv, hcur, ha]
      · by_cases h3 : k = "crawl-delay".toList
        · simp only [h1, h2, h3, if_true, if_false]
          cases hcur : st.currentRule with
          | none => simp [hcur]
          | some r => simp [hcur]
        · simp only [h1, h2, h3, if_false]

theorem saveRule_delays (p : RobotsParser) (cur : Option RobotsRule) :
    (saveRule p cur).Rules.map RobotsRule.CrawlDelay =
      p.Rules.map RobotsRule.CrawlDelay ++ (cur.map RobotsRule.CrawlDelay).toList := by
  cases cur <;> simp [saveRule]

theorem delayAfter_nil [CaseTables] (sd : Str → Int) (d0 : Int) : delayAfter sd d0 [] = d0 := rfl

theorem delayAfter_cons_userAgent [CaseTables] (sd : Str → Int) (d0 : Int) (l : Str) (ls : List Str)
    (a : Str) (h : userAgentValue l = some a) : delayAfter sd d0 (l :: ls) = d0 := by
  unfold delayAfter
  rw [groupLines_cons_userAgent l ls a h]
  rfl

theorem delayAfter_cons_other [CaseTables] (sd : Str → Int) (d0 : Int) (l : Str) (ls : List Str)
    (h : userAgentValue l = none) :
    delayAfter sd d0 (l :: ls) =
      delayAfter sd (match crawlDelayValue l with
        | some v => sd v
        | none => d0) ls := by
  unfold delayAfter
  rw [groupLines_cons_other l ls h, List.filterMap_cons]
  cases hc : crawlDelayValue l with
  | none => rfl
  | some v =>
    simp only []
    cases hr : (groupLines ls).filterMap crawlDelayValue with
    | nil => rfl
    | cons x xs =>
      rw [List.getLast?_cons_cons]
      cases hl : (x :: xs).getLast? with
      | none => exact absurd (List.getLast?_eq_none_iff.1 hl) (by simp)
      | some y => rfl

theorem parseLines_delays [CaseTables] (sd : Str → Int) (lines : List Str) :
    ∀ st : ParseState,
      (saveRule (parseLines sd st lines).parser (parseLines sd st lines).currentRule).Rules.map
          RobotsRule.CrawlDelay =
        st.parser.Rules.map RobotsRule.CrawlDelay ++
          (st.currentRule.map (fun r => delayAfter sd r.CrawlDelay lines)).toList ++
          specDelays sd lines := by
  induction lines with
  | nil =>
    intro st
    simp only [parseLines, List.foldl_nil, specDelays, List.append_nil, saveRule_delays,
      delayAfter_nil]
  | cons l ls ih =>
    intro st
    have hstep : parseLines sd st (l :: ls) = parseLines sd (parseLine sd st l) ls := by
      simp [parseLines]
    rw [hstep, ih (parseLine sd st l)]
    cases hu : userAgentValue l with
    | some a =>
      rw [parseLine_userAgent sd st l a hu]
      simp only [saveRule_delays, specDelays, hu, Option.map_some', Option.toList,
        delayAfter_cons_userAgent sd _ l ls a hu]
      cases st.currentRule <;> simp
    | none =>
      have hp := (parseLine_other sd st l hu).1
      have hc := parseLine_delay sd st l hu
      rw [hp]
      simp only [specDelays, hu, delayAfter_cons_other sd _ l ls hu]
      cases hcur : st.currentRule with
      | none =>
        rw [hcur] at hc
        cases hnew : (parseLine sd st l).currentRule with
        | none => rfl
        | some r' => rw [hnew] at hc; simp at hc
      | some r =>
        rw [hcur] at hc
        cases hnew : (parseLine sd st l).currentRule with
        | none => rw [hnew] at hc; simp at hc
        | some r' =>
          rw [hnew] at hc
          simp only [Option.map_some', Option.some.injEq] at hc
          simp only [Option.map_some', hc]

theorem newRobotsParser_delays [CaseTables] (sd : Str → Int) (content : Str) :
    (NewRobotsParser sd content).Rules.map RobotsRule.CrawlDelay =
      specDelays sd (scanLines content) := by
  unfold NewRobotsParser
  simp only []
  rw [parseLines_delays]
  simp

set_option exponentiation.threshold 4096 in
set_option maxRecDepth 100000 in
/-- C23 (counterexample): the value `1.001` is the decimal number 1001 / 10^3, and
1.001 × 10^9 truncated is 1 001 000 000; the crawl delay that the code computes for
`Crawl-delay: 1.001` is 1 000 999 999 ns: the `float64` nearest to 1.001 is below 1.001 and
its product with 10^9 is rounded to a `float64` below 1 001 000 000. -/
theorem crawlDelay_rounding :
    decimalValue "1.001".toList = some (1001, 3) ∧
    (1001 * 10 ^ 9 / 10 ^ 3 : Nat) = 1001000000 ∧
    decimalDelay "1.001".toList = some 1000999999 ∧
    (NewRobotsParser (fun v => (decimalDelay v).getD 0)
        "User-agent: *\nCrawl-delay: 1.001".toList).Rules.map RobotsRule.CrawlDelay =
      [1000999999] := by
  refine ⟨by decide, by decide, by decide, by decide⟩

set_option exponentiation.threshold 4096 in
set_option maxRecDepth 100000 in
/-- C23 (amended): with `sd` the duration that lines 76-78 compute from the value of a
`Crawl-delay` line, the crawl delays of the rules returned by `NewRobotsParser` are, per
`User-agent` line that the scanner delivers, the duration of the value of the last
`Crawl-delay` line of the group, and zero for a group without such a line.  For a value that
is a non-negative decimal number `a / 10^k` the duration is computed in `float64`: when the
number is a `float64` `m * 2^e` whose product with 10^9 has at most 53 bits (`m * 10^9 < 2^53`)
and is below 2^63, the duration is `a * 10^9 / 10^k` exactly; this holds for every whole
number of seconds up to 9 007 199 and for 2.5, which gives 2 500 000 000 ns. -/
theorem crawlDelay_value [CaseTables] (sd : Str → Int) (content : Str) :
    (NewRobotsParser sd content).Rules.map RobotsRule.CrawlDelay =
      specDelays sd (scanLines content) ∧
    (∀ (v : Str) (a k m e : Nat), decimalValue v = some (a, k) →
      a * 2 ^ 1074 = m * 2 ^ e * 10 ^ k → m * 10 ^ 9 < 2 ^ 53 → a * 10 ^ 9 < 2 ^ 63 * 10 ^ k →
      decimalDelay v = some ((a * 10 ^ 9 / 10 ^ k : Nat) : Int)) ∧
    (∀ (v : Str) (s : Nat), decimalValue v = some (s, 0) → s ≤ 9007199 →
      decimalDelay v = some ((s * 10 ^ 9 : Nat) : Int)) ∧
    decimalDelay "2.5".toList = some 2500000000 := by
  refine ⟨newRobotsParser_delays sd content, ?_, ?_, by decide⟩
  · intro v a k m e hv h hm hr
    unfold decimalDelay
    rw [hv]
    exact float64Delay_exact a k m e h hm hr
  · intro v s hv hs
    unfold decimalDelay
    rw [hv]
    have h := float64Delay_exact s 0 s 1074 (by simp) (by omega) (by omega)
    simpa using h

set_option exponentiation.threshold 4096 in
set_option maxRecDepth 100000 in
/-- Witness of C23: a group with two `Crawl-delay` lines takes the last one, and a group
without one has delay zero. -/
theorem crawlDelay_value_witness :
    (NewRobotsParser (fun v => (decimalDelay v).getD 0)
        "User-agent: a\nCrawl-delay: 1\nCrawl-delay: 2.5\nUser-agent: b\nDisallow: /x".toList).Rules.map
        RobotsRule.CrawlDelay = [2500000000, 0] :=
  (crawlDelay_value (fun v => (decimalDelay v).getD 0)
    "User-agent: a\nCrawl-delay: 1\nCrawl-delay: 2.5\nUser-agent: b\nDisallow: /x".toList).1.trans
    (by decide)

end Robots

namespace Crawler

open Go Robots

/-! ## Properties of the crawl controller -/

theorem run_invariant [CaseTables] (W : World) (d : Downloader) (P : State → Prop)
    (hstep : ∀ s t s', P s → next W d s t = some s' → P s') :
    ∀ (sched : List Thread) (s s' : State), P s → run W d s sched = some s' → P s' := by
  intro sched
  induction sched with
  | nil =>
    intro s s' hs h
    simp only [run, Option.some.injEq] at h
    exact h ▸ hs
  | cons t ts ih =>
    intro s s' hs h
    simp only [run] at h
    cases hn : next W d s t with
    | none => rw [hn] at h; exact absurd h (by simp)
    | some s1 =>
      rw [hn] at h
      exact ih s1 s' (hstep s t s1 hs hn) h

theorem reachable_invariant [CaseTables]
    (W : World) (d : Downloader) (P : State → Prop) (h0 : P init)
    (hstep : ∀ s t s', P s → next W d s t = some s' → P s') :
    ∀ s, Reachable W d s → P s := by
  intro s hs
  obtain ⟨sched, h⟩ := hs
  exact run_invariant W d P hstep sched init s h0 h

theorem next_log [CaseTables] (W : World) (d : Downloader) (s s' : State) (t : Thread)
    (h : next W d s t = some s') :
    s'.log = s.log ∨ ∃ u dp, s'.log = s.log ++ (processURL W d u dp).events := by
  cases t with
  | main =>
    simp only [next, stepMain] at h
    split at h
    · split at h <;> (simp only [Option.some.injEq] at h; subst h; exact Or.inl rfl)
    · split at h <;> (simp only [Option.some.injEq] at h; subst h; exact Or.inl rfl)
    · split at h
      · simp only [Option.some.injEq] at h; subst h; exact Or.inl rfl
      · exact absurd h (by simp)
    · split at h
      · simp only [Option.some.injEq] at h; subst h; exact Or.inl rfl
      · exact absurd h (by simp)
    · exact absurd h (by simp)
    · exact absurd h (by simp)
  | branch i =>
    simp only [next, stepBranch] at h
    split at h
    · exact absurd h (by simp)
    · rename_i b hb
      split at h
      · simp only [Option.some.injEq] at h; subst h; exact Or.inr ⟨_, _, rfl⟩
      · simp only [Option.some.injEq] at h; subst h; exact Or.inl rfl
      · split at h <;> (simp only [Option.some.injEq] at h; subst h; exact Or.inl rfl)
      · split at h
        · simp only [Option.some.injEq] at h; subst h; exact Or.inl rfl
        · exact absurd h (by simp)
      · simp only [Option.some.injEq] at h; subst h; exact Or.inl rfl
      · exact absurd h (by simp)

theorem disallowAll_parse [CaseTables] (sd : Str → Int) :
    NewRobotsParser sd "User-agent: *\nDisallow: /".toList =
      { Rules := [{ UserAgent := ['*'], Disallow := [['/']], Allow := [], CrawlDelay := 0 }]
        DefaultRule := some { UserAgent := ['*'], Disallow := [['/']], Allow := [], CrawlDelay := 0 } } := by
  rfl

theorem disallowAll_isAllowed [CaseTables] (sd : Str → Int) (urlPath userAgent : Str) :
    IsAllowed (NewRobotsParser sd "User-agent: *\nDisallow: /".toList) urlPath userAgent = false := by
  rw [disallowAll_parse]
  simp only [IsAllowed, selectedRule, findRule]
  split_ifs <;> simp [checkRule, allowLoop, disallowLoop]

theorem processURL_blocked [CaseTables] (W : World) (d : Downloader) (urlStr : Str) (depth : Int)
    (h : ∀ urlPath, isAllowedByRobots d urlPath = false) :
    processURL W d urlStr depth = { events := [], err := true, calls := [] } ∨
    processURL W d urlStr depth = { events := [], err := false, calls := [] } := by
  unfold processURL
  split
  · exact Or.inl rfl
  · split
    · exact Or.inr rfl
    · simp [h]

/-- C4: with `RespectRobotsTxt` set and the robots text `User-agent: *` / `Disallow: /` loaded,
`isAllowedByRobots` is false for every path and every configured user agent, every call of
`processURL` returns without any action (no GET, no call of `downloadURL`), and in every state
of the crawl the log of actions is empty: no page is fetched. -/
theorem disallowAll_no_fetch [CaseTables] (sd : Str → Int) (W : World) (d : Downloader)
    (hr : d.config.RespectRobotsTxt = true)
    (hp : d.robotsParser = some (NewRobotsParser sd "User-agent: *\nDisallow: /".toList)) :
    (∀ urlPath, isAllowedByRobots d urlPath = false) ∧
    (∀ urlStr depth, (processURL W d urlStr depth).events = [] ∧
        (processURL W d urlStr depth).calls = []) ∧
    (∀ s, Reachable W d s → s.log = []) := by
  have h1 : ∀ urlPath, isAllowedByRobots d urlPath = false := by
    intro urlPath
    simp only [isAllowedByRobots, hr, hp]
    exact disallowAll_isAllowed sd urlPath _
  have h2 : ∀ urlStr depth, (processURL W d urlStr depth).events = [] ∧
      (processURL W d urlStr depth).calls = [] := by
    intro urlStr depth
    rcases processURL_blocked W d urlStr depth h1 with e | e <;> rw [e] <;> exact ⟨rfl, rfl⟩
  refine ⟨h1, h2, ?_⟩
  apply reachable_invariant W d (fun s => s.log = []) rfl
  intro s t s' hs hn
  rcases next_log W d s s' t hn with e | ⟨u, dp, e⟩
  · rw [e]; exact hs
  · rw [e, hs, (h2 u dp).1]; rfl

/-- Witness of C4: the downloader of the example site with the robots text loaded; the paths
are the empty path and `/`, the state is the one after the seed branch has run `processURL`. -/
theorem disallowAll_no_fetch_witness :
    isAllowedByRobots (Example.siteDownloader (Example.exampleURL "/".toList []) 2 5
        (some (NewRobotsParser (fun _ => 0) "User-agent: *\nDisallow: /".toList))) [] = false ∧
    isAllowedByRobots (Example.siteDownloader (Example.exampleURL "/".toList []) 2 5
        (some (NewRobotsParser (fun _ => 0) "User-agent: *\nDisallow: /".toList))) "/".toList = false ∧
    (∀ s, run Example.site (Example.siteDownloader (Example.exampleURL "/".toList []) 2 5
        (some (NewRobotsParser (fun _ => 0) "User-agent: *\nDisallow: /".toList))) init
        [Thread.main, Thread.main, Thread.main, Thread.branch 0] = some s → s.log = []) :=
  have h := disallowAll_no_fetch (fun _ => 0) Example.site
    (Example.siteDownloader (Example.exampleURL "/".toList []) 2 5
      (some (NewRobotsParser (fun _ => 0) "User-agent: *\nDisallow: /".toList))) rfl rfl
  ⟨h.1 [], h.1 "/".toList, fun s hs => h.2.2 s ⟨_, hs⟩⟩

theorem forall_mem_set {α : Type} {P : α → Prop} (l : List α) (i : Nat) (x : α)
    (hl : ∀ b ∈ l, P b) (hx : P x) : ∀ b ∈ l.set i x, P b := by
  intro b hb
  rcases List.mem_or_eq_of_mem_set hb with h | h
  · exact hl b h
  · exact h ▸ hx

theorem forall_mem_snoc {α : Type} {P : α → Prop} (l : List α) (x : α)
    (hl : ∀ b ∈ l, P b) (hx : P x) : ∀ b ∈ l ++ [x], P b := by
  intro b hb
  rcases List.mem_append.1 hb with h | h
  · exact hl b h
  · rw [List.mem_singleton.1 h]; exact hx

theorem claim_true (d : Downloader) (V : List Str) (u : Str) (dp : Int)
    (h : (downloadURL d V u dp).1 = true) :
    dp ≤ d.config.MaxDepth ∧ u ∉ V ∧ (downloadURL d V u dp).2 = u :: V := by
  unfold downloadURL at h ⊢
  by_cases h1 : dp > d.config.MaxDepth
  · simp [h1] at h
  · by_cases h2 : u ∈ V
    · simp [h1, h2] at h
    · simp only [h1, h2, if_false]
      exact ⟨not_lt.1 h1, not_false, trivial⟩

theorem claim_false (d : Downloader) (V : List Str) (u : Str) (dp : Int)
    (h : ¬ (downloadURL d V u dp).1 = true) :
    (dp > d.config.MaxDepth ∨ u ∈ V) ∧ (downloadURL d V u dp).2 = V := by
  unfold downloadURL at h ⊢
  by_cases h1 : dp > d.config.MaxDepth
  · simp [h1]
  · by_cases h2 : u ∈ V
    · simp [h1, h2]
    · simp [h1, h2] at h

theorem processURL_calls_depth [CaseTables]
    (W : World) (d : Downloader) (urlStr : Str) (depth : Int) :
    ∀ c ∈ (processURL W d urlStr depth).calls, c.2 = depth + 1 := by
  have h : (processURL W d urlStr depth).calls = [] ∨
      ∃ links : List Str, (processURL W d urlStr depth).calls = links.map (fun l => (l, depth + 1)) := by
    unfold processURL
    simp only []
    repeat' split
    all_goals first
      | exact Or.inl rfl
      | exact Or.inr ⟨_, rfl⟩
  intro c hc
  rcases h with e | ⟨links, e⟩
  · rw [e] at hc; exact absurd hc (List.not_mem_nil c)
  · rw [e, List.mem_map] at hc
    obtain ⟨l, _, rfl⟩ := hc
    rfl

theorem depthInv_step [CaseTables] (W : World) (d : Downloader) (s s' : State) (t : Thread)
    (hs : DepthInv W d s) (h : next W d s t = some s') : DepthInv W d s' := by
  obtain ⟨hm, hb⟩ := hs
  cases t with
  | main =>
    simp only [next, stepMain] at h
    split at h
    · split at h <;> (simp only [Option.some.injEq] at h; subst h; exact ⟨fun hx => by simp at hx, hb⟩)
    · split at h
      · rename_i hc
        simp only [Option.some.injEq] at h; subst h
        exact ⟨fun _ => (claim_true d _ _ _ hc).1, hb⟩
      · simp only [Option.some.injEq] at h; subst h
        exact ⟨fun hx => by simp at hx, hb⟩
    · rename_i hacq
      split at h
      · simp only [Option.some.injEq] at h; subst h
        refine ⟨fun hx => by simp at hx, ?_⟩
        exact forall_mem_snoc _ _ hb ⟨le_refl 0, hm hacq, fun _ => rfl, trivial⟩
      · exact absurd h (by simp)
    · split at h
      · simp only [Option.some.injEq] at h; subst h
        exact ⟨fun hx => by simp at hx, hb⟩
      · exact absurd h (by simp)
    · exact absurd h (by simp)
    · exact absurd h (by simp)
  | branch i =>
    simp only [next, stepBranch] at h
    split at h
    · exact absurd h (by simp)
    · rename_i b hget
      have hmem : b ∈ s.branches := List.get?_mem hget
      obtain ⟨b0, b1, b2, b3⟩ := hb b hmem
      split at h
      · simp only [Option.some.injEq] at h; subst h
        exact ⟨hm, forall_mem_set _ _ _ hb ⟨b0, b1, b2, processURL_calls_depth W d _ _⟩⟩
      · simp only [Option.some.injEq] at h; subst h
        exact ⟨hm, forall_mem_set _ _ _ hb ⟨b0, b1, b2, trivial⟩⟩
      · rename_i u dp rest hph
        rw [hph] at b3
        have hu : dp = b.depth + 1 := b3 (u, dp) (by simp)
        have hrest : ∀ c ∈ rest, c.2 = b.depth + 1 := fun c hc => b3 c (by simp [hc])
        split at h
        · rename_i hc
          simp only [Option.some.injEq] at h; subst h
          exact ⟨hm, forall_mem_set _ _ _ hb ⟨b0, b1, b2, hu, (claim_true d _ _ _ hc).1, hrest⟩⟩
        · simp only [Option.some.injEq] at h; subst h
          exact ⟨hm, forall_mem_set _ _ _ hb ⟨b0, b1, b2, hrest⟩⟩
      · rename_i u dp rest hph
        rw [hph] at b3
        obtain ⟨hu, hle, hrest⟩ := b3
        split at h
        · simp only [Option.some.injEq] at h; subst h
          refine ⟨hm, forall_mem_snoc _ _ (forall_mem_set _ _ _ hb ⟨b0, b1, b2, hrest⟩) ?_⟩
          refine ⟨by simp only; omega, hle, fun h0 => ?_, trivial⟩
          simp only at h0; omega
        · exact absurd h (by simp)
      · simp only [Option.some.injEq] at h; subst h
        exact ⟨hm, forall_mem_set _ _ _ hb ⟨b0, b1, b2, trivial⟩⟩
      · exact absurd h (by simp)

theorem depthInv_reachable [CaseTables]
    (W : World) (d : Downloader) (s : State) (h : Reachable W d s) :
    DepthInv W d s := by
  apply reachable_invariant W d (DepthInv W d) _ (fun s t s' => depthInv_step W d s s' t) s h
  exact ⟨fun hx => by simp [init] at hx, fun b hb => by simp [init] at hb⟩

/-- C7: the depth bound.  In every state of a crawl each launched branch (each call of
`processURL`) has a depth of at most `MaxDepth`; a `downloadURL` call with a depth above
`MaxDepth` launches nothing and leaves the visited set unchanged; the caller of `Download`
launches the seed at depth 0, every `downloadURL` call of `processURL` is at its own depth plus
one, and a branch launched by a branch has the depth of the launching branch plus one; with
`MaxDepth = 0` every launched branch is the branch of the seed at depth 0.  When the output
directory can be created, `MaxDepth` is not negative and there is a permit, the seed is
processed at depth 0. -/
theorem depth_bound [CaseTables] (W : World) (d : Downloader) :
    (∀ s, Reachable W d s → ∀ b ∈ s.branches, b.depth ≤ d.config.MaxDepth) ∧
    (∀ V u depth, depth > d.config.MaxDepth → downloadURL d V u depth = (false, V)) ∧
    (∀ s s', Reachable W d s → stepMain W d s = some s' →
        s'.branches = s.branches ∨
        s'.branches = s.branches ++ [{ url := W.URLString d.baseURL, depth := 0, phase := Phase.ready }]) ∧
    (∀ urlStr depth, ∀ c ∈ (processURL W d urlStr depth).calls, c.2 = depth + 1) ∧
    (∀ s s' i b, Reachable W d s → s.branches.get? i = some b → stepBranch W d s i = some s' →
        s'.branches.length = s.branches.length ∨
        ∃ u, s'.branches.getLast? = some { url := u, depth := b.depth + 1, phase := Phase.ready }) ∧
    (d.config.MaxDepth = 0 → ∀ s, Reachable W d s →
        ∀ b ∈ s.branches, b.url = W.URLString d.baseURL ∧ b.depth = 0) ∧
    (W.MkdirAll d.config.OutputDir = true → 0 ≤ d.config.MaxDepth → 1 ≤ d.config.MaxConcurrent →
        (run W d init [Thread.main, Thread.main, Thread.main, Thread.branch 0]).map
            (fun s => s.branches)
          = some [{ url := W.URLString d.baseURL, depth := 0,
                    phase := Phase.loop (processURL W d (W.URLString d.baseURL) 0).calls }]) := by
  refine ⟨?_, ?_, ?_, processURL_calls_depth W d, ?_, ?_, ?_⟩
  · intro s hs b hb
    exact ((depthInv_reachable W d s hs).2 b hb).2.1
  · intro V u depth h
    simp [downloadURL, h]
  · intro s s' _ h
    simp only [stepMain] at h
    split at h
    · split at h <;> (simp only [Option.some.injEq] at h; subst h; exact Or.inl rfl)
    · split at h <;> (simp only [Option.some.injEq] at h; subst h; exact Or.inl rfl)
    · split at h
      · simp only [Option.some.injEq] at h; subst h; exact Or.inr rfl
      · exact absurd h (by simp)
    · split at h
      · simp only [Option.some.injEq] at h; subst h; exact Or.inl rfl
      · exact absurd h (by simp)
    · exact absurd h (by simp)
    · exact absurd h (by simp)
  · intro s s' i b hs hget h
    have hinv := ((depthInv_reachable W d s hs).2 b (List.get?_mem hget)).2.2.2
    simp only [stepBranch, hget] at h
    split at h
    · simp only [Option.some.injEq] at h; subst h; exact Or.inl (by simp)
    · simp only [Option.some.injEq] at h; subst h; exact Or.inl (by simp)
    · split at h <;> (simp only [Option.some.injEq] at h; subst h; exact Or.inl (by simp))
    · rename_i u dp rest hph
      rw [hph] at hinv
      split at h
      · simp only [Option.some.injEq] at h; subst h
        exact Or.inr ⟨u, by simp [hinv.1]⟩
      · exact absurd h (by simp)
    · simp only [Option.some.injEq] at h; subst h; exact Or.inl (by simp)
    · exact absurd h (by simp)
  · intro h0 s hs b hb
    obtain ⟨b0, b1, b2, _⟩ := (depthInv_reachable W d s hs).2 b hb
    have hz : b.depth = 0 := by omega
    exact ⟨b2 hz, hz⟩
  · intro hmk h0 h1
    have hnd : ¬ (0 : Int) > d.config.MaxDepth := not_lt.2 h0
    have hpos : (0 : Int) < d.config.MaxConcurrent := by omega
    simp [run, next, stepMain, stepBranch, downloadURL, init, canSend, hnd, hpos, hmk]

/-- Witness of C7: the example site crawled with `MaxDepth = 0`: after the seed page `/` has
been processed and its link to `/a` submitted, the only branch is the seed at depth 0, and the
submission of `/a` at depth 1 left the visited set unchanged. -/
theorem depth_bound_witness :
    (∀ s, run Example.site (Example.siteDownloader (Example.exampleURL "/".toList []) 0 1 none)
        init [Thread.main, Thread.main, Thread.main, Thread.branch 0, Thread.branch 0] = some s →
      ∀ b ∈ s.branches, b.url = "http://example.com/".toList ∧ b.depth = 0) ∧
    downloadURL (Example.siteDownloader (Example.exampleURL "/".toList []) 0 1 none)
        ["http://example.com/".toList] "http://example.com/a".toList 1
      = (false, ["http://example.com/".toList]) ∧
    (run Example.site (Example.siteDownloader (Example.exampleURL "/".toList []) 0 1 none)
        init [Thread.main, Thread.main, Thread.main, Thread.branch 0, Thread.branch 0]).map
        (fun s => (s.visited, s.branches.map (fun b => (b.url, b.depth, b.phase))))
      = some (["http://example.com/".toList],
              [("http://example.com/".toList, 0, Phase.loop [])]) :=
  ⟨fun s hs => (depth_bound Example.site
      (Example.siteDownloader (Example.exampleURL "/".toList []) 0 1 none)).2.2.2.2.2.1 rfl s ⟨_, hs⟩,
   (depth_bound Example.site
      (Example.siteDownloader (Example.exampleURL "/".toList []) 0 1 none)).2.1 _ _ 1 (by decide),
   by decide⟩

theorem claim_visited_mem (d : Downloader) (V : List Str) (u : Str) (dp : Int) :
    ∀ x ∈ V, x ∈ (downloadURL d V u dp).2 := by
  intro x hx
  unfold downloadURL
  split_ifs
  · exact hx
  · exact hx
  · exact List.mem_cons_of_mem u hx

theorem next_visited_mem [CaseTables] (W : World) (d : Downloader) (s s' : State) (t : Thread)
    (h : next W d s t = some s') : ∀ x ∈ s.visited, x ∈ s'.visited := by
  cases t with
  | main =>
    simp only [next, stepMain] at h
    split at h
    · split at h <;> (simp only [Option.some.injEq] at h; subst h; exact fun x hx => hx)
    · split at h <;>
        (simp only [Option.some.injEq] at h; subst h; exact claim_visited_mem d _ _ _)
    · split at h
      · simp only [Option.some.injEq] at h; subst h; exact fun x hx => hx
      · exact absurd h (by simp)
    · split at h
      · simp only [Option.some.injEq] at h; subst h; exact fun x hx => hx
      · exact absurd h (by simp)
    · exact absurd h (by simp)
    · exact absurd h (by simp)
  | branch i =>
    simp only [next, stepBranch] at h
    split at h
    · exact absurd h (by simp)
    · split at h
      · simp only [Option.some.injEq] at h; subst h; exact fun x hx => hx
      · simp only [Option.some.injEq] at h; subst h; exact fun x hx => hx
      · split at h <;>
          (simp only [Option.some.injEq] at h; subst h; exact claim_visited_mem d _ _ _)
      · split at h
        · simp only [Option.some.injEq] at h; subst h; exact fun x hx => hx
        · exact absurd h (by simp)
      · simp only [Option.some.injEq] at h; subst h; exact fun x hx => hx
      · exact absurd h (by simp)

theorem claimAll_spec (d : Downloader) (calls : List (Str × Int)) :
    ∀ V : List Str, (claimAll d V calls).1.Nodup ∧
      (∀ x ∈ (claimAll d V calls).1, x ∉ V) ∧ (∀ x ∈ V, x ∈ (claimAll d V calls).2) := by
  induction calls with
  | nil => intro V; simp [claimAll]
  | cons c rest ih =>
    intro V
    obtain ⟨u, dp⟩ := c
    obtain ⟨ih1, ih2, ih3⟩ := ih (downloadURL d V u dp).2
    simp only [claimAll]
    by_cases hc : (downloadURL d V u dp).1 = true
    · obtain ⟨_, hu, hv⟩ := claim_true d V u dp hc
      simp only [hc, if_true]
      refine ⟨List.nodup_cons.2 ⟨fun hmem => ih2 u hmem (by rw [hv]; simp), ih1⟩, ?_, ?_⟩
      · intro x hx hxV
        rcases List.mem_cons.1 hx with e | e
        · exact hu (e ▸ hxV)
        · exact ih2 x e (claim_visited_mem d V u dp x hxV)
      · exact fun x hx => ih3 x (claim_visited_mem d V u dp x hx)
    · obtain ⟨_, hv⟩ := claim_false d V u dp hc
      simp only [hc]
      refine ⟨ih1, ?_, ?_⟩
      · intro x hx hxV
        exact ih2 x hx (claim_visited_mem d V u dp x hxV)
      · exact fun x hx => ih3 x (claim_visited_mem d V u dp x hx)

theorem get?_split {α : Type} : ∀ (l : List α) (i : Nat) (b : α), l.get? i = some b →
    ∃ l1 l2, l = l1 ++ b :: l2 ∧ ∀ x, l.set i x = l1 ++ x :: l2 := by
  intro l
  induction l with
  | nil => intro i b h; simp at h
  | cons a as ih =>
    intro i b h
    cases i with
    | zero =>
      simp only [List.get?_cons_zero, Option.some.injEq] at h
      exact ⟨[], as, by simp [h], fun x => by simp⟩
    | succ j =>
      simp only [List.get?_cons_succ] at h
      obtain ⟨l1, l2, e, hset⟩ := ih j b h
      exact ⟨a :: l1, l2, by simp [e], fun x => by simp [hset x]⟩

theorem claimed_set_same (W : World) (d : Downloader) (s : State) (i : Nat) (b b' : Branch)
    (vis : List Str) (sem : Nat) (wg : Int) (log : List Event)
    (hget : s.branches.get? i = some b) (hc : claimedBy b' = claimedBy b) :
    claimed W d { visited := vis, semaphore := sem, wg := wg, main := s.main,
                  branches := s.branches.set i b', log := log } = claimed W d s := by
  obtain ⟨l1, l2, e, hset⟩ := get?_split s.branches i b hget
  simp only [claimed, hset b']
  rw [e]
  simp [List.flatMap_append, List.flatMap_cons, hc]

/-- The effect of a step on the claimed URLs: they stay the same up to order, or one URL that
was not in the visited set is claimed and added to the visited set. -/
theorem next_claimed [CaseTables] (W : World) (d : Downloader) (s s' : State) (t : Thread)
    (h : next W d s t = some s') :
    ((claimed W d s').Perm (claimed W d s) ∧ s'.visited = s.visited) ∨
    ∃ u, u ∉ s.visited ∧ s'.visited = u :: s.visited ∧
      (claimed W d s').Perm (u :: claimed W d s) := by
  cases t with
  | main =>
    simp only [next, stepMain] at h
    split at h
    · rename_i hmain
      split at h <;> (simp only [Option.some.injEq] at h; subst h; exact Or.inl ⟨by simp [claimed, hmain], rfl⟩)
    · rename_i hmain
      split at h
      · rename_i hc
        obtain ⟨_, hu, hv⟩ := claim_true d _ _ _ hc
        simp only [Option.some.injEq] at h; subst h
        refine Or.inr ⟨_, hu, hv, ?_⟩
        simp [claimed, hmain]
      · rename_i hc
        obtain ⟨_, hv⟩ := claim_false d _ _ _ hc
        simp only [Option.some.injEq] at h; subst h
        refine Or.inl ⟨?_, hv⟩
        simp [claimed, hmain]
    · rename_i hmain
      split at h
      · simp only [Option.some.injEq] at h; subst h
        refine Or.inl ⟨?_, rfl⟩
        simp only [claimed, hmain, List.flatMap_append]
        apply List.perm_iff_count.2
        intro a
        simp [claimedBy, List.count_cons]
      · exact absurd h (by simp)
    · rename_i hmain
      split at h
      · simp only [Option.some.injEq] at h; subst h
        refine Or.inl ⟨?_, rfl⟩
        simp [claimed, hmain]
      · exact absurd h (by simp)
    · exact absurd h (by simp)
    · exact absurd h (by simp)
  | branch i =>
    simp only [next, stepBranch] at h
    split at h
    · exact absurd h (by simp)
    · rename_i b hget
      split at h
      · rename_i hph
        simp only [Option.some.injEq] at h; subst h
        exact Or.inl ⟨by rw [claimed_set_same W d s i b _ _ _ _ _ hget (by simp [claimedBy, hph])], rfl⟩
      · rename_i hph
        simp only [Option.some.injEq] at h; subst h
        exact Or.inl ⟨by rw [claimed_set_same W d s i b _ _ _ _ _ hget (by simp [claimedBy, hph])], rfl⟩
      · rename_i u dp rest hph
        split at h
        · rename_i hc
          obtain ⟨_, hu, hv⟩ := claim_true d _ _ _ hc
          simp only [Option.some.injEq] at h; subst h
          refine Or.inr ⟨u, hu, hv, ?_⟩
          obtain ⟨l1, l2, e, hset⟩ := get?_split s.branches i b hget
          simp only [claimed, hset]
          rw [e]
          apply List.perm_iff_count.2
          intro a
          simp [List.flatMap_append, List.flatMap_cons, claimedBy, hph, List.count_cons]
          omega
        · rename_i hc
          obtain ⟨_, hv⟩ := claim_false d _ _ _ hc
          simp only [Option.some.injEq] at h; subst h
          exact Or.inl ⟨by rw [claimed_set_same W d s i b _ _ _ _ _ hget (by simp [claimedBy, hph])], hv⟩
      · rename_i u dp rest hph
        split at h
        · simp only [Option.some.injEq] at h; subst h
          refine Or.inl ⟨?_, rfl⟩
          obtain ⟨l1, l2, e, hset⟩ := get?_split s.branches i b hget
          simp only [claimed, hset]
          rw [e]
          apply List.perm_iff_count.2
          intro a
          simp [List.flatMap_append, List.flatMap_cons, claimedBy, hph, List.count_cons]
        · exact absurd h (by simp)
      · rename_i hph
        simp only [Option.some.injEq] at h; subst h
        exact Or.inl ⟨by rw [claimed_set_same W d s i b _ _ _ _ _ hget (by simp [claimedBy, hph])], rfl⟩
      · exact absurd h (by simp)

theorem claimed_reachable [CaseTables]
    (W : World) (d : Downloader) (s : State) (h : Reachable W d s) :
    (claimed W d s).Nodup ∧ ∀ x ∈ claimed W d s, x ∈ s.visited := by
  apply reachable_invariant W d
    (fun s => (claimed W d s).Nodup ∧ ∀ x ∈ claimed W d s, x ∈ s.visited) _ _ s h
  · simp [claimed, init]
  · intro s t s' hs hn
    obtain ⟨hnd, hsub⟩ := hs
    rcases next_claimed W d s s' t hn with ⟨hp, hv⟩ | ⟨u, hu, hv, hp⟩
    · refine ⟨hp.nodup_iff.2 hnd, fun x hx => ?_⟩
      rw [hv]
      exact hsub x (hp.mem_iff.1 hx)
    · refine ⟨hp.nodup_iff.2 (List.nodup_cons.2 ⟨fun hmem => hu (hsub u hmem), hnd⟩), fun x hx => ?_⟩
      rw [hv]
      rcases List.mem_cons.1 (hp.mem_iff.1 hx) with e | e
      · rw [e]; exact List.mem_cons_self _ _
      · exact List.mem_cons_of_mem _ (hsub x e)

theorem branch_urls_sublist (l : List Branch) :
    (l.map Branch.url).Sublist (l.flatMap claimedBy) := by
  induction l with
  | nil => simp
  | cons b bs ih =>
    simp only [List.map_cons, List.flatMap_cons]
    unfold claimedBy
    split
    · exact List.Sublist.cons₂ _ (List.Sublist.cons _ ih)
    · exact List.Sublist.cons₂ _ ih

theorem launched_nodup [CaseTables] (W : World) (d : Downloader) (s : State) (h : Reachable W d s) :
    (s.branches.map Branch.url).Nodup ∧ ∀ b ∈ s.branches, b.url ∈ s.visited := by
  obtain ⟨hnd, hsub⟩ := claimed_reachable W d s h
  have hsl : (s.branches.map Branch.url).Sublist (claimed W d s) :=
    (branch_urls_sublist s.branches).trans (List.sublist_append_right _ _)
  refine ⟨hnd.sublist hsl, fun b hb => hsub _ (hsl.subset ?_)⟩
  exact List.mem_map.2 ⟨b, hb, rfl⟩

/-- Test-and-insert of `downloadURL`.  For every visited set `V`, URL `u` and depth within
`MaxDepth`, the call passes the test of the visited set exactly when `u` is not in `V`, and
afterwards the visited set is `V` with `u` added; when `u` is in `V` the call returns with `V`
unchanged.  In the controller, a branch at such a call moves to the semaphore with `u` claimed
when `u` is not visited and skips the call otherwise, and the call at the semaphore launches
the branch of `u` when a permit is free.  No step of the crawl removes an element of the
visited set; over any sequence of calls the URLs that pass the test are pairwise different,
and in every reachable state the launched branches have pairwise different URLs, all
visited. -/
theorem claim_exactly_once [CaseTables] (d : Downloader) (V : List Str) (u : Str) (depth : Int)
    (hd : depth ≤ d.config.MaxDepth) :
    ((downloadURL d V u depth).1 = true ↔ u ∉ V) ∧
    (∀ x, x ∈ (downloadURL d V u depth).2 ↔ x = u ∨ x ∈ V) ∧
    (u ∉ V → (downloadURL d V u depth).2 = u :: V) ∧
    (u ∈ V → downloadURL d V u depth = (false, V)) ∧
    (∀ (W : World) (s : State) (i : Nat) (b : Branch) (rest : List (Str × Int)),
        s.visited = V → s.branches.get? i = some b → b.phase = Phase.loop ((u, depth) :: rest) →
        (u ∉ V → stepBranch W d s i = some { s with
            visited := u :: V, wg := s.wg + 1
            branches := s.branches.set i { b with phase := Phase.acquire u depth rest } }) ∧
        (u ∈ V → stepBranch W d s i = some { s with
            branches := s.branches.set i { b with phase := Phase.loop rest } })) ∧
    (∀ (W : World) (s : State) (i : Nat) (b : Branch) (rest : List (Str × Int)),
        s.branches.get? i = some b → b.phase = Phase.acquire u depth rest → canSend d s = true →
        stepBranch W d s i = some { s with
            semaphore := s.semaphore + 1
            branches := s.branches.set i { b with phase := Phase.loop rest } ++
              [{ url := u, depth := depth, phase := Phase.ready }] }) ∧
    (∀ (W : World) (s s' : State) (t : Thread), next W d s t = some s' →
        ∀ x ∈ s.visited, x ∈ s'.visited) ∧
    (∀ (V0 : List Str) (calls : List (Str × Int)),
        (claimAll d V0 calls).1.Nodup ∧ (∀ x ∈ (claimAll d V0 calls).1, x ∉ V0) ∧
        (∀ x ∈ V0, x ∈ (claimAll d V0 calls).2)) ∧
    (∀ (W : World) (s : State), Reachable W d s →
        (s.branches.map Branch.url).Nodup ∧ ∀ b ∈ s.branches, b.url ∈ s.visited) := by
  have hnd : ¬ depth > d.config.MaxDepth := not_lt.2 hd
  refine ⟨?_, ?_, ?_, ?_, ?_, ?_, fun W s s' t h => next_visited_mem W d s s' t h,
    fun V0 calls => claimAll_spec d calls V0, fun W s h => launched_nodup W d s h⟩
  · by_cases hu : u ∈ V <;> simp [downloadURL, hnd, hu]
  · intro x
    by_cases hu : u ∈ V
    · simp only [downloadURL, hnd, hu, if_true, if_false]
      exact ⟨fun h => Or.inr h, fun h => h.elim (fun e => e ▸ hu) id⟩
    · simp [downloadURL, hnd, hu]
  · intro hu
    simp [downloadURL, hnd, hu]
  · intro hu
    simp [downloadURL, hnd, hu]
  · intro W s i b rest hV hget hph
    subst hV
    constructor
    · intro hu
      simp only [stepBranch, hget, hph]
      simp [downloadURL, hnd, hu]
    · intro hu
      simp only [stepBranch, hget, hph]
      simp [downloadURL, hnd, hu]
  · intro W s i b rest hget hph hsend
    simp only [stepBranch, hget, hph]
    simp [hsend]

/-- In the example crawl with `MaxDepth = 1`, the URL `/a` is submitted at depth 1 when only
the seed is visited: it is claimed; submitted again, it is not. -/
theorem claim_exactly_once_witness :
    downloadURL (Example.siteDownloader (Example.exampleURL "/".toList []) 1 5 none)
        ["http://example.com/".toList] "http://example.com/a".toList 1
      = (true, ["http://example.com/a".toList, "http://example.com/".toList]) ∧
    downloadURL (Example.siteDownloader (Example.exampleURL "/".toList []) 1 5 none)
        ["http://example.com/a".toList, "http://example.com/".toList] "http://example.com/a".toList 1
      = (false, ["http://example.com/a".toList, "http://example.com/".toList]) ∧
    ((downloadURL (Example.siteDownloader (Example.exampleURL "/".toList []) 1 5 none)
        ["http://example.com/".toList] "http://example.com/a".toList 1).1 = true ↔
      "http://example.com/a".toList ∉ ["http://example.com/".toList]) :=
  ⟨by decide,
   (claim_exactly_once (Example.siteDownloader (Example.exampleURL "/".toList []) 1 5 none)
      ["http://example.com/a".toList, "http://example.com/".toList] "http://example.com/a".toList 1
      (by decide)).2.2.2.1 (by decide),
   (claim_exactly_once (Example.siteDownloader (Example.exampleURL "/".toList []) 1 5 none)
      ["http://example.com/".toList] "http://example.com/a".toList 1 (by decide)).1⟩

/-- C9 (the code at the failing input): the example site crawled from the seed
`http://example.com/a#top` with two permits.  The seed is claimed under its unnormalized
string, the link `/a` of the page is claimed under `http://example.com/a`, and both are fetched
although both keys have the same normalized form `http://example.com/a`. -/
theorem seed_key_not_normalized :
    (run Example.site (Example.siteDownloader (Example.exampleURL "/a".toList "top".toList) 1 2 none)
        init [Thread.main, Thread.main, Thread.main, Thread.branch 0, Thread.branch 0, Thread.branch 0,
              Thread.branch 1]).map (fun s => (Example.fetches s.log, s.visited))
      = some (["http://example.com/a#top".toList, "http://example.com/a".toList],
              ["http://example.com/a".toList, "http://example.com/a#top".toList]) ∧
    Example.normalKey Example.site "http://example.com/a#top".toList
      = some "http://example.com/a".toList ∧
    Example.normalKey Example.site "http://example.com/a".toList
      = some "http://example.com/a".toList := by
  refine ⟨?_, ?_, ?_⟩ <;> decide

theorem stepBranch_out_of_range [CaseTables] (W : World) (d : Downloader) (s : State) (i : Nat)
    (h : s.branches.length ≤ i) : stepBranch W d s i = none := by
  unfold stepBranch
  rw [List.get?_eq_none.2 h]

theorem onePermitPath_closed (s s' : State) (t : Thread) (hs : s ∈ Example.onePermitPath)
    (h : next Example.site Example.onePermit s t = some s') : s' ∈ Example.onePermitPath := by
  have hmain : ∀ x ∈ Example.onePermitPath,
      (next Example.site Example.onePermit x Thread.main).all
        (fun y => decide (y ∈ Example.onePermitPath)) = true := by decide
  have hzero : ∀ x ∈ Example.onePermitPath,
      (next Example.site Example.onePermit x (Thread.branch 0)).all
        (fun y => decide (y ∈ Example.onePermitPath)) = true := by decide
  have hlen : ∀ x ∈ Example.onePermitPath, x.branches.length ≤ 1 := by decide
  cases t with
  | main =>
    have h1 := hmain s hs
    rw [h] at h1
    simpa using h1
  | branch i =>
    cases i with
    | zero =>
      have h1 := hzero s hs
      rw [h] at h1
      simpa using h1
    | succ j =>
      have h2 : stepBranch Example.site Example.onePermit s (j + 1) = none :=
        stepBranch_out_of_range _ _ s (j + 1) (by have := hlen s hs; omega)
      simp only [next, h2] at h
      exact absurd h (by simp)

/-- C10 (the code at the failing input): the example site crawled from `http://example.com/`
with `MaxConcurrent = 1` and `MaxDepth = 1`.  After the seed branch has fetched its page and
claimed the link `/a`, the only permit is held by the seed branch, which waits at the semaphore
for the permit of its child; the caller of `Download` waits at `wg.Wait()` with a counter of 2;
no thread can take a step.  Under every schedule `Download` has not returned. -/
theorem deadlock_one_permit :
    (∃ s : State,
      run Example.site Example.onePermit init
        [Thread.main, Thread.main, Thread.main, Thread.branch 0, Thread.branch 0] = some s ∧
      (s.semaphore : Int) = Example.onePermit.config.MaxConcurrent ∧
      s.branches = [{ url := "http://example.com/".toList, depth := 0,
                      phase := Phase.acquire "http://example.com/a".toList 1 [] }] ∧
      s.main = MainPhase.wait ∧ s.wg = 2 ∧
      ∀ t : Thread, next Example.site Example.onePermit s t = none) ∧
    (∀ (sched : List Thread) (s : State),
      run Example.site Example.onePermit init sched = some s →
        s.main ≠ MainPhase.returned ∧ s.main ≠ MainPhase.failed) := by
  constructor
  · refine ⟨{ visited := ["http://example.com/a".toList, "http://example.com/".toList]
              semaphore := 1, wg := 2, main := MainPhase.wait
              branches := [{ url := "http://example.com/".toList, depth := 0,
                             phase := Phase.acquire "http://example.com/a".toList 1 [] }]
              log := [Event.pace, Event.get "http://example.com/".toList,
                      Event.save "downloaded_site/index.html".toList
                        "<a href=\"/a\">a</a>".toList] },
            by decide, by decide, rfl, rfl, rfl, ?_⟩
    intro t
    cases t with
    | main => decide
    | branch i =>
      cases i with
      | zero => decide
      | succ j => rfl
  · intro sched s h
    have hp : s ∈ Example.onePermitPath :=
      run_invariant Example.site Example.onePermit (fun x => x ∈ Example.onePermitPath)
        (fun x t y hx hn => onePermitPath_closed x y t hx hn) sched init s (by decide) h
    have hall : ∀ x ∈ Example.onePermitPath,
        x.main ≠ MainPhase.returned ∧ x.main ≠ MainPhase.failed := by decide
    exact hall s hp

/-- C8 (the code at the failing input): the example site crawled from `http://example.com/`
with `MaxConcurrent = 1` and `MaxDepth = 1`.  The call `downloadURL` for the link
`http://example.com/a`, at depth 1 with only the seed visited, passes the test of the visited
set and inserts the URL; the crawl reaches a state in which this URL is visited; and under
every schedule no branch of this URL exists: the call waits at the semaphore, whose only
permit is held by the calling branch, and the branch is never launched. -/
theorem claimed_never_launched :
    downloadURL Example.onePermit ["http://example.com/".toList] "http://example.com/a".toList 1 =
      (true, ["http://example.com/a".toList, "http://example.com/".toList]) ∧
    (∃ s : State,
      run Example.site Example.onePermit init
        [Thread.main, Thread.main, Thread.main, Thread.branch 0, Thread.branch 0] = some s ∧
      "http://example.com/a".toList ∈ s.visited ∧
      ∀ t : Thread, next Example.site Example.onePermit s t = none) ∧
    (∀ (sched : List Thread) (s : State),
      run Example.site Example.onePermit init sched = some s →
        ∀ b ∈ s.branches, b.url ≠ "http://example.com/a".toList) := by
  refine ⟨by decide, ?_, ?_⟩
  · refine ⟨{ visited := ["http://example.com/a".toList, "http://example.com/".toList]
              semaphore := 1, wg := 2, main := MainPhase.wait
              branches := [{ url := "http://example.com/".toList, depth := 0,
                             phase := Phase.acquire "http://example.com/a".toList 1 [] }]
              log := [Event.pace, Event.get "http://example.com/".toList,
                      Event.save "downloaded_site/index.html".toList
                        "<a href=\"/a\">a</a>".toList] },
            by decide, by decide, ?_⟩
    intro t
    cases t with
    | main => decide
    | branch i =>
      cases i with
      | zero => decide
      | succ j => rfl
  · intro sched s h
    have hp : s ∈ Example.onePermitPath :=
      run_invariant Example.site Example.onePermit (fun x => x ∈ Example.onePermitPath)
        (fun x t y hx hn => onePermitPath_closed x y t hx hn) sched init s (by decide) h
    have hall : ∀ x ∈ Example.onePermitPath,
        ∀ b ∈ x.branches, b.url ≠ "http://example.com/a".toList := by decide
    exact hall s hp

/-! ## The concurrency bound -/

theorem permits_set (l : List Branch) (i : Nat) (b b' : Branch) (h : l.get? i = some b) :
    ((l.set i b').map holdsPermit).sum + holdsPermit b = (l.map holdsPermit).sum + holdsPermit b' := by
  obtain ⟨l1, l2, e, hset⟩ := get?_split l i b h
  rw [hset b', e]
  simp only [List.map_append, List.map_cons, List.sum_append, List.sum_cons]
  omega

/-- The permit invariant of a crawl state: the channel holds one element for each branch that
holds a permit, and never more than its capacity. -/
theorem permits_step [CaseTables] (W : World) (d : Downloader) (s s' : State) (t : Thread)
    (hs : s.semaphore = permits s ∧ ((s.semaphore : Int) ≤ d.config.MaxConcurrent ∨ s.semaphore = 0))
    (h : next W d s t = some s') :
    s'.semaphore = permits s' ∧ ((s'.semaphore : Int) ≤ d.config.MaxConcurrent ∨ s'.semaphore = 0) := by
  obtain ⟨hp, hc⟩ := hs
  cases t with
  | main =>
    simp only [next, stepMain] at h
    split at h
    · split at h <;> (simp only [Option.some.injEq] at h; subst h; exact ⟨hp, hc⟩)
    · split at h <;> (simp only [Option.some.injEq] at h; subst h; exact ⟨hp, hc⟩)
    · split at h
      · rename_i hsend
        simp only [canSend, decide_eq_true_eq] at hsend
        simp only [Option.some.injEq] at h; subst h
        refine ⟨?_, Or.inl ?_⟩
        · simp only [permits, List.map_append, List.sum_append] at hp ⊢
          simp [holdsPermit, hp]
        · simp only [Nat.cast_add, Nat.cast_one]; omega
      · exact absurd h (by simp)
    · split at h
      · simp only [Option.some.injEq] at h; subst h; exact ⟨hp, hc⟩
      · exact absurd h (by simp)
    · exact absurd h (by simp)
    · exact absurd h (by simp)
  | branch i =>
    simp only [next, stepBranch] at h
    split at h
    · exact absurd h (by simp)
    · rename_i b hget
      split at h
      · rename_i hph
        simp only [Option.some.injEq] at h; subst h
        have hset := permits_set s.branches i b { b with phase := Phase.loop (processURL W d b.url b.depth).calls } hget
        simp only [holdsPermit, hph] at hset
        exact ⟨by simp only [permits] at hp ⊢; omega, hc⟩
      · rename_i hph
        simp only [Option.some.injEq] at h; subst h
        have hset := permits_set s.branches i b { b with phase := Phase.released } hget
        simp only [holdsPermit, hph] at hset
        refine ⟨by simp only [permits] at hp ⊢; omega, ?_⟩
        rcases hc with hc | hc
        · exact Or.inl (by simp only; omega)
        · exact Or.inr (by simp only; omega)
      · rename_i u dp rest hph
        split at h
        · simp only [Option.some.injEq] at h; subst h
          have hset := permits_set s.branches i b { b with phase := Phase.acquire u dp rest } hget
          simp only [holdsPermit, hph] at hset
          exact ⟨by simp only [permits] at hp ⊢; omega, hc⟩
        · simp only [Option.some.injEq] at h; subst h
          have hset := permits_set s.branches i b { b with phase := Phase.loop rest } hget
          simp only [holdsPermit, hph] at hset
          exact ⟨by simp only [permits] at hp ⊢; omega, hc⟩
      · rename_i u dp rest hph
        split at h
        · rename_i hsend
          simp only [canSend, decide_eq_true_eq] at hsend
          simp only [Option.some.injEq] at h; subst h
          have hset := permits_set s.branches i b { b with phase := Phase.loop rest } hget
          simp only [holdsPermit, hph] at hset
          refine ⟨?_, Or.inl ?_⟩
          · simp only [permits, List.map_append, List.sum_append, List.map_cons, List.map_nil,
              List.sum_cons, List.sum_nil, holdsPermit] at hp ⊢
            omega
          · simp only [Nat.cast_add, Nat.cast_one]; omega
        · exact absurd h (by simp)
      · rename_i hph
        simp only [Option.some.injEq] at h; subst h
        have hset := permits_set s.branches i b { b with phase := Phase.done } hget
        simp only [holdsPermit, hph] at hset
        exact ⟨by simp only [permits] at hp ⊢; omega, hc⟩
      · exact absurd h (by simp)

theorem permits_reachable [CaseTables]
    (W : World) (d : Downloader) (s : State) (h : Reachable W d s) :
    s.semaphore = permits s ∧ ((s.semaphore : Int) ≤ d.config.MaxConcurrent ∨ s.semaphore = 0) := by
  apply reachable_invariant W d
    (fun s => s.semaphore = permits s ∧
      ((s.semaphore : Int) ≤ d.config.MaxConcurrent ∨ s.semaphore = 0)) _
    (fun s t s' hs hn => permits_step W d s s' t hs hn) s h
  exact ⟨rfl, Or.inr rfl⟩

/-- C11: in every state of every crawl (with a capacity `MaxConcurrent` that is not negative)
the number of branches that hold a permit is the number of elements of the semaphore channel
and is at most `MaxConcurrent`; a branch that is about to run `processURL`, is in its link
loop or waits for the permit of a child holds a permit, so at most `MaxConcurrent` branches run
`processURL`. -/
theorem permits_le_maxConcurrent [CaseTables] (W : World) (d : Downloader) (s : State)
    (hcap : 0 ≤ d.config.MaxConcurrent) (h : Reachable W d s) :
    permits s = s.semaphore ∧ (permits s : Int) ≤ d.config.MaxConcurrent ∧
    ((s.branches.filter (fun b => decide (b.phase = Phase.ready))).length : Int)
      ≤ d.config.MaxConcurrent ∧
    (∀ b ∈ s.branches, (b.phase = Phase.ready ∨ (∃ calls, b.phase = Phase.loop calls) ∨
        ∃ u dp rest, b.phase = Phase.acquire u dp rest) ↔ holdsPermit b = 1) := by
  obtain ⟨hp, hc⟩ := permits_reachable W d s h
  have hle : (permits s : Int) ≤ d.config.MaxConcurrent := by
    rcases hc with hc | hc
    · rw [← hp]; exact hc
    · rw [← hp, hc]; simpa using hcap
  have hready : ∀ l : List Branch,
      (l.filter (fun b => decide (b.phase = Phase.ready))).length ≤ (l.map holdsPermit).sum := by
    intro l
    induction l with
    | nil => simp
    | cons b bs ih =>
      by_cases hb : b.phase = Phase.ready
      · simp only [List.filter_cons, hb, decide_True, if_true, List.length_cons, List.map_cons,
          List.sum_cons, holdsPermit]
        omega
      · simp only [List.filter_cons, hb, decide_False, List.map_cons, List.sum_cons]
        simp only [Bool.false_eq_true, if_false]
        omega
  refine ⟨hp.symm, hle, ?_, ?_⟩
  · have := hready s.branches
    simp only [permits] at hle
    omega
  · intro b _
    unfold holdsPermit
    cases b.phase <;> simp

/-- Witness of C11: the example site crawled with two permits; after the seed branch has
launched the branch of `/a`, two branches hold a permit. -/
theorem permits_le_maxConcurrent_witness :
    (0 : Int) ≤ (Example.siteDownloader (Example.exampleURL "/".toList []) 1 2 none).config.MaxConcurrent ∧
    (run Example.site (Example.siteDownloader (Example.exampleURL "/".toList []) 1 2 none) init
        [Thread.main, Thread.main, Thread.main, Thread.branch 0, Thread.branch 0,
         Thread.branch 0]).map permits = some 2 ∧
    (∀ s, run Example.site (Example.siteDownloader (Example.exampleURL "/".toList []) 1 2 none) init
        [Thread.main, Thread.main, Thread.main, Thread.branch 0, Thread.branch 0,
         Thread.branch 0] = some s → (permits s : Int) ≤ 2) :=
  ⟨by decide, by decide,
   fun s hs => (permits_le_maxConcurrent Example.site
      (Example.siteDownloader (Example.exampleURL "/".toList []) 1 2 none) s (by decide)
      ⟨_, hs⟩).2.1⟩

/-! ## Same-origin filtering -/

theorem normalizeURL_ne_nil (W : World) (d : Downloader) (href : Str) (base : URL)
    (h : normalizeURL W d href base ≠ []) :
    ∃ parsed, W.Parse (TrimSpace href) = some parsed ∧
      (W.ResolveReference base parsed).Host = d.baseURL.Host ∧
      normalizeURL W d href base =
        W.URLString { W.ResolveReference base parsed with Fragment := [] } := by
  unfold normalizeURL at h ⊢
  simp only [] at h ⊢
  split at h
  · exact absurd rfl h
  · rename_i hpre
    rw [if_neg hpre]
    split at h
    · exact absurd rfl h
    · rename_i parsed hparse
      rw [hparse]
      split at h
      · exact absurd rfl h
      · rename_i hhost
        rw [if_neg hhost]
        exact ⟨parsed, rfl, not_not.1 hhost, rfl⟩

theorem attrLoop_links (W : World) (d : Downloader) (base : URL) (key : Str) (Q : Str → Prop)
    (hQ : ∀ v, normalizeURL W d v base ≠ [] → Q (normalizeURL W d v base)) :
    ∀ (attr : List (Str × Str)) (st : LinkState), (∀ l ∈ st.links, Q l) →
      ∀ l ∈ (attrLoop W d base key attr st).links, Q l := by
  intro attr
  induction attr with
  | nil => intro st h; simpa [attrLoop] using h
  | cons a rest ih =>
    intro st h
    obtain ⟨k, v⟩ := a
    simp only [attrLoop]
    split
    · split
      · rename_i hlink
        apply ih
        intro l hl
        rcases List.mem_append.1 hl with hl | hl
        · exact h l hl
        · rw [List.mem_singleton.1 hl]; exact hQ v hlink.1
      · exact ih st h
    · exact ih st h

mutual
theorem traverse_links (W : World) (d : Downloader) (base : URL) (Q : Str → Prop)
    (hQ : ∀ v, normalizeURL W d v base ≠ [] → Q (normalizeURL W d v base)) :
    ∀ (n : Node) (st : LinkState), (∀ l ∈ st.links, Q l) →
      ∀ l ∈ (traverse W d base n st).links, Q l
  | Node.mk isElement data attr children, st, h => by
    rw [traverse]
    apply traverseList_links W d base Q hQ children
    split
    · simp only []
      split
      · exact attrLoop_links W d base _ Q hQ attr st h
      · exact h
    · exact h
theorem traverseList_links (W : World) (d : Downloader) (base : URL) (Q : Str → Prop)
    (hQ : ∀ v, normalizeURL W d v base ≠ [] → Q (normalizeURL W d v base)) :
    ∀ (ns : List Node) (st : LinkState), (∀ l ∈ st.links, Q l) →
      ∀ l ∈ (traverseList W d base ns st).links, Q l
  | [], st, h => by rw [traverseList]; exact h
  | c :: cs, st, h => by
    rw [traverseList]
    exact traverseList_links W d base Q hQ cs _ (traverse_links W d base Q hQ c st h)
end

theorem extractLinks_discovered (W : World) (d : Downloader) (body : Str) (base : URL) :
    ∀ l ∈ extractLinks W d body base, ∃ href parsed,
      W.Parse (TrimSpace href) = some parsed ∧
      (W.ResolveReference base parsed).Host = d.baseURL.Host ∧
      l = W.URLString { W.ResolveReference base parsed with Fragment := [] } := by
  unfold extractLinks
  split
  · intro l hl; exact absurd hl (List.not_mem_nil l)
  · rename_i doc _
    apply traverse_links W d base
      (fun l => ∃ href parsed, W.Parse (TrimSpace href) = some parsed ∧
        (W.ResolveReference base parsed).Host = d.baseURL.Host ∧
        l = W.URLString { W.ResolveReference base parsed with Fragment := [] }) _ doc
    · intro l hl; exact absurd hl (List.not_mem_nil l)
    · intro v hv
      obtain ⟨parsed, h1, h2, h3⟩ := normalizeURL_ne_nil W d v base hv
      exact ⟨v, parsed, h1, h2, h3⟩

theorem processURL_calls_discovered [CaseTables]
    (W : World) (d : Downloader) (urlStr : Str) (depth : Int) :
    ∀ c ∈ (processURL W d urlStr depth).calls, Discovered W d c.1 := by
  have h : (processURL W d urlStr depth).calls = [] ∨
      ∃ (body : Str) (base : URL), (processURL W d urlStr depth).calls =
        (extractLinks W d body base).map (fun l => (l, depth + 1)) := by
    unfold processURL
    simp only []
    repeat' split
    all_goals first
      | exact Or.inl rfl
      | exact Or.inr ⟨_, _, rfl⟩
  intro c hc
  rcases h with e | ⟨body, base, e⟩
  · rw [e] at hc; exact absurd hc (List.not_mem_nil c)
  · rw [e, List.mem_map] at hc
    obtain ⟨l, hl, rfl⟩ := hc
    obtain ⟨href, parsed, h1, h2, h3⟩ := extractLinks_discovered W d body base l hl
    exact ⟨href, base, parsed, h1, h2, h3⟩

theorem processURL_get [CaseTables]
    (W : World) (d : Downloader) (urlStr : Str) (depth : Int) (u : Str)
    (h : Event.get u ∈ (processURL W d urlStr depth).events) :
    ∃ p, W.Parse urlStr = some p ∧ (p.Host = [] ∨ p.Host = d.baseURL.Host) ∧
      u = if p.Host = [] then W.URLString (W.ResolveReference d.baseURL p) else urlStr := by
  unfold processURL at h
  split at h
  · simp at h
  · rename_i p hp
    split at h
    · simp at h
    · rename_i hhost
      have hh : p.Host = [] ∨ p.Host = d.baseURL.Host := by
        by_cases h0 : p.Host = []
        · exact Or.inl h0
        · exact Or.inr (by
            by_contra hne
            exact hhost ⟨h0, hne⟩)
      refine ⟨p, hp, hh, ?_⟩
      by_cases h0 : p.Host = []
      · simp only [h0, if_true] at h ⊢
        repeat' split at h
        all_goals simp at h
        all_goals exact h
      · simp only [h0, if_false] at h ⊢
        repeat' split at h
        all_goals simp at h
        all_goals exact h

theorem originInv_step [CaseTables] (W : World) (d : Downloader) (s s' : State) (t : Thread)
    (hs : OriginInv W d s) (h : next W d s t = some s') : OriginInv W d s' := by
  obtain ⟨hb, hl⟩ := hs
  cases t with
  | main =>
    simp only [next, stepMain] at h
    split at h
    · split at h <;> (simp only [Option.some.injEq] at h; subst h; exact ⟨hb, hl⟩)
    · split at h <;> (simp only [Option.some.injEq] at h; subst h; exact ⟨hb, hl⟩)
    · split at h
      · simp only [Option.some.injEq] at h; subst h
        refine ⟨forall_mem_snoc _ _ hb ⟨Or.inl rfl, ?_⟩, hl⟩
        intro l hl0
        simp [phaseLinks] at hl0
      · exact absurd h (by simp)
    · split at h
      · simp only [Option.some.injEq] at h; subst h; exact ⟨hb, hl⟩
      · exact absurd h (by simp)
    · exact absurd h (by simp)
    · exact absurd h (by simp)
  | branch i =>
    simp only [next, stepBranch] at h
    split at h
    · exact absurd h (by simp)
    · rename_i b hget
      obtain ⟨b0, b1⟩ := hb b (List.get?_mem hget)
      split at h
      · simp only [Option.some.injEq] at h; subst h
        refine ⟨forall_mem_set _ _ _ hb ⟨b0, ?_⟩, ?_⟩
        · intro l hl0
          simp only [phaseLinks, List.mem_map] at hl0
          obtain ⟨c, hc, rfl⟩ := hl0
          exact processURL_calls_discovered W d _ _ c hc
        · intro e he
          rcases List.mem_append.1 he with he | he
          · exact hl e he
          · exact ⟨b.url, b.depth, b0, he⟩
      · simp only [Option.some.injEq] at h; subst h
        refine ⟨forall_mem_set _ _ _ hb ⟨b0, ?_⟩, hl⟩
        intro l hl0
        simp [phaseLinks] at hl0
      · rename_i u dp rest hph
        rw [hph] at b1
        split at h
        · simp only [Option.some.injEq] at h; subst h
          refine ⟨forall_mem_set _ _ _ hb ⟨b0, ?_⟩, hl⟩
          intro l hl0
          exact b1 l (by simpa [phaseLinks] using hl0)
        · simp only [Option.some.injEq] at h; subst h
          refine ⟨forall_mem_set _ _ _ hb ⟨b0, ?_⟩, hl⟩
          intro l hl0
          exact b1 l (by simp only [phaseLinks, List.map_cons, List.mem_cons] at hl0 ⊢
                         exact Or.inr hl0)
      · rename_i u dp rest hph
        rw [hph] at b1
        split at h
        · simp only [Option.some.injEq] at h; subst h
          refine ⟨forall_mem_snoc _ _ (forall_mem_set _ _ _ hb ⟨b0, ?_⟩) ⟨Or.inr ?_, ?_⟩, hl⟩
          · intro l hl0
            exact b1 l (by simp only [phaseLinks, List.mem_cons] at hl0 ⊢
                           exact Or.inr hl0)
          · exact b1 u (by simp [phaseLinks])
          · intro l hl0
            simp [phaseLinks] at hl0
        · exact absurd h (by simp)
      · simp only [Option.some.injEq] at h; subst h
        refine ⟨forall_mem_set _ _ _ hb ⟨b0, ?_⟩, hl⟩
        intro l hl0
        simp [phaseLinks] at hl0
      · exact absurd h (by simp)

theorem originInv_reachable [CaseTables]
    (W : World) (d : Downloader) (s : State) (h : Reachable W d s) :
    OriginInv W d s := by
  apply reachable_invariant W d (OriginInv W d) _
    (fun s t s' hs hn => originInv_step W d s s' t hs hn) s h
  exact ⟨fun b hb => by simp [init] at hb, fun e he => by simp [init] at he⟩

/-- C12: same-origin filtering.  `normalizeURL` returns a non-empty URL only when the raw value
parses and the host of the link resolved against the page base is the host of the seed;
`processURL` performs no action (no GET) for a URL whose host is not empty and differs from the
host of the seed; every link returned by `extractLinks` has passed the filter.  In every state
of a crawl every branch is the seed or a link that passed the filter, and every GET of the log
was sent by `processURL` on the seed or on such a link, for a URL whose parsed host is empty
(then resolved against the seed) or is the host of the seed. -/
theorem same_origin [CaseTables] (W : World) (d : Downloader) :
    (∀ (href : Str) (base : URL), normalizeURL W d href base ≠ [] →
        ∃ parsed, W.Parse (TrimSpace href) = some parsed ∧
          (W.ResolveReference base parsed).Host = d.baseURL.Host) ∧
    (∀ (urlStr : Str) (depth : Int) (parsed : URL), W.Parse urlStr = some parsed →
        parsed.Host ≠ [] → parsed.Host ≠ d.baseURL.Host →
        processURL W d urlStr depth = { events := [], err := false, calls := [] }) ∧
    (∀ (body : Str) (base : URL), ∀ l ∈ extractLinks W d body base, ∃ href parsed,
        W.Parse (TrimSpace href) = some parsed ∧
        (W.ResolveReference base parsed).Host = d.baseURL.Host ∧
        l = W.URLString { W.ResolveReference base parsed with Fragment := [] }) ∧
    (∀ s, Reachable W d s →
        (∀ b ∈ s.branches, b.url = W.URLString d.baseURL ∨ Discovered W d b.url) ∧
        ∀ u, Event.get u ∈ s.log → ∃ (urlStr : Str) (p : URL),
          (urlStr = W.URLString d.baseURL ∨ Discovered W d urlStr) ∧
          W.Parse urlStr = some p ∧ (p.Host = [] ∨ p.Host = d.baseURL.Host) ∧
          u = if p.Host = [] then W.URLString (W.ResolveReference d.baseURL p) else urlStr) := by
  refine ⟨?_, ?_, extractLinks_discovered W d, ?_⟩
  · intro href base h
    obtain ⟨parsed, h1, h2, _⟩ := normalizeURL_ne_nil W d href base h
    exact ⟨parsed, h1, h2⟩
  · intro urlStr depth parsed hp h1 h2
    unfold processURL
    rw [hp]
    simp only []
    rw [if_pos ⟨h1, h2⟩]
  · intro s hs
    obtain ⟨hb, hl⟩ := originInv_reachable W d s hs
    refine ⟨fun b hmem => (hb b hmem).1, ?_⟩
    intro u hu
    obtain ⟨urlStr, depth, hsrc, he⟩ := hl _ hu
    obtain ⟨p, hp, hh, hu2⟩ := processURL_get W d urlStr depth u he
    exact ⟨urlStr, p, hsrc, hp, hh, hu2⟩

/-- Witness of C12: in the example crawl the URL `http://other.org/x` has a host that is not
the host of the seed: `processURL` does nothing for it, and as a link of the page `/` it is
discarded by `normalizeURL`. -/
theorem same_origin_witness :
    processURL Example.site (Example.siteDownloader (Example.exampleURL "/".toList []) 1 2 none)
        "http://other.org/x".toList 1 = { events := [], err := false, calls := [] } ∧
    normalizeURL Example.site (Example.siteDownloader (Example.exampleURL "/".toList []) 1 2 none)
        " http://other.org/x ".toList (Example.exampleURL "/".toList []) = [] ∧
    (∃ parsed, Example.site.Parse (TrimSpace "/a".toList) = some parsed ∧
      (Example.site.ResolveReference (Example.exampleURL "/".toList []) parsed).Host
        = "example.com".toList) :=
  ⟨(same_origin Example.site
      (Example.siteDownloader (Example.exampleURL "/".toList []) 1 2 none)).2.1
      "http://other.org/x".toList 1
      { Scheme := "http".toList, Host := "other.org".toList, Path := "/x".toList,
        RawQuery := [], Fragment := [] } (by decide) (by decide) (by decide),
   by decide,
   (same_origin Example.site
      (Example.siteDownloader (Example.exampleURL "/".toList []) 1 2 none)).1
      "/a".toList (Example.exampleURL "/".toList []) (by decide)⟩

/-! ## The mapping of URLs to local paths -/

theorem ext_append_index (p : Str) : Ext (p ++ "index.html".toList) = ".html".toList := by
  have e : "index.html".toList = ['i', 'n', 'd', 'e', 'x', '.', 'h', 't', 'm', 'l'] := by decide
  have e2 : ".html".toList = ['.', 'h', 't', 'm', 'l'] := by decide
  rw [e, e2]
  simp [Ext, extLoop, List.reverse_append]

theorem trimPrefix_append (p s : Str) (hp : p ≠ []) :
    TrimPrefix (p ++ s) "/".toList = TrimPrefix p "/".toList ++ s := by
  have e : "/".toList = ['/'] := by decide
  rw [e]
  cases p with
  | nil => exact absurd rfl hp
  | cons c cs =>
    by_cases hc : c = '/'
    · subst hc; simp [TrimPrefix, List.isPrefixOf]
    · have hc2 : ¬ '/' = c := fun h => hc h.symm
      simp [TrimPrefix, List.isPrefixOf, hc2]

theorem hasSuffix_slash_ne_nil (p : Str) (h : HasSuffix p "/".toList = true) : p ≠ [] := by
  intro hp
  subst hp
  exact absurd h (by decide)

/-- C13: the index rule of `getLocalPath`.  For every output directory and every URL whose
path is empty, is `/` or ends in `/`, the local path is `filepath.Join` of the output
directory and the path without its leading slash followed by `index.html`. -/
theorem getLocalPath_index (W : World) (d : Downloader) (u : URL)
    (h : u.Path = [] ∨ u.Path = "/".toList ∨ HasSuffix u.Path "/".toList = true) :
    getLocalPath W d u =
      W.Join d.config.OutputDir (TrimPrefix u.Path "/".toList ++ "index.html".toList) := by
  by_cases h0 : u.Path = [] ∨ u.Path = "/".toList
  · have e1 : HasSuffix "/index.html".toList "/".toList = false := by decide
    have e2 : Ext "/index.html".toList ≠ [] := by decide
    have e3 : TrimPrefix "/index.html".toList "/".toList = "index.html".toList := by decide
    have e4 : TrimPrefix u.Path "/".toList = [] := by
      rcases h0 with h0 | h0 <;> rw [h0] <;> decide
    unfold getLocalPath
    simp only [h0, if_true, e1, Bool.false_eq_true, if_false, e2, e3, e4, List.nil_append]
  · have hs : HasSuffix u.Path "/".toList = true := by
      rcases h with h | h | h
      · exact absurd (Or.inl h) h0
      · exact absurd (Or.inr h) h0
      · exact h
    have hne : u.Path ≠ [] := hasSuffix_slash_ne_nil u.Path hs
    have e2 : Ext (u.Path ++ "index.html".toList) ≠ [] := by
      rw [ext_append_index]; decide
    unfold getLocalPath
    simp only [h0, if_false, hs, if_true, e2, trimPrefix_append u.Path _ hne]

/-- Witness of C13: with the output directory `downloaded_site`, the path `/` is mapped to
`downloaded_site/index.html` and the path `/a/b/` to `downloaded_site/a/b/index.html`. -/
theorem getLocalPath_index_witness :
    getLocalPath Example.site (Example.siteDownloader (Example.exampleURL "/".toList []) 1 2 none)
        (Example.exampleURL "/".toList []) = "downloaded_site/index.html".toList ∧
    getLocalPath Example.site (Example.siteDownloader (Example.exampleURL "/".toList []) 1 2 none)
        (Example.exampleURL "/a/b/".toList []) = "downloaded_site/a/b/index.html".toList :=
  ⟨(getLocalPath_index Example.site _ (Example.exampleURL "/".toList [])
      (Or.inr (Or.inl rfl))).trans (by decide),
   (getLocalPath_index Example.site _ (Example.exampleURL "/a/b/".toList [])
      (Or.inr (Or.inr (by decide)))).trans (by decide)⟩

/-- C14: the extension rule of `getLocalPath`.  For every output directory and every URL path
that is not empty and does not end in `/`: when `path.Ext` of the path is empty the local path
is `filepath.Join` of the output directory and the path without its leading slash followed by
`.html`; when it is not empty the path without its leading slash is joined unchanged. -/
theorem getLocalPath_ext (W : World) (d : Downloader) (u : URL)
    (hne : u.Path ≠ []) (hs : HasSuffix u.Path "/".toList = false) :
    (Ext u.Path = [] → getLocalPath W d u =
      W.Join d.config.OutputDir (TrimPrefix u.Path "/".toList ++ ".html".toList)) ∧
    (Ext u.Path ≠ [] → getLocalPath W d u =
      W.Join d.config.OutputDir (TrimPrefix u.Path "/".toList)) := by
  have h1 : ¬ (u.Path = [] ∨ u.Path = "/".toList) := by
    intro h
    rcases h with h | h
    · exact hne h
    · rw [h] at hs; exact absurd hs (by decide)
  constructor
  · intro he
    unfold getLocalPath
    simp only [h1, if_false, hs, Bool.false_eq_true, he, if_true,
      trimPrefix_append u.Path _ hne]
  · intro he
    unfold getLocalPath
    simp only [h1, if_false, hs, Bool.false_eq_true, he]

/-- Witness of C14: with the output directory `downloaded_site`, the path `/a/b` is mapped to
`downloaded_site/a/b.html` and the path `/a/b.json` to `downloaded_site/a/b.json`. -/
theorem getLocalPath_ext_witness :
    getLocalPath Example.site (Example.siteDownloader (Example.exampleURL "/".toList []) 1 2 none)
        (Example.exampleURL "/a/b".toList []) = "downloaded_site/a/b.html".toList ∧
    getLocalPath Example.site (Example.siteDownloader (Example.exampleURL "/".toList []) 1 2 none)
        (Example.exampleURL "/a/b.json".toList []) = "downloaded_site/a/b.json".toList :=
  ⟨((getLocalPath_ext Example.site _ (Example.exampleURL "/a/b".toList [])
      (by decide) (by decide)).1 (by decide)).trans (by decide),
   ((getLocalPath_ext Example.site _ (Example.exampleURL "/a/b.json".toList [])
      (by decide) (by decide)).2 (by decide)).trans (by decide)⟩

/-- C15 (the code at the failing input): with the output directory `downloaded_site`, the URL
`http://example.com/../x` of path `/../x` is mapped to `x.html`, a path that is not under the
output directory, and `processURL` for that URL saves the body there. -/
theorem getLocalPath_escapes :
    getLocalPath Example.site (Example.siteDownloader (Example.exampleURL "/".toList []) 1 2 none)
        (Example.exampleURL "/../x".toList []) = "x.html".toList ∧
    HasPrefix "x.html".toList "downloaded_site".toList = false ∧
    (processURL Example.site (Example.siteDownloader (Example.exampleURL "/../x".toList []) 1 2 none)
        "http://example.com/../x".toList 0).events =
      [Event.pace, Event.get "http://example.com/../x".toList,
       Event.save "x.html".toList "x".toList] := by
  refine ⟨?_, ?_, ?_⟩ <;> decide

/-! ## The rate limiter and the construction of the downloader -/

theorem since_of_le (last now : Int) (h : last ≤ now) :
    Since last now = if now - last ≤ maxDuration then now - last else maxDuration := by
  unfold Since minDuration maxDuration
  simp only [max_def, min_def]
  split_ifs <;> omega

/-- C16: the spacing of the rate limiter.  With a crawl delay `d > 0` (a `time.Duration`), a
stored timestamp `L` and a clock reading `t` not before `L`, `respectCrawlDelay` sleeps for
`d - (t - L)` when `t - L < d` and does not sleep otherwise, then stores the time read after
the sleep; the stored timestamp is at least `L + d`, so the timestamps stored by two
consecutive calls differ by at least `d`. -/
theorem respectCrawlDelay_spacing [CaseTables]
    (d : Downloader) (rp : RobotsParser) (L t : Int) (lag : Nat)
    (hrp : d.robotsParser = some rp)
    (hpos : 0 < GetCrawlDelay rp d.config.UserAgent)
    (hmax : GetCrawlDelay rp d.config.UserAgent ≤ maxDuration)
    (hmono : L ≤ t) :
    (t - L < GetCrawlDelay rp d.config.UserAgent →
        (respectCrawlDelay d L t lag).slept = GetCrawlDelay rp d.config.UserAgent - (t - L)) ∧
    (¬ t - L < GetCrawlDelay rp d.config.UserAgent → (respectCrawlDelay d L t lag).slept = 0) ∧
    (respectCrawlDelay d L t lag).lastRequest = t + (respectCrawlDelay d L t lag).slept + lag ∧
    L + GetCrawlDelay rp d.config.UserAgent ≤ (respectCrawlDelay d L t lag).lastRequest := by
  have hne : ¬ GetCrawlDelay rp d.config.UserAgent = 0 := by omega
  have hs := since_of_le L t hmono
  unfold respectCrawlDelay
  simp only [hrp, hne, if_false]
  by_cases hlt : t - L < GetCrawlDelay rp d.config.UserAgent
  · have he : Since L t = t - L := by
      rw [hs, if_pos (by omega)]
    simp only [he, hlt, if_true]
    refine ⟨?_, ?_, ?_, ?_⟩ <;> intros <;> first
      | trivial
      | omega
  · have he : ¬ Since L t < GetCrawlDelay rp d.config.UserAgent := by
      rw [hs]
      split_ifs <;> omega
    simp only [he, hlt, if_false]
    refine ⟨?_, ?_, ?_, ?_⟩ <;> intros <;> first
      | trivial
      | omega

/-- Witness of C16: the robots text `Crawl-delay: 2.5` (read as 2 500 000 000 ns), the stored
timestamp at 1 s and the call at 2 s: the call sleeps 1.5 s and stores 3.5 s. -/
theorem respectCrawlDelay_spacing_witness :
    respectCrawlDelay
      (Example.siteDownloader (Example.exampleURL "/".toList []) 1 2
        (some (NewRobotsParser (fun v => if v = "2.5".toList then 2500000000 else 0)
          "User-agent: *\nCrawl-delay: 2.5".toList)))
      1000000000 2000000000 0 = { slept := 1500000000, lastRequest := 3500000000 } ∧
    (1000000000 : Int) + 2500000000 ≤ (respectCrawlDelay
      (Example.siteDownloader (Example.exampleURL "/".toList []) 1 2
        (some (NewRobotsParser (fun v => if v = "2.5".toList then 2500000000 else 0)
          "User-agent: *\nCrawl-delay: 2.5".toList)))
      1000000000 2000000000 0).lastRequest :=
  ⟨by decide,
   (respectCrawlDelay_spacing
      (Example.siteDownloader (Example.exampleURL "/".toList []) 1 2
        (some (NewRobotsParser (fun v => if v = "2.5".toList then 2500000000 else 0)
          "User-agent: *\nCrawl-delay: 2.5".toList)))
      (NewRobotsParser (fun v => if v = "2.5".toList then 2500000000 else 0)
          "User-agent: *\nCrawl-delay: 2.5".toList)
      1000000000 2000000000 0 rfl (by decide) (by decide) (by decide)).2.2.2⟩

theorem loadRobotsTxt_not_loaded [CaseTables] (W : World) (sd : Str → Int) (u : URL)
    (h : W.NewRequest (u.Scheme ++ "://".toList ++ u.Host ++ "/robots.txt".toList) = false ∨
      W.Do (u.Scheme ++ "://".toList ++ u.Host ++ "/robots.txt".toList) = none ∨
      (∃ resp, W.Do (u.Scheme ++ "://".toList ++ u.Host ++ "/robots.txt".toList) = some resp ∧
        (resp.StatusCode ≠ 200 ∨ resp.Body = none))) :
    (loadRobotsTxt W sd u).robotsParser = none := by
  unfold loadRobotsTxt
  simp only []
  generalize u.Scheme ++ "://".toList ++ u.Host ++ "/robots.txt".toList = url at h ⊢
  rcases h with h | h | ⟨resp, h, h2⟩
  · simp only [h, Bool.not_false, if_true]
  · split
    · rfl
    · rw [h]
  · split
    · rfl
    · rw [h]
      simp only []
      rcases h2 with h2 | h2
      · split_ifs <;> rfl
      · split_ifs
        · rfl
        · rfl
        · rw [h2]

theorem loadRobotsTxt_loaded [CaseTables] (W : World) (sd : Str → Int) (u : URL) (resp : Response)
    (body : Str)
    (hreq : W.NewRequest (u.Scheme ++ "://".toList ++ u.Host ++ "/robots.txt".toList) = true)
    (hdo : W.Do (u.Scheme ++ "://".toList ++ u.Host ++ "/robots.txt".toList) = some resp)
    (hst : resp.StatusCode = 200) (hbody : resp.Body = some body) :
    (loadRobotsTxt W sd u).robotsParser = some (NewRobotsParser sd body) := by
  unfold loadRobotsTxt
  simp only []
  generalize u.Scheme ++ "://".toList ++ u.Host ++ "/robots.txt".toList = url at hreq hdo ⊢
  have h404 : ¬ resp.StatusCode = 404 := by rw [hst]; decide
  simp only [hreq, Bool.not_true, Bool.false_eq_true, if_false, hdo, h404, hst, ne_eq,
    not_true_eq_false, hbody]
  rw [if_neg (by decide)]

/-- C18: `NewDownloader` returns the error "invalid URL" exactly when the seed URL cannot be
parsed, and then sends no request.  When the seed URL is parsed (and the capacity of the
semaphore is not negative) it returns a downloader whatever the answer to the robots.txt
request is; when the request cannot be built or sent, or the status is not 200 (404 included),
or the body cannot be read, no rule set is loaded; with a 200 answer and a readable body the
parsed rule set is loaded.  With no rule set loaded `isAllowedByRobots` is true for every path
and `respectCrawlDelay` neither sleeps nor changes the stored timestamp. -/
theorem newDownloader_errors [CaseTables]
    (W : World) (sd : Str → Int) (cfg : Config) (baseURL : Str) :
    ((NewDownloader W sd cfg baseURL).result = NewResult.invalidURL ↔ W.Parse baseURL = none) ∧
    (W.Parse baseURL = none → (NewDownloader W sd cfg baseURL).events = []) ∧
    (∀ u, W.Parse baseURL = some u → 0 ≤ cfg.MaxConcurrent →
        ∃ d, (NewDownloader W sd cfg baseURL).result = NewResult.ok d ∧
          d.config = cfg ∧ d.baseURL = u ∧
          (d.robotsParser = none ∨ ∃ body, d.robotsParser = some (NewRobotsParser sd body))) ∧
    (∀ u d, W.Parse baseURL = some u →
        (NewDownloader W sd cfg baseURL).result = NewResult.ok d →
        (cfg.RespectRobotsTxt = false ∨
          W.NewRequest (u.Scheme ++ "://".toList ++ u.Host ++ "/robots.txt".toList) = false ∨
          W.Do (u.Scheme ++ "://".toList ++ u.Host ++ "/robots.txt".toList) = none ∨
          (∃ resp, W.Do (u.Scheme ++ "://".toList ++ u.Host ++ "/robots.txt".toList) = some resp ∧
            (resp.StatusCode ≠ 200 ∨ resp.Body = none))) →
        d.robotsParser = none) ∧
    (∀ u d resp body, W.Parse baseURL = some u →
        (NewDownloader W sd cfg baseURL).result = NewResult.ok d →
        cfg.RespectRobotsTxt = true →
        W.NewRequest (u.Scheme ++ "://".toList ++ u.Host ++ "/robots.txt".toList) = true →
        W.Do (u.Scheme ++ "://".toList ++ u.Host ++ "/robots.txt".toList) = some resp →
        resp.StatusCode = 200 → resp.Body = some body →
        d.robotsParser = some (NewRobotsParser sd body)) ∧
    (∀ d : Downloader, d.robotsParser = none →
        (∀ urlPath, isAllowedByRobots d urlPath = true) ∧
        ∀ (L t : Int) (lag : Nat), respectCrawlDelay d L t lag = { slept := 0, lastRequest := L }) := by
  refine ⟨?_, ?_, ?_, ?_, ?_, ?_⟩
  · unfold NewDownloader
    cases hp : W.Parse baseURL with
    | none => simp
    | some u =>
      simp only []
      split_ifs <;> simp
  · intro hp
    unfold NewDownloader
    rw [hp]
  · intro u hp hcap
    have hn : ¬ cfg.MaxConcurrent < 0 := not_lt.2 hcap
    unfold NewDownloader
    rw [hp]
    simp only [hn, if_false]
    by_cases hr : cfg.RespectRobotsTxt = true
    · simp only [hr, if_true]
      refine ⟨_, rfl, rfl, rfl, ?_⟩
      unfold loadRobotsTxt
      simp only []
      repeat' split
      all_goals first
        | exact Or.inl rfl
        | exact Or.inr ⟨_, rfl⟩
    · simp only [hr]
      exact ⟨_, rfl, rfl, rfl, Or.inl rfl⟩
  · intro u d hp hres hcase
    unfold NewDownloader at hres
    rw [hp] at hres
    simp only [] at hres
    split at hres
    · exact absurd hres (by simp)
    · split at hres
      · rename_i hr
        simp only [NewResult.ok.injEq] at hres
        subst hres
        rcases hcase with h | h
        · rw [hr] at h; exact absurd h (by simp)
        · exact loadRobotsTxt_not_loaded W sd u h
      · simp only [NewResult.ok.injEq] at hres
        subst hres
        rfl
  · intro u d resp body hp hres hr hreq hdo hst hbody
    unfold NewDownloader at hres
    rw [hp] at hres
    simp only [] at hres
    split at hres
    · exact absurd hres (by simp)
    · simp only [hr, if_true, NewResult.ok.injEq] at hres
      subst hres
      exact loadRobotsTxt_loaded W sd u resp body hreq hdo hst hbody
  · intro d hd
    refine ⟨fun urlPath => ?_, fun L t lag => ?_⟩
    · unfold isAllowedByRobots
      rw [hd]
      cases d.config.RespectRobotsTxt <;> rfl
    · unfold respectCrawlDelay
      rw [hd]

/-- Witness of C18: in the example world the seed `%zz` cannot be parsed: the error is
returned and nothing is requested; for the seed `http://example.com/` the robots.txt request
fails (transport failure) and a downloader without rule set is returned. -/
theorem newDownloader_errors_witness :
    (NewDownloader Example.site (fun _ => 0) Example.onePermit.config "%zz".toList).result
      = NewResult.invalidURL ∧
    (NewDownloader Example.site (fun _ => 0) Example.onePermit.config "%zz".toList).events = [] ∧
    (∃ d, (NewDownloader Example.site (fun _ => 0) Example.onePermit.config
        "http://example.com/".toList).result = NewResult.ok d ∧ d.robotsParser = none) ∧
    (NewDownloader Example.site (fun _ => 0) Example.onePermit.config
        "http://example.com/".toList).events = [Event.get "http://example.com/robots.txt".toList] :=
  ⟨(newDownloader_errors Example.site (fun _ => 0) Example.onePermit.config "%zz".toList).1.2
      (by decide),
   (newDownloader_errors Example.site (fun _ => 0) Example.onePermit.config "%zz".toList).2.1
      (by decide),
   match (newDownloader_errors Example.site (fun _ => 0) Example.onePermit.config
      "http://example.com/".toList).2.2.1 (Example.exampleURL "/".toList []) (by decide)
      (by decide) with
   | ⟨d, hres, _⟩ =>
     ⟨d, hres, (newDownloader_errors Example.site (fun _ => 0) Example.onePermit.config
        "http://example.com/".toList).2.2.2.1 (Example.exampleURL "/".toList []) d (by decide)
        hres (Or.inr (Or.inr (Or.inl (by decide))))⟩,
   by decide⟩

/-! ## The handling of responses -/

/-- C19: for a URL that is parsed, of the seed's host (or relative), allowed by robots and
requested: when the status of the response is not 200, `processURL` returns an error after the
single GET, calls `saveFile` for no path and `downloadURL` for no link; when the status is 200
and the body is read, `saveFile` is called once, with the path given by `getLocalPath` and the
body, after the single GET. -/
theorem processURL_status [CaseTables] (W : World) (d : Downloader) (urlStr : Str) (depth : Int)
    (parsed : URL) (resp : Response)
    (hp : W.Parse urlStr = some parsed)
    (hh : ¬ (parsed.Host ≠ [] ∧ parsed.Host ≠ d.baseURL.Host))
    (hrob : isAllowedByRobots d (targetURL W d parsed).Path = true)
    (hreq : W.NewRequest (requestURL W d urlStr parsed) = true)
    (hdo : W.Do (requestURL W d urlStr parsed) = some resp) :
    (resp.StatusCode ≠ 200 → processURL W d urlStr depth =
      { events := [Event.pace, Event.get (requestURL W d urlStr parsed)], err := true,
        calls := [] }) ∧
    (resp.StatusCode = 200 → ∀ body, resp.Body = some body →
      (processURL W d urlStr depth).events =
        [Event.pace, Event.get (requestURL W d urlStr parsed),
         Event.save (getLocalPath W d (targetURL W d parsed)) body]) := by
  have h200 : resp.StatusCode = 200 → ¬ resp.StatusCode ≠ 200 := fun h hn => hn h
  by_cases h0 : parsed.Host = []
  · simp only [targetURL, requestURL, h0, if_true] at hrob hreq hdo ⊢
    constructor
    · intro hst
      unfold processURL
      rw [hp]
      simp only [h0, if_true]
      rw [if_neg (by simp)]
      simp only [hrob, hreq, Bool.not_true, Bool.false_eq_true, if_false, hdo]
      rw [if_pos hst]
    · intro hst body hbody
      unfold processURL
      rw [hp]
      simp only [h0, if_true]
      rw [if_neg (by simp)]
      simp only [hrob, hreq, Bool.not_true, Bool.false_eq_true, if_false, hdo]
      rw [if_neg (h200 hst)]
      simp only [hbody]
      split_ifs <;> rfl
  · simp only [targetURL, requestURL, h0, if_false] at hrob hreq hdo ⊢
    constructor
    · intro hst
      unfold processURL
      rw [hp]
      simp only [h0, if_false]
      rw [if_neg hh]
      simp only [hrob, hreq, Bool.not_true, Bool.false_eq_true, if_false, hdo]
      rw [if_pos hst]
    · intro hst body hbody
      unfold processURL
      rw [hp]
      simp only [h0, if_false]
      rw [if_neg hh]
      simp only [hrob, hreq, Bool.not_true, Bool.false_eq_true, if_false, hdo]
      rw [if_neg (h200 hst)]
      simp only [hbody]
      split_ifs <;> rfl

/-- Witness of C19: in the example world the page `/a` is answered with status 200 and its
body is saved at `downloaded_site/a.html`. -/
theorem processURL_status_witness :
    (processURL Example.site Example.onePermit "http://example.com/a".toList 1).events =
      [Event.pace, Event.get "http://example.com/a".toList,
       Event.save "downloaded_site/a.html".toList "<a href=\"/a\">a</a>".toList] :=
  ((processURL_status Example.site Example.onePermit "http://example.com/a".toList 1
      (Example.exampleURL "/a".toList [])
      { StatusCode := 200, ContentType := "text/html; charset=utf-8".toList,
        Body := some "<a href=\"/a\">a</a>".toList }
      (by decide) (by decide) (by decide) (by decide) (by decide)).2 rfl
      "<a href=\"/a\">a</a>".toList rfl).trans (by decide)

/-! ## The result of `Download` -/

theorem wgShare_nonneg (b : Branch) : 0 ≤ wgShare b := by
  unfold wgShare
  split <;> decide

theorem wgShare_sum_nonneg (l : List Branch) : 0 ≤ (l.map wgShare).sum := by
  induction l with
  | nil => simp
  | cons b bs ih =>
    have := wgShare_nonneg b
    simp only [List.map_cons, List.sum_cons]
    omega

theorem wgShare_sum_zero (l : List Branch) (h : (l.map wgShare).sum = 0) :
    ∀ b ∈ l, b.phase = Phase.done := by
  induction l with
  | nil => intro b hb; exact absurd hb (List.not_mem_nil b)
  | cons a as ih =>
    have h1 := wgShare_nonneg a
    have h2 := wgShare_sum_nonneg as
    simp only [List.map_cons, List.sum_cons] at h
    intro b hb
    rcases List.mem_cons.1 hb with e | e
    · subst e
      have h0 : wgShare b = 0 := by omega
      unfold wgShare at h0
      split at h0
      · exact absurd h0 (by decide)
      · assumption
      · exact absurd h0 (by decide)
    · exact ih (by omega) b e

theorem wgShare_sum_done (l : List Branch) (h : ∀ b ∈ l, b.phase = Phase.done) :
    (l.map wgShare).sum = 0 := by
  induction l with
  | nil => simp
  | cons a as ih =>
    have ha : wgShare a = 0 := by
      unfold wgShare
      rw [h a (List.mem_cons_self _ _)]
    simp only [List.map_cons, List.sum_cons, ha, zero_add]
    exact ih (fun b hb => h b (List.mem_cons_of_mem _ hb))

theorem wgShare_set (l : List Branch) (i : Nat) (b b' : Branch) (h : l.get? i = some b) :
    ((l.set i b').map wgShare).sum + wgShare b = (l.map wgShare).sum + wgShare b' := by
  obtain ⟨l1, l2, e, hset⟩ := get?_split l i b h
  rw [hset b', e]
  simp only [List.map_append, List.map_cons, List.sum_append, List.sum_cons]
  omega

theorem waitInv_step [CaseTables] (W : World) (d : Downloader) (s s' : State) (t : Thread)
    (hs : WaitInv W d s) (h : next W d s t = some s') : WaitInv W d s' := by
  obtain ⟨hw, hret, hstart, hfail, hok⟩ := hs
  cases t with
  | main =>
    simp only [next, stepMain] at h
    split at h
    · rename_i hm
      obtain ⟨v0, v1, v2, v3, v4⟩ := hstart (Or.inl hm)
      split at h
      · rename_i hmk
        simp only [Option.some.injEq] at h; subst h
        refine ⟨?_, fun hx => by simp at hx, fun hx => by simp at hx, fun hx => by simp at hx,
          fun _ _ => hmk⟩
        simp only [wgCount, hm] at hw ⊢
        simpa using hw
      · rename_i hmk
        simp only [Option.some.injEq] at h; subst h
        refine ⟨?_, fun hx => by simp at hx, fun _ => ⟨v0, v1, v2, v3, v4⟩,
          fun _ => by simpa using hmk, fun _ hx => absurd rfl hx⟩
        simp only [wgCount, hm] at hw ⊢
        simpa using hw
    · rename_i hm
      have hmk := hok (by rw [hm]; decide) (by rw [hm]; decide)
      split at h
      · simp only [Option.some.injEq] at h; subst h
        refine ⟨?_, fun hx => by simp at hx, fun hx => by simp at hx, fun hx => by simp at hx,
          fun _ _ => hmk⟩
        simp only [wgCount, hm] at hw ⊢
        simp only [if_true]
        simp at hw
        omega
      · simp only [Option.some.injEq] at h; subst h
        refine ⟨?_, fun hx => by simp at hx, fun hx => by simp at hx, fun hx => by simp at hx,
          fun _ _ => hmk⟩
        simp only [wgCount, hm] at hw ⊢
        simpa using hw
    · rename_i hm
      have hmk := hok (by rw [hm]; decide) (by rw [hm]; decide)
      split at h
      · simp only [Option.some.injEq] at h; subst h
        refine ⟨?_, fun hx => by simp at hx, fun hx => by simp at hx, fun hx => by simp at hx,
          fun _ _ => hmk⟩
        simp only [wgCount, hm, if_true, List.map_append, List.sum_append, List.map_cons,
          List.map_nil, List.sum_cons, List.sum_nil, wgShare] at hw ⊢
        simp
        omega
      · exact absurd h (by simp)
    · rename_i hm
      have hmk := hok (by rw [hm]; decide) (by rw [hm]; decide)
      split at h
      · rename_i hz
        simp only [Option.some.injEq] at h; subst h
        refine ⟨?_, fun _ => hz, fun hx => by simp at hx, fun hx => by simp at hx,
          fun _ _ => hmk⟩
        simp only [wgCount, hm] at hw ⊢
        simpa using hw
      · exact absurd h (by simp)
    · exact absurd h (by simp)
    · exact absurd h (by simp)
  | branch i =>
    simp only [next, stepBranch] at h
    split at h
    · exact absurd h (by simp)
    · rename_i b hget
      have hmem : b ∈ s.branches := List.get?_mem hget
      have hne : s.branches ≠ [] := List.ne_nil_of_mem hmem
      have hnstart : ¬ (s.main = MainPhase.start ∨ s.main = MainPhase.failed) :=
        fun hx => hne (hstart hx).2.2.2.1
      have hmk : W.MkdirAll d.config.OutputDir = true :=
        hok (fun hx => hnstart (Or.inl hx)) (fun hx => hnstart (Or.inr hx))
      have hnotdone : s.main = MainPhase.returned → b.phase = Phase.done := by
        intro hx
        have h0 := hret hx
        rw [hw] at h0
        simp only [wgCount, hx] at h0
        exact wgShare_sum_zero s.branches (by simpa using h0) b hmem
      split at h
      · rename_i hph
        simp only [Option.some.injEq] at h; subst h
        have hset := wgShare_set s.branches i b
          { b with phase := Phase.loop (processURL W d b.url b.depth).calls } hget
        simp only [wgShare, hph] at hset
        refine ⟨by simp only [wgCount] at hw ⊢; omega, ?_, fun hx => absurd hx hnstart,
          fun hx => absurd (Or.inr hx) hnstart, fun _ _ => hmk⟩
        intro hx
        have := hnotdone hx
        rw [hph] at this
        exact absurd this (by simp)
      · rename_i hph
        simp only [Option.some.injEq] at h; subst h
        have hset := wgShare_set s.branches i b { b with phase := Phase.released } hget
        simp only [wgShare, hph] at hset
        refine ⟨by simp only [wgCount] at hw ⊢; omega, ?_, fun hx => absurd hx hnstart,
          fun hx => absurd (Or.inr hx) hnstart, fun _ _ => hmk⟩
        intro hx
        have := hnotdone hx
        rw [hph] at this
        exact absurd this (by simp)
      · rename_i u dp rest hph
        have hnr : ¬ s.main = MainPhase.returned := by
          intro hx
          have := hnotdone hx
          rw [hph] at this
          exact absurd this (by simp)
        split at h
        · simp only [Option.some.injEq] at h; subst h
          have hset := wgShare_set s.branches i b { b with phase := Phase.acquire u dp rest } hget
          simp only [wgShare, hph] at hset
          exact ⟨by simp only [wgCount] at hw ⊢; omega, fun hx => absurd hx hnr,
            fun hx => absurd hx hnstart, fun hx => absurd (Or.inr hx) hnstart, fun _ _ => hmk⟩
        · simp only [Option.some.injEq] at h; subst h
          have hset := wgShare_set s.branches i b { b with phase := Phase.loop rest } hget
          simp only [wgShare, hph] at hset
          exact ⟨by simp only [wgCount] at hw ⊢; omega, fun hx => absurd hx hnr,
            fun hx => absurd hx hnstart, fun hx => absurd (Or.inr hx) hnstart, fun _ _ => hmk⟩
      · rename_i u dp rest hph
        have hnr : ¬ s.main = MainPhase.returned := by
          intro hx
          have := hnotdone hx
          rw [hph] at this
          exact absurd this (by simp)
        split at h
        · simp only [Option.some.injEq] at h; subst h
          have hset := wgShare_set s.branches i b { b with phase := Phase.loop rest } hget
          simp only [wgShare, hph] at hset
          refine ⟨?_, fun hx => absurd hx hnr, fun hx => absurd hx hnstart,
            fun hx => absurd (Or.inr hx) hnstart, fun _ _ => hmk⟩
          simp only [wgCount, List.map_append, List.sum_append, List.map_cons, List.map_nil,
            List.sum_cons, List.sum_nil, wgShare] at hw ⊢
          omega
        · exact absurd h (by simp)
      · rename_i hph
        have hnr : ¬ s.main = MainPhase.returned := by
          intro hx
          have := hnotdone hx
          rw [hph] at this
          exact absurd this (by simp)
        simp only [Option.some.injEq] at h; subst h
        have hset := wgShare_set s.branches i b { b with phase := Phase.done } hget
        simp only [wgShare, hph] at hset
        exact ⟨by simp only [wgCount] at hw ⊢; omega, fun hx => absurd hx hnr,
          fun hx => absurd hx hnstart, fun hx => absurd (Or.inr hx) hnstart, fun _ _ => hmk⟩
      · exact absurd h (by simp)

theorem waitInv_reachable [CaseTables]
    (W : World) (d : Downloader) (s : State) (h : Reachable W d s) :
    WaitInv W d s := by
  apply reachable_invariant W d (WaitInv W d) _
    (fun s t s' hs hn => waitInv_step W d s s' t hs hn) s h
  refine ⟨by simp [wgCount, init], fun hx => by simp [init] at hx, fun _ => by simp [init],
    fun hx => by simp [init] at hx, fun hx => absurd rfl hx⟩

/-- C17: `Download` returns an error exactly when the creation of the output directory fails:
when it fails the first step of the caller returns the error and nothing else ever happens;
when it succeeds no state of the crawl has the error returned.  The state after a branch has
run `processURL` holds the actions and the calls of the run and not its error; when every
launched branch has ended the caller at `wg.Wait()` returns `nil`, and `Download` has returned
`nil` only when every launched branch has ended. -/
theorem download_error_iff [CaseTables] (W : World) (d : Downloader) :
    ((∃ s, Reachable W d s ∧ s.main = MainPhase.failed) ↔
        W.MkdirAll d.config.OutputDir = false) ∧
    (W.MkdirAll d.config.OutputDir = false →
        run W d init [Thread.main] = some { init with main := MainPhase.failed } ∧
        ∀ s, Reachable W d s → s = init ∨ s = { init with main := MainPhase.failed }) ∧
    (∀ s i b, s.branches.get? i = some b → b.phase = Phase.ready →
        stepBranch W d s i = some { s with
          log := s.log ++ (processURL W d b.url b.depth).events
          branches := s.branches.set i
            { b with phase := Phase.loop (processURL W d b.url b.depth).calls } }) ∧
    (∀ s, Reachable W d s → s.main = MainPhase.wait →
        (∀ b ∈ s.branches, b.phase = Phase.done) →
        stepMain W d s = some { s with main := MainPhase.returned }) ∧
    (∀ s, Reachable W d s → s.main = MainPhase.returned →
        ∀ b ∈ s.branches, b.phase = Phase.done) := by
  have hfirst : W.MkdirAll d.config.OutputDir = false →
      run W d init [Thread.main] = some { init with main := MainPhase.failed } := by
    intro hmk
    simp [run, next, stepMain, init, hmk]
  refine ⟨⟨?_, ?_⟩, ?_, ?_, ?_, ?_⟩
  · rintro ⟨s, hs, hm⟩
    exact (waitInv_reachable W d s hs).2.2.2.1 hm
  · intro hmk
    exact ⟨_, ⟨[Thread.main], hfirst hmk⟩, rfl⟩
  · intro hmk
    refine ⟨hfirst hmk, fun s hs => ?_⟩
    obtain ⟨_, _, hstart, _, hok⟩ := waitInv_reachable W d s hs
    have hm : s.main = MainPhase.start ∨ s.main = MainPhase.failed := by
      by_contra hx
      have := hok (fun h => hx (Or.inl h)) (fun h => hx (Or.inr h))
      rw [hmk] at this
      exact absurd this (by simp)
    obtain ⟨v0, v1, v2, v3, v4⟩ := hstart hm
    cases s with
    | mk visited semaphore wg main branches log =>
      simp only at v0 v1 v2 v3 v4 hm
      subst v0 v1 v2 v3 v4
      rcases hm with hm | hm
      · left; rw [hm]; rfl
      · right; rw [hm]; rfl
  · intro s i b hget hph
    simp only [stepBranch, hget, hph]
  · intro s hs hm hdone
    have hw := (waitInv_reachable W d s hs).1
    simp only [wgCount, hm, wgShare_sum_done s.branches hdone] at hw
    have hz : s.wg = 0 := by simpa using hw
    simp only [stepMain, hm, hz, if_true]
  · intro s hs hm
    obtain ⟨hw, hret, _⟩ := waitInv_reachable W d s hs
    have h0 := hret hm
    rw [hw] at h0
    simp only [wgCount, hm] at h0
    exact wgShare_sum_zero s.branches (by simpa using h0)

/-- Witness of C17: the example world with the seed `http://example.com/missing`, a URL that
cannot be parsed there: `processURL` returns an error, the branch ends, and `Download` returns
`nil`. -/
theorem download_error_iff_witness :
    (processURL Example.site
        (Example.siteDownloader (Example.exampleURL "/missing".toList []) 1 1 none)
        "http://example.com/missing".toList 0).err = true ∧
    (run Example.site (Example.siteDownloader (Example.exampleURL "/missing".toList []) 1 1 none)
        init [Thread.main, Thread.main, Thread.main, Thread.branch 0, Thread.branch 0,
              Thread.branch 0, Thread.main]).map (fun s => (s.main, s.wg))
      = some (MainPhase.returned, 0) ∧
    (∀ s, run Example.site
        (Example.siteDownloader (Example.exampleURL "/missing".toList []) 1 1 none)
        init [Thread.main, Thread.main, Thread.main, Thread.branch 0, Thread.branch 0,
              Thread.branch 0, Thread.main] = some s →
      s.main = MainPhase.returned → ∀ b ∈ s.branches, b.phase = Phase.done) :=
  ⟨by decide, by decide,
   fun s hs => (download_error_iff Example.site
      (Example.siteDownloader (Example.exampleURL "/missing".toList []) 1 1 none)).2.2.2.2
      s ⟨_, hs⟩⟩

/-! ## Discarded link values and path collisions -/

/-- C24: for every base URL and every raw attribute value whose trimmed form is empty or
starts with `#`, `javascript:`, `mailto:` or `tel:`, `normalizeURL` returns the empty string,
and the attribute loop of `extractLinks` goes on with `links` and `seen` unchanged: the value
gives no candidate URL. -/
theorem normalizeURL_discards (W : World) (d : Downloader) (href : Str) (base : URL)
    (h : TrimSpace href = [] ∨ HasPrefix (TrimSpace href) "#".toList = true ∨
      HasPrefix (TrimSpace href) "javascript:".toList = true ∨
      HasPrefix (TrimSpace href) "mailto:".toList = true ∨
      HasPrefix (TrimSpace href) "tel:".toList = true) :
    normalizeURL W d href base = [] ∧
    ∀ (key k : Str) (rest : List (Str × Str)) (st : LinkState),
      attrLoop W d base key ((k, href) :: rest) st = attrLoop W d base key rest st := by
  have h0 : normalizeURL W d href base = [] := by
    unfold normalizeURL
    simp only []
    rw [if_pos h]
  refine ⟨h0, fun key k rest st => ?_⟩
  simp only [attrLoop, h0]
  split_ifs <;> first | rfl | (rename_i hx; exact absurd rfl hx.1)

/-- Witness of C24: the values ` #top `, `javascript:void(0)`, `mailto:a@example.com` and
`tel:123` on the page `/` of the example site. -/
theorem normalizeURL_discards_witness :
    normalizeURL Example.site Example.onePermit " #top ".toList
        (Example.exampleURL "/".toList []) = [] ∧
    normalizeURL Example.site Example.onePermit "javascript:void(0)".toList
        (Example.exampleURL "/".toList []) = [] ∧
    normalizeURL Example.site Example.onePermit "mailto:a@example.com".toList
        (Example.exampleURL "/".toList []) = [] ∧
    normalizeURL Example.site Example.onePermit "tel:123".toList
        (Example.exampleURL "/".toList []) = [] ∧
    normalizeURL Example.site Example.onePermit "  ".toList
        (Example.exampleURL "/".toList []) = [] :=
  ⟨(normalizeURL_discards Example.site Example.onePermit " #top ".toList _
      (Or.inr (Or.inl (by decide)))).1,
   (normalizeURL_discards Example.site Example.onePermit "javascript:void(0)".toList _
      (Or.inr (Or.inr (Or.inl (by decide))))).1,
   (normalizeURL_discards Example.site Example.onePermit "mailto:a@example.com".toList _
      (Or.inr (Or.inr (Or.inr (Or.inl (by decide)))))).1,
   (normalizeURL_discards Example.site Example.onePermit "tel:123".toList _
      (Or.inr (Or.inr (Or.inr (Or.inr (by decide)))))).1,
   (normalizeURL_discards Example.site Example.onePermit "  ".toList _
      (Or.inl (by decide))).1⟩

/-- C28: `getLocalPath` is not injective: for every output directory (and every
`filepath.Join`) a URL of path `/a` and a URL of path `/a.html` are mapped to the same local
path, the join of the output directory and `a.html`. -/
theorem getLocalPath_collision (W : World) (d : Downloader) (u1 u2 : URL)
    (h1 : u1.Path = "/a".toList) (h2 : u2.Path = "/a.html".toList) :
    getLocalPath W d u1 = getLocalPath W d u2 ∧
    getLocalPath W d u1 = W.Join d.config.OutputDir "a.html".toList := by
  have e1 : getLocalPath W d u1 = W.Join d.config.OutputDir "a.html".toList := by
    unfold getLocalPath
    rw [h1]
    rfl
  have e2 : getLocalPath W d u2 = W.Join d.config.OutputDir "a.html".toList := by
    unfold getLocalPath
    rw [h2]
    rfl
  exact ⟨e1.trans e2.symm, e1⟩

/-- Witness of C28: in the example world the pages `/a` and `/a.html` have different bodies
and `processURL` saves both at `downloaded_site/a.html`. -/
theorem getLocalPath_collision_witness :
    getLocalPath Example.site Example.onePermit (Example.exampleURL "/a".toList [])
      = getLocalPath Example.site Example.onePermit (Example.exampleURL "/a.html".toList []) ∧
    (processURL Example.site Example.onePermit "http://example.com/a".toList 1).events =
      [Event.pace, Event.get "http://example.com/a".toList,
       Event.save "downloaded_site/a.html".toList "<a href=\"/a\">a</a>".toList] ∧
    (processURL Example.site Example.onePermit "http://example.com/a.html".toList 1).events =
      [Event.pace, Event.get "http://example.com/a.html".toList,
       Event.save "downloaded_site/a.html".toList "other".toList] :=
  ⟨(getLocalPath_collision Example.site Example.onePermit (Example.exampleURL "/a".toList [])
      (Example.exampleURL "/a.html".toList []) rfl rfl).1,
   by decide, by decide⟩

/-! ## Link extraction -/

theorem specReads_iff (data key : Str) :
    specReads data key = true ↔ (key = linkAttr data ∧ linkAttr data ≠ []) := by
  have e1 : "href".toList ≠ ([] : Str) := by decide
  have e2 : "src".toList ≠ ([] : Str) := by decide
  have e3 : "srcset".toList ≠ ([] : Str) := by decide
  have n1 : ∀ x : Str, (x = "a".toList ∨ x = "link".toList) →
      x ≠ "script".toList ∧ x ≠ "img".toList ∧ x ≠ "source".toList := by
    rintro _ (rfl | rfl) <;> decide
  have n2 : ∀ x : Str, (x = "script".toList ∨ x = "img".toList) → x ≠ "source".toList := by
    rintro _ (rfl | rfl) <;> decide
  unfold specReads linkAttr
  simp only [Bool.or_eq_true, Bool.and_eq_true, decide_eq_true_eq]
  split_ifs with h1 h2 h3
  · obtain ⟨a, b, c⟩ := n1 data h1
    constructor
    · rintro ((⟨h, _⟩ | ⟨_, h⟩) | ⟨_, h⟩)
      · exact ⟨h, e1⟩
      · rcases h with h | h
        · exact absurd h a
        · exact absurd h b
      · exact absurd h c
    · rintro ⟨h, _⟩
      exact Or.inl (Or.inl ⟨h, h1⟩)
  · have c := n2 data h2
    constructor
    · rintro ((⟨_, h⟩ | ⟨h, _⟩) | ⟨_, h⟩)
      · exact absurd h h1
      · exact ⟨h, e2⟩
      · exact absurd h c
    · rintro ⟨h, _⟩
      exact Or.inl (Or.inr ⟨h, h2⟩)
  · constructor
    · rintro ((⟨_, h⟩ | ⟨_, h⟩) | ⟨h, _⟩)
      · exact absurd h h1
      · exact absurd h h2
      · exact ⟨h, e3⟩
    · rintro ⟨h, _⟩
      exact Or.inr ⟨h, h3⟩
  · constructor
    · rintro ((⟨_, h⟩ | ⟨_, h⟩) | ⟨_, h⟩)
      · exact absurd h h1
      · exact absurd h h2
      · exact absurd h h3
    · rintro ⟨_, h⟩
      exact absurd rfl h

theorem attrLoop_eq_foldl (W : World) (d : Downloader) (base : URL) (key : Str) :
    ∀ (attr : List (Str × Str)) (st : LinkState),
      attrLoop W d base key attr st =
        (((attr.filter (fun kv => decide (kv.1 = key))).map Prod.snd).map
          (fun v => normalizeURL W d v base)).foldl addLink st := by
  intro attr
  induction attr with
  | nil => intro st; rfl
  | cons a rest ih =>
    intro st
    obtain ⟨k, v⟩ := a
    simp only [attrLoop]
    by_cases hk : k = key
    · simp only [hk, if_true, List.filter_cons, decide_True, List.map_cons, List.foldl_cons]
      rw [← ih]
      unfold addLink
      split <;> rw [ih]
    · simp only [hk, if_false, List.filter_cons, decide_False]
      exact ih st

theorem nodeStep_eq_foldl (W : World) (d : Downloader) (base : URL) (isElement : Bool)
    (data : Str) (attr : List (Str × Str)) (st : LinkState) :
    (if isElement then
        (if linkAttr data ≠ [] then attrLoop W d base (linkAttr data) attr st else st)
      else st) =
      ((nodeValues isElement data attr).map (fun v => normalizeURL W d v base)).foldl addLink st := by
  unfold nodeValues
  cases isElement with
  | false => simp
  | true =>
    simp only [if_true]
    by_cases hk : linkAttr data = []
    · have hf : attr.filter (fun kv => specReads data kv.1) = [] := by
        apply List.filter_eq_nil_iff.2
        intro a _ ha
        exact ((specReads_iff data a.1).1 ha).2 hk
      simp [hk, hf]
    · have hf : attr.filter (fun kv => specReads data kv.1) =
          attr.filter (fun kv => decide (kv.1 = linkAttr data)) := by
        apply List.filter_congr
        intro a _
        rw [Bool.eq_iff_iff, specReads_iff]
        simp [hk]
      rw [if_pos hk, hf]
      exact attrLoop_eq_foldl W d base _ attr st

mutual
theorem traverse_eq_foldl (W : World) (d : Downloader) (base : URL) :
    ∀ (n : Node) (st : LinkState),
      traverse W d base n st =
        ((linkValues n).map (fun v => normalizeURL W d v base)).foldl addLink st
  | Node.mk isElement data attr children, st => by
    rw [traverse, linkValues, List.map_append, List.foldl_append,
      traverseList_eq_foldl W d base children]
    congr 1
    exact nodeStep_eq_foldl W d base isElement data attr st
theorem traverseList_eq_foldl (W : World) (d : Downloader) (base : URL) :
    ∀ (ns : List Node) (st : LinkState),
      traverseList W d base ns st =
        ((linkValuesList ns).map (fun v => normalizeURL W d v base)).foldl addLink st
  | [], st => by rw [traverseList, linkValuesList]; rfl
  | c :: cs, st => by
    rw [traverseList, linkValuesList, List.map_append, List.foldl_append,
      traverseList_eq_foldl W d base cs, traverse_eq_foldl W d base c]
end

theorem foldl_addLink_links : ∀ (cs : List Str) (st : LinkState),
    (cs.foldl addLink st).links =
      st.links ++ (removeLater (cs.filter (fun l => decide (l ≠ [])))).filter
        (fun l => decide (l ∉ st.seen)) := by
  intro cs
  induction cs with
  | nil => intro st; simp [removeLater]
  | cons x xs ih =>
    intro st
    rw [List.foldl_cons, ih]
    unfold addLink
    by_cases hx : x = []
    · simp [hx]
    · by_cases hs : x ∈ st.seen
      · have hcond : ¬ (x ≠ [] ∧ x ∉ st.seen) := fun h => h.2 hs
        rw [if_neg hcond]
        simp only [List.filter_cons, hx, ne_eq, not_false_eq_true, decide_True, if_true,
          removeLater, hs, not_true_eq_false, decide_False, List.filter_filter]
        congr 1
        apply List.filter_congr
        intro y _
        by_cases hy : y = x
        · simp [hy, hs]
        · simp [hy]
      · have hcond : x ≠ [] ∧ x ∉ st.seen := ⟨hx, hs⟩
        rw [if_pos hcond]
        simp only [List.filter_cons, hx, ne_eq, not_false_eq_true, decide_True, if_true,
          removeLater, hs, List.filter_filter, List.append_assoc, List.singleton_append]
        congr 2
        apply List.filter_congr
        intro y _
        by_cases hy : y = x
        · simp [hy]
        · simp [hy]

theorem removeLater_nodup : ∀ l : List Str, (removeLater l).Nodup := by
  intro l
  induction l with
  | nil => simp [removeLater]
  | cons x xs ih =>
    rw [removeLater, List.nodup_cons]
    refine ⟨?_, ih.filter _⟩
    simp [List.mem_filter]

/-- C26: for every tree returned by the HTML parser and every base URL, the list returned by
`extractLinks` is the list of the non-empty `normalizeURL` results of the link attribute
values of the tree, taken in document (pre-order) order, with every occurrence after the
first removed; it has no duplicate.  When the HTML parser fails the list is empty. -/
theorem extractLinks_first_occurrences (W : World) (d : Downloader) (body : Str) (base : URL) :
    extractLinks W d body base =
      (match W.HtmlParse body with
       | none => []
       | some doc =>
         removeLater (((linkValues doc).map (fun v => normalizeURL W d v base)).filter
           (fun l => decide (l ≠ [])))) ∧
    (extractLinks W d body base).Nodup := by
  have h : extractLinks W d body base =
      (match W.HtmlParse body with
       | none => []
       | some doc =>
         removeLater (((linkValues doc).map (fun v => normalizeURL W d v base)).filter
           (fun l => decide (l ≠ [])))) := by
    unfold extractLinks
    cases W.HtmlParse body with
    | none => rfl
    | some doc =>
      simp only []
      rw [traverse_eq_foldl, foldl_addLink_links]
      simp
  refine ⟨h, ?_⟩
  rw [h]
  cases W.HtmlParse body with
  | none => simp
  | some doc => exact removeLater_nodup _

theorem nodeValues_keep (isElement : Bool) (data : Str) (attr : List (Str × Str)) :
    nodeValues isElement data (attr.filter (fun kv => isElement && specReads data kv.1)) =
      nodeValues isElement data attr := by
  unfold nodeValues
  cases isElement with
  | false => rfl
  | true =>
    simp only [if_true, Bool.true_and, List.filter_filter, Bool.and_self]

mutual
theorem linkValues_keep : ∀ n : Node, linkValues (keepLinkAttrs n) = linkValues n
  | Node.mk isElement data attr children => by
    rw [keepLinkAttrs, linkValues, linkValues, nodeValues_keep, linkValuesList_keep children]
theorem linkValuesList_keep : ∀ ns : List Node,
    linkValuesList (keepLinkAttrsList ns) = linkValuesList ns
  | [] => by rw [keepLinkAttrsList]
  | c :: cs => by
    rw [keepLinkAttrsList, linkValuesList, linkValuesList, linkValues_keep c,
      linkValuesList_keep cs]
end

theorem nodeValues_insert (isElement : Bool) (data k v : Str) (pre post : List (Str × Str))
    (h : ¬ (isElement = true ∧ specReads data k = true)) :
    nodeValues isElement data (pre ++ (k, v) :: post) = nodeValues isElement data (pre ++ post) := by
  unfold nodeValues
  cases isElement with
  | false => rfl
  | true =>
    have hk : specReads data k = false := by
      cases hs : specReads data k with
      | false => rfl
      | true => exact absurd ⟨rfl, hs⟩ h
    simp [List.filter_append, List.filter_cons, hk]

/-- C27: for every HTML tree, `extractLinks` reads only the `href` attribute of `a` and `link`
elements, the `src` attribute of `script` and `img` elements and the `srcset` attribute of
`source` elements: the attribute key selected for an element name is the one of this table;
an attribute outside the table (another attribute of those elements, any attribute of another
element or of a node that is not an element), at any position among the attributes of a node,
does not change the result of the traversal; and the result of `extractLinks` is the same when
the parser returns the tree with all attributes outside the table removed. -/
theorem extractLinks_reads_only (W : World) (d : Downloader) (base : URL) :
    (∀ data key : Str, (key = linkAttr data ∧ linkAttr data ≠ []) ↔ specReads data key = true) ∧
    (∀ (isElement : Bool) (data k v : Str) (pre post : List (Str × Str)) (children : List Node)
        (st : LinkState), ¬ (isElement = true ∧ specReads data k = true) →
        traverse W d base (Node.mk isElement data (pre ++ (k, v) :: post) children) st =
          traverse W d base (Node.mk isElement data (pre ++ post) children) st) ∧
    (∀ (n : Node) (st : LinkState),
        traverse W d base (keepLinkAttrs n) st = traverse W d base n st) ∧
    (∀ body : Str,
        extractLinks { W with HtmlParse := fun b => (W.HtmlParse b).map keepLinkAttrs } d body base =
          extractLinks W d body base) := by
  refine ⟨fun data key => (specReads_iff data key).symm, ?_, ?_, ?_⟩
  · intro isElement data k v pre post children st h
    rw [traverse_eq_foldl, traverse_eq_foldl, linkValues, linkValues,
      nodeValues_insert isElement data k v pre post h]
  · intro n st
    rw [traverse_eq_foldl, traverse_eq_foldl, linkValues_keep]
  · intro body
    unfold extractLinks
    simp only []
    cases W.HtmlParse body with
    | none => rfl
    | some doc =>
      simp only [Option.map_some']
      rw [traverse_eq_foldl, traverse_eq_foldl, linkValues_keep]
      rfl

/-- Witness of C27: an `img` element with an `href` attribute and a `div` element with `href`
and `src` attributes give no link, the `a` element gives one. -/
theorem extractLinks_reads_only_witness :
    traverse Example.site (Example.siteDownloader (Example.exampleURL "/".toList []) 1 2 none)
        (Example.exampleURL "/".toList [])
        (Node.mk true "html".toList []
          [Node.mk true "img".toList [("href".toList, "/a".toList)] [],
           Node.mk true "div".toList [("href".toList, "/a".toList), ("src".toList, "/a".toList)] [],
           Node.mk true "a".toList [("href".toList, "/a".toList)] []])
        { links := [], seen := [] } =
      traverse Example.site (Example.siteDownloader (Example.exampleURL "/".toList []) 1 2 none)
        (Example.exampleURL "/".toList [])
        (Node.mk true "html".toList []
          [Node.mk true "img".toList [] [],
           Node.mk true "div".toList [("src".toList, "/a".toList)] [],
           Node.mk true "a".toList [("href".toList, "/a".toList)] []])
        { links := [], seen := [] } := by
  have h := (extractLinks_reads_only Example.site
    (Example.siteDownloader (Example.exampleURL "/".toList []) 1 2 none)
    (Example.exampleURL "/".toList [])).2.2.1
  rw [← h (Node.mk true "html".toList []
          [Node.mk true "img".toList [("href".toList, "/a".toList)] [],
           Node.mk true "div".toList [("href".toList, "/a".toList), ("src".toList, "/a".toList)] [],
           Node.mk true "a".toList [("href".toList, "/a".toList)] []])]
  rw [← h (Node.mk true "html".toList []
          [Node.mk true "img".toList [] [],
           Node.mk true "div".toList [("src".toList, "/a".toList)] [],
           Node.mk true "a".toList [("href".toList, "/a".toList)] []])]
  rfl

/-! ## Fragment stripping -/

end Crawler

end Wget


